import Mathlib

/-!
# Marching-triangles isoline extraction (homework1/src/main.cpp)

A shallow embedding of `generateGraph`, `updateGraph` and `addIsoline` together
with the properties of the contouring core that are established about them.

Modelling conventions.
* A `float` is modelled by the rational number it denotes (`ℚ`).
  In `generateGraph` every float operation is rounded to binary32 (round to
  nearest, ties to even: `roundF32`), each operation on its own (no fused
  multiply-add), and an `int` operand is converted to `float` first.  The
  conversion `(int)` of a float is undefined in the source when the quotient
  is not finite or its truncation is outside the range of `int`; the embedding
  returns `none` there.  `roundF32` has no upper exponent bound: overflow to
  infinity is tested where the conversion depends on it (`gridDim`), and a
  vertex position that would overflow to infinity is not modelled.
  `updateGraph` and `addIsoline` are modelled in exact arithmetic, with
  `float eps = 0.01` read as `1/100`; what is established about their numeric
  results are properties of exact arithmetic.  The binary32 reading of the
  classification test `values[i] + eps > isoValue` is given next to it
  (`eps32`, `shiftF32`, `triangleMask`).  A division by zero inside
  `addIsoline` is excluded by the classification mask.
* `int` is modelled by `Int`; buffer sizes and grid dimensions are assumed to
  stay inside the 32-bit range, so signed overflow is not modelled.  The
  explicit `unsigned` / `std::uint64_t` conversions of the edge key are kept.
* `std::vector` is a `List`; an out-of-range `operator[]` is undefined in the
  source and makes the embedded function return `none`.
* `std::unordered_map<std::uint64_t, int>` is an association list that is
  only ever queried by key.
* `glm::mix(x, y, a)` is `x * (1 - a) + y * a`, componentwise.
* The float functions `sin`, `cos` and the clock `glfwGetTime()` used by
  `updateGraph` are parameters of its embedding.
-/

namespace Homework1

/-! ## Data model -/

/-- The type `glm::vec2`. -/
structure Vec2 where
  x : ℚ
  y : ℚ
deriving DecidableEq

/-- The type `glm::vec3`. -/
structure Vec3 where
  x : ℚ
  y : ℚ
  z : ℚ
deriving DecidableEq

/-- The struct `GraphData` (main.cpp:17-21). -/
structure GraphData where
  coords : List Vec2
  values : List ℚ
  indices : List Int
deriving DecidableEq

/-- The struct `IsolinesData` (main.cpp:73-76). -/
structure IsolinesData where
  coords : List Vec3
  indices : List Int
deriving DecidableEq

/-- The constructor `glm::vec3(vec2, float)`. -/
def vec3 (p : Vec2) (t : ℚ) : Vec3 := ⟨p.x, p.y, t⟩

/-- The GLM function `glm::mix(x, y, a) = x * (1 - a) + y * a`. -/
def mix (x y : Vec3) (a : ℚ) : Vec3 :=
  ⟨x.x * (1 - a) + y.x * a, x.y * (1 - a) + y.y * a, x.z * (1 - a) + y.z * a⟩

/-- Read `v[i]` for an `int` index: `none` when the access is out of range. -/
def readAt {α : Type} (v : List α) (i : Int) : Option α :=
  if 0 ≤ i then v[i.toNat]? else none

/-! ## Binary32 arithmetic -/

/-- Rounding of a rational number to the nearest integer, ties to the even
one. -/
def roundHalfEven (x : ℚ) : Int :=
  if x - ⌊x⌋ < 1 / 2 then ⌊x⌋
  else if 1 / 2 < x - ⌊x⌋ then ⌊x⌋ + 1
  else if ⌊x⌋ % 2 = 0 then ⌊x⌋ else ⌊x⌋ + 1

/-- The spacing of the binary32 values at the magnitude `a ≥ 0`: `2^(e - 23)`
for `2^e ≤ a < 2^(e + 1)`, and `2^(-149)` below the smallest normal value
`2^(-126)`. -/
def ulpF32 (a : ℚ) : ℚ := 2 ^ (max (Int.log 2 a) (-126) - 23)

/-- The result of a binary32 operation whose exact result is `q`: the nearest
multiple of the spacing at the magnitude of `q`, ties to even (IEEE 754
round-to-nearest-even, sign and magnitude). -/
def roundF32 (q : ℚ) : ℚ :=
  if q < 0 then -(roundHalfEven (-q / ulpF32 (-q)) * ulpF32 (-q))
  else roundHalfEven (q / ulpF32 q) * ulpF32 q

/-! ## generateGraph (main.cpp:23-61) -/

/-- The C conversion `(int) q` of a finite float `q`: truncation toward zero;
`none` when the truncated value is outside `[-2^31, 2^31 - 1]`, where the
conversion is undefined. -/
def truncInt (q : ℚ) : Option Int :=
  if -(2 ^ 31) - 1 < q ∧ q < 2 ^ 31 then some (Int.tdiv q.num q.den) else none

/-- A derived dimension `(int)((hi - lo) / step)` (main.cpp:29-30): float
subtraction, float division, conversion to `int`. `none` when the quotient is
not finite (`step = 0`, or the difference overflows to infinity) or the
conversion is out of range. -/
def gridDim (lo hi step : ℚ) : Option Int :=
  if step = 0 then none
  else if 2 ^ 128 ≤ |roundF32 (hi - lo)| then none
  else truncInt (roundF32 (roundF32 (hi - lo) / step))

/-- The default `float step = 0.1f` (main.cpp:185) as the binary32 value it is
stored as, `13421773 * 2^(-27)`. -/
def defaultStep : ℚ := 13421773 / 2 ^ 27

/-- The float expression `i * step + lo` (main.cpp:33, 35): `i` converted to
`float`, float multiplication, float addition. -/
def gridCoord (lo step : ℚ) (i : Nat) : ℚ :=
  roundF32 (roundF32 (roundF32 (i : ℚ) * step) + lo)

/-- Neither float operation of `i * step + lo` overflows to infinity, so that
`gridCoord lo step i` is the value the source computes. -/
def gridCoordFinite (lo step : ℚ) (i : Nat) : Prop :=
  |roundF32 (roundF32 (i : ℚ) * step)| < 2 ^ 128 ∧ |gridCoord lo step i| < 2 ^ 128

instance (lo step : ℚ) (i : Nat) : Decidable (gridCoordFinite lo step i) := by
  unfold gridCoordFinite
  infer_instance

/-- Body of the inner vertex loop (main.cpp:35-38). -/
def pushVertex (xmin ymin step : ℚ) (i : Nat) (result : GraphData) (j : Nat) : GraphData :=
  let x := gridCoord xmin step i
  let y := gridCoord ymin step j
  { result with coords := result.coords ++ [⟨x, y⟩], values := result.values ++ [0] }

/-- Body of the inner cell loop (main.cpp:44-56). -/
def pushCell (m : Int) (i : Nat) (result : GraphData) (j : Nat) : GraphData :=
  let idx0 : Int := i * m + j
  let idx1 : Int := (i + 1) * m + j
  let idx2 : Int := (i + 1) * m + j + 1
  let idx3 : Int := i * m + j + 1
  { result with indices := result.indices ++ [idx0, idx1, idx3, idx1, idx2, idx3] }

/-- The vertex loops (main.cpp:32-40) followed by the cell loops
(main.cpp:42-58), for given dimensions `n`, `m`. -/
def buildGraph (xmin ymin step : ℚ) (n m : Int) : GraphData :=
  let result : GraphData := ⟨[], [], []⟩
  let result := (List.range n.toNat).foldl
    (fun r i => (List.range m.toNat).foldl (pushVertex xmin ymin step i) r) result
  (List.range (n - 1).toNat).foldl
    (fun r i => (List.range (m - 1).toNat).foldl (pushCell m i) r) result

/-- The function `generateGraph`. `none` stands for an undefined conversion
to `int` of one of the two quotients (see `gridDim`). -/
def generateGraph (xmin xmax ymin ymax step : ℚ) : Option GraphData := do
  let n ← gridDim xmin xmax step
  let m ← gridDim ymin ymax step
  pure (buildGraph xmin ymin step n m)

/-! ## updateGraph (main.cpp:63-71) -/

/-- One iteration of the loop of `updateGraph` (main.cpp:66-69). The float
functions `sin` and `cos` are the parameters `sinF` and `cosF`, and `t` is the
value returned by `glfwGetTime()`. Writing `values[i]` out of range is
undefined in the source and gives `none`. -/
def updateVertex (sinF cosF : ℚ → ℚ) (t : ℚ) (graph : GraphData) (i : Nat) :
    Option GraphData := do
  let p ← graph.coords[i]?
  let x := p.x
  let y := p.y
  if i < graph.values.length then
    pure { graph with values := graph.values.set i (sinF (x + 3 * t) + cosF (y + t)) }
  else
    none

/-- The loop of `updateGraph` over the remaining values of `i`. -/
def updateLoop (sinF cosF : ℚ → ℚ) (t : ℚ) : List Nat → GraphData → Option GraphData
  | [], graph => some graph
  | i :: rest, graph => (updateVertex sinF cosF t graph i).bind (updateLoop sinF cosF t rest)

/-- The function `updateGraph`: `i` runs from `0` to `coords.size() - 1`. -/
def updateGraph (sinF cosF : ℚ → ℚ) (t : ℚ) (graph : GraphData) : Option GraphData :=
  updateLoop sinF cosF t (List.range graph.coords.length) graph

/-! ## addIsoline (main.cpp:78-137) -/

/-- The constant `float eps = 0.01`, read in exact arithmetic. -/
def eps : ℚ := 1 / 100

/-- The constant `float eps = 0.01` as the binary32 value it is stored as,
`10737418 * 2^(-30)` (bit pattern `0x3C23D70A`). -/
def eps32 : ℚ := 10737418 / 2 ^ 30

/-- The float sum `graph.values[i] + eps` (main.cpp:106-108) in binary32. -/
def shiftF32 (v : ℚ) : ℚ := roundF32 (v + eps32)

/-- Conversion of an `int` argument to the `unsigned` parameter of `add`. -/
def toUnsigned (i : Int) : Nat := (i % 2 ^ 32).toNat

/-- The 64-bit key built by `add` (main.cpp:84-87): swap so that the smaller
index comes first, shift it left by 32 and or in the larger one. -/
def edgeKey (i0 i1 : Int) : Nat :=
  let idx0 := toUnsigned i0
  let idx1 := toUnsigned i1
  let lo := if idx0 > idx1 then idx1 else idx0
  let hi := if idx0 > idx1 then idx0 else idx1
  ((lo <<< 32) % 2 ^ 64) ||| hi

/-- The state the lambda `add` works on: the local map `idxs` and the output
mesh `isolines`. -/
structure AddState where
  idxs : List (Nat × Int)
  isolines : IsolinesData
deriving DecidableEq

/-- The lambda `add` (main.cpp:83-95). -/
def add (st : AddState) (coords : Vec3) (idx0 idx1 : Int) : AddState :=
  let idx := edgeKey idx0 idx1
  match st.idxs.lookup idx with
  | none =>
    let k : Int := st.isolines.coords.length
    { idxs := (idx, k) :: st.idxs
      isolines :=
        { coords := st.isolines.coords ++ [coords]
          indices := st.isolines.indices ++ [k] } }
  | some k =>
    { st with isolines := { st.isolines with indices := st.isolines.indices ++ [k] } }

/-- A comparison result as the integer `0` or `1`. -/
def bit (p : Bool) : Nat := if p then 1 else 0

/-- The classification mask (main.cpp:110). -/
def classify (t0 t1 t2 value : ℚ) : Nat :=
  bit (decide (t0 > value)) ||| (bit (decide (t1 > value)) <<< 1) |||
    (bit (decide (t2 > value)) <<< 2)

/-- The remap `mask ^= 7` of the two-above masks (main.cpp:116-118). -/
def remap (mask : Nat) : Nat :=
  if mask = 3 ∨ mask = 5 ∨ mask = 6 then mask ^^^ 7 else mask

/-- One iteration of the triangle loop (main.cpp:98-135) for the triangle
with vertex indices `i0 i1 i2`. -/
def triangle (graph : GraphData) (value : ℚ) (st : AddState) (i0 i1 i2 : Int) :
    Option AddState := do
  let p0 ← readAt graph.coords i0
  let p1 ← readAt graph.coords i1
  let p2 ← readAt graph.coords i2
  let t0 := (← readAt graph.values i0) + eps
  let t1 := (← readAt graph.values i1) + eps
  let t2 := (← readAt graph.values i2) + eps
  let mask := classify t0 t1 t2 value
  if mask = 0 ∨ mask = 7 then
    pure st
  else
    let mask := remap mask
    if mask = 1 then
      let a := (value - t1) / (t0 - t1)
      let st := add st (mix (vec3 p0 t0) (vec3 p1 t1) (1 - a)) i0 i1
      let b := (value - t2) / (t0 - t2)
      pure (add st (mix (vec3 p0 t0) (vec3 p2 t2) (1 - b)) i0 i2)
    else if mask = 2 then
      let a := (value - t0) / (t1 - t0)
      let st := add st (mix (vec3 p1 t1) (vec3 p0 t0) (1 - a)) i0 i1
      let b := (value - t2) / (t1 - t2)
      pure (add st (mix (vec3 p1 t1) (vec3 p2 t2) (1 - b)) i1 i2)
    else
      let a := (value - t1) / (t2 - t1)
      let st := add st (mix (vec3 p2 t2) (vec3 p1 t1) (1 - a)) i1 i2
      let b := (value - t0) / (t2 - t0)
      pure (add st (mix (vec3 p2 t2) (vec3 p0 t0) (1 - b)) i0 i2)

/-- The six reads and the classification mask of one loop iteration
(main.cpp:99-110). The parameter `shift` is the float sum `values[i] + eps`:
`fun v => v + eps` in exact arithmetic (the reading used by `triangle`),
`shiftF32` in binary32. -/
def triangleMask (shift : ℚ → ℚ) (graph : GraphData) (value : ℚ) (i0 i1 i2 : Int) :
    Option Nat := do
  let _ ← readAt graph.coords i0
  let _ ← readAt graph.coords i1
  let _ ← readAt graph.coords i2
  let t0 := shift (← readAt graph.values i0)
  let t1 := shift (← readAt graph.values i1)
  let t2 := shift (← readAt graph.values i2)
  pure (classify t0 t1 t2 value)

/-- The triangle loop (main.cpp:97-136) over the remaining index list; a
list whose length is not a multiple of three makes `indices[i + 1]` or
`indices[i + 2]` an out-of-range read. -/
def triangleLoop (graph : GraphData) (value : ℚ) : List Int → AddState → Option AddState
  | [], st => some st
  | i0 :: i1 :: i2 :: rest, st =>
    (triangle graph value st i0 i1 i2).bind (triangleLoop graph value rest)
  | _, _ => none

/-- The function `addIsoline`: a fresh map, then the triangle loop. -/
def addIsoline (graph : GraphData) (isolines : IsolinesData) (value : ℚ) :
    Option IsolinesData :=
  (triangleLoop graph value graph.indices ⟨[], isolines⟩).map (fun st => st.isolines)

/-! ## Auxiliary definitions used to state the properties -/

/-- The six indices pushed for cell `(i, j)` (main.cpp:51-56). -/
def cellIndices (m : Int) (i j : Nat) : List Int :=
  [i * m + j, (i + 1) * m + j, i * m + j + 1, (i + 1) * m + j, (i + 1) * m + j + 1, i * m + j + 1]

/-- The index list read three entries at a time, as the triangle loop reads
`indices[i]`, `indices[i + 1]`, `indices[i + 2]` for `i = 0, 3, 6, ...`. -/
def trianglesOf : List Int → List (Int × Int × Int)
  | i0 :: i1 :: i2 :: rest => (i0, i1, i2) :: trianglesOf rest
  | _ => []

/-- The empty grid: no vertices, no values, no triangles. -/
def emptyGraph : GraphData := ⟨[], [], []⟩

/-- The two triangles of cell `(i, j)` (main.cpp:51-56). -/
def cellTriangles (m : Int) (i j : Nat) : List (Int × Int × Int) :=
  [(i * m + j, (i + 1) * m + j, i * m + j + 1),
   ((i + 1) * m + j, (i + 1) * m + j + 1, i * m + j + 1)]

/-- One call of the lambda `add`: the point and the two endpoint indices
that are passed to it. -/
structure Crossing where
  point : Vec3
  idx0 : Int
  idx1 : Int
deriving DecidableEq

/-- The lambda `add` applied to the arguments recorded in a `Crossing`. -/
def addCrossing (st : AddState) (c : Crossing) : AddState :=
  add st c.point c.idx0 c.idx1

/-- The calls of `add` made by the branches of one loop iteration
(main.cpp:110-135), in the order in which they are made, for a triangle with
positions `p0 p1 p2`, shifted values `t0 t1 t2` and vertex indices `i0 i1 i2`. -/
def segmentCalls (p0 p1 p2 : Vec2) (t0 t1 t2 value : ℚ) (i0 i1 i2 : Int) : List Crossing :=
  let mask := classify t0 t1 t2 value
  if mask = 0 ∨ mask = 7 then
    []
  else
    let mask := remap mask
    if mask = 1 then
      let a := (value - t1) / (t0 - t1)
      let b := (value - t2) / (t0 - t2)
      [⟨mix (vec3 p0 t0) (vec3 p1 t1) (1 - a), i0, i1⟩,
       ⟨mix (vec3 p0 t0) (vec3 p2 t2) (1 - b), i0, i2⟩]
    else if mask = 2 then
      let a := (value - t0) / (t1 - t0)
      let b := (value - t2) / (t1 - t2)
      [⟨mix (vec3 p1 t1) (vec3 p0 t0) (1 - a), i0, i1⟩,
       ⟨mix (vec3 p1 t1) (vec3 p2 t2) (1 - b), i1, i2⟩]
    else
      let a := (value - t1) / (t2 - t1)
      let b := (value - t0) / (t2 - t0)
      [⟨mix (vec3 p2 t2) (vec3 p1 t1) (1 - a), i1, i2⟩,
       ⟨mix (vec3 p2 t2) (vec3 p0 t0) (1 - b), i0, i2⟩]

/-- The calls of `add` made by one iteration of the triangle loop
(main.cpp:98-135): the six reads, then the branches. -/
def segment (graph : GraphData) (value : ℚ) (i0 i1 i2 : Int) : Option (List Crossing) := do
  let p0 ← readAt graph.coords i0
  let p1 ← readAt graph.coords i1
  let p2 ← readAt graph.coords i2
  let t0 := (← readAt graph.values i0) + eps
  let t1 := (← readAt graph.values i1) + eps
  let t2 := (← readAt graph.values i2) + eps
  pure (segmentCalls p0 p1 p2 t0 t1 t2 value i0 i1 i2)

/-- All calls of `add` made by the triangle loop over an index list. -/
def crossings (graph : GraphData) (value : ℚ) : List Int → Option (List Crossing)
  | [] => some []
  | i0 :: i1 :: i2 :: rest =>
    (segment graph value i0 i1 i2).bind
      (fun s => (crossings graph value rest).map (fun r => s ++ r))
  | _ => none

/-- Two calls of `add` name the same undirected grid edge. -/
def sameEdge (c d : Crossing) : Prop :=
  (c.idx0 = d.idx0 ∧ c.idx1 = d.idx1) ∨ (c.idx0 = d.idx1 ∧ c.idx1 = d.idx0)

/-- A call of `add` names the undirected grid edge `{a, b}`. -/
def onEdge (c : Crossing) (a b : Int) : Prop :=
  (c.idx0 = a ∧ c.idx1 = b) ∨ (c.idx0 = b ∧ c.idx1 = a)

instance (c d : Crossing) : Decidable (sameEdge c d) := by
  unfold sameEdge
  infer_instance

instance (c : Crossing) (a b : Int) : Decidable (onEdge c a b) := by
  unfold onEdge
  infer_instance

/-- Every index stored in the map was minted during the current call of
`addIsoline` and refers to a point of the vertex buffer. -/
def MapInRange (base : Nat) (st : AddState) : Prop :=
  ∀ key v, st.idxs.lookup key = some v →
    (base : Int) ≤ v ∧ v < (st.isolines.coords.length : Int)

/-- The quad of the 2 x 2 grid (vertices `0..3`, triangles `(0,2,1)` and
`(2,3,1)` sharing the diagonal `{1,2}`) carrying the given field values. -/
def quadGraph (v0 v1 v2 v3 : ℚ) : GraphData :=
  ⟨[⟨0, 0⟩, ⟨0, 1⟩, ⟨1, 0⟩, ⟨1, 1⟩], [v0, v1, v2, v3], [0, 2, 1, 2, 3, 1]⟩

/-- The single triangle with values `(-1, 1, -1)` at `(0,0)`, `(1,0)`, `(0,1)`. -/
def singleTriangle : GraphData :=
  ⟨[⟨0, 0⟩, ⟨1, 0⟩, ⟨0, 1⟩], [-1, 1, -1], [0, 1, 2]⟩

/-- The empty mesh. -/
def emptyMesh : IsolinesData := ⟨[], []⟩

/-- The classification bit of a vertex value: `value_k + eps > isoValue`. -/
def classBit (v value : ℚ) : Bool := decide (v + eps > value)

/-- The vertex with bit `b` is alone on its side: the other two vertices
(bits `c`, `d`) are both on the other side. -/
def minority (b c d : Bool) : Prop := b ≠ c ∧ c = d

instance (b c d : Bool) : Decidable (minority b c d) := by
  unfold minority
  infer_instance

/-- A grid that `addIsoline` can read without leaving its arrays: whole
triangles, one value per vertex, every triangle index a vertex index. -/
def WellFormed (graph : GraphData) : Prop :=
  graph.indices.length % 3 = 0 ∧ graph.values.length = graph.coords.length ∧
  ∀ ix ∈ graph.indices, 0 ≤ ix ∧ ix < (graph.coords.length : Int)

instance (graph : GraphData) : Decidable (WellFormed graph) := by
  unfold WellFormed
  infer_instance

/-- The accumulation loop of `loop` (main.cpp:284-287) for a given sequence of
iso-values: `addIsoline` is called on the same mesh for each value in turn. -/
def accumulate (graph : GraphData) : List ℚ → IsolinesData → Option IsolinesData
  | [], isolines => some isolines
  | value :: rest, isolines => (addIsoline graph isolines value).bind (accumulate graph rest)

/-- Every index of the index buffer and every index stored in the map
satisfies `lo` and is below the size of the vertex buffer. -/
def IndicesInRange (lo : Int → Prop) (st : AddState) : Prop :=
  (∀ ix ∈ st.isolines.indices, lo ix ∧ ix < (st.isolines.coords.length : Int)) ∧
  ∀ key v, st.idxs.lookup key = some v → lo v ∧ v < (st.isolines.coords.length : Int)

/-- The state of a call of `addIsoline` on the accumulated mesh `base` is the
state `stE` of the same call on an empty mesh, with `base` in front and every
output index increased by `base.coords.size()`. -/
def Shifted (base : IsolinesData) (stB stE : AddState) : Prop :=
  stB.idxs = stE.idxs.map (fun kv => (kv.1, kv.2 + (base.coords.length : Int))) ∧
  stB.isolines.coords = base.coords ++ stE.isolines.coords ∧
  stB.isolines.indices =
    base.indices ++ stE.isolines.indices.map (fun ix => ix + (base.coords.length : Int))

/-- The triangle `t` is crossed: its three values can be read and the
classification mask (main.cpp:110) is neither `0` nor `7`. -/
def crossedTriangle (graph : GraphData) (value : ℚ) (t : Int × Int × Int) : Bool :=
  match readAt graph.values t.1, readAt graph.values t.2.1, readAt graph.values t.2.2 with
  | some v0, some v1, some v2 =>
    let mask := classify (v0 + eps) (v1 + eps) (v2 + eps) value
    !(mask == 0 || mask == 7)
  | _, _, _ => false

/-- The undirected grid edge named by a call of `add`, as the ordered pair
`(min, max)` of its two endpoint indices. -/
def edgeOf (c : Crossing) : Int × Int := (min c.idx0 c.idx1, max c.idx0 c.idx1)


/-! ## The accumulation loop (main.cpp:284-287) -/

/-- Outcome of the accumulation loop when it is run with a bound on the number
of iterations: the accumulated mesh, an undefined (out-of-range) read inside
`addIsoline`, or the bound was reached. -/
inductive LoopResult where
  | finished (isolines : IsolinesData)
  | undefinedRead
  | outOfFuel
deriving DecidableEq

/-- The loop `for (float value = zmin; value <= zmax; value += zstep)
addIsoline(graph, isolines, value);` started at `value`, with at most `fuel`
iterations. -/
def isolinesLoop (graph : GraphData) (zmax zstep : ℚ) : Nat → ℚ → IsolinesData → LoopResult
  | 0, value, isolines =>
    if value ≤ zmax then LoopResult.outOfFuel else LoopResult.finished isolines
  | fuel + 1, value, isolines =>
    if value ≤ zmax then
      match addIsoline graph isolines value with
      | none => LoopResult.undefinedRead
      | some isolines => isolinesLoop graph zmax zstep fuel (value + zstep) isolines
    else
      LoopResult.finished isolines

/-- The first `k` levels `zmin, zmin + zstep, zmin + 2 * zstep, ...`. -/
def levelList (zmin zstep : ℚ) (k : Nat) : List ℚ :=
  (List.range k).map (fun (i : Nat) => zmin + (i : ℚ) * zstep)

/-- The number of levels `zmin + i * zstep` that are `≤ zmax` (for `zstep > 0`). -/
def levelCount (zmin zmax zstep : ℚ) : Nat :=
  if zmin ≤ zmax then ⌊(zmax - zmin) / zstep⌋.toNat + 1 else 0

/-- Append the mesh `e` to the combined mesh `a`, offsetting the indices of
`e` by the current size of the combined vertex buffer. -/
def appendMesh (a e : IsolinesData) : IsolinesData :=
  ⟨a.coords ++ e.coords, a.indices ++ e.indices.map (fun ix => ix + (a.coords.length : Int))⟩

/-- The standalone extractions (`addIsoline` into an empty mesh) for a list of
levels. -/
def extractAll (graph : GraphData) : List ℚ → Option (List IsolinesData)
  | [] => some []
  | value :: rest =>
    (addIsoline graph emptyMesh value).bind
      (fun e => (extractAll graph rest).map (fun es => e :: es))

/-- The result of the accumulation loop that corresponds to a run of
`accumulate`. -/
def loopResultOf : Option IsolinesData → LoopResult
  | some isolines => LoopResult.finished isolines
  | none => LoopResult.undefinedRead

/-! ## Further auxiliary definitions -/

/-- The calls of `updateGraph` made by successive frames of the render loop
(main.cpp:281), one per clock value in the list. -/
def updateFrames (sinF cosF : ℚ → ℚ) : List ℚ → GraphData → Option GraphData
  | [], graph => some graph
  | t :: ts, graph => (updateGraph sinF cosF t graph).bind (updateFrames sinF cosF ts)

/-- The map of the current call of `addIsoline` pairs the keys seen so far
one-to-one with the indices of the points appended so far (the points from
position `base` on in the vertex buffer). -/
def MapOneToOne (base : Nat) (st : AddState) : Prop :=
  base ≤ st.isolines.coords.length ∧
  (∀ key v, st.idxs.lookup key = some v →
    (base : Int) ≤ v ∧ v < (st.isolines.coords.length : Int)) ∧
  (∀ key key' v, st.idxs.lookup key = some v → st.idxs.lookup key' = some v → key = key') ∧
  (∀ v : Int, (base : Int) ≤ v → v < (st.isolines.coords.length : Int) →
    ∃ key, st.idxs.lookup key = some v)

/-- The three undirected edges of a triangle, each as the ordered pair
`(min, max)` of its endpoint indices. -/
def triangleEdges (t : Int × Int × Int) : List (Int × Int) :=
  [(min t.1 t.2.1, max t.1 t.2.1), (min t.1 t.2.2, max t.1 t.2.2),
   (min t.2.1 t.2.2, max t.2.1 t.2.2)]

/-! ## Facts about binary32 rounding -/

theorem roundHalfEven_eq (x : ℚ) (k : ℤ) (h : |x - k| < 1 / 2) : roundHalfEven x = k := by
  rw [abs_lt] at h
  unfold roundHalfEven
  by_cases hk : (k : ℚ) ≤ x
  · have hf : ⌊x⌋ = k := by
      rw [Int.floor_eq_iff]
      constructor <;> linarith
    rw [hf, if_pos (by linarith)]
  · have hf : ⌊x⌋ = k - 1 := by
      rw [Int.floor_eq_iff]
      push_cast
      constructor <;> linarith
    rw [hf]
    push_cast
    rw [if_neg (by linarith), if_pos (by linarith)]
    ring

theorem roundHalfEven_intCast (k : ℤ) : roundHalfEven (k : ℚ) = k :=
  roundHalfEven_eq _ k (by simp)

/-- The rounded value is `⌊x⌋` or `⌊x⌋ + 1`. -/
theorem roundHalfEven_cases (x : ℚ) :
    (roundHalfEven x = ⌊x⌋ ∧ x - ⌊x⌋ ≤ 1 / 2) ∨ (roundHalfEven x = ⌊x⌋ + 1 ∧ 1 / 2 ≤ x - ⌊x⌋) := by
  unfold roundHalfEven
  split_ifs with h1 h2 h3
  · exact Or.inl ⟨rfl, h1.le⟩
  · exact Or.inr ⟨rfl, h2.le⟩
  · exact Or.inl ⟨rfl, not_lt.mp h2⟩
  · exact Or.inr ⟨rfl, not_lt.mp h1⟩

theorem roundHalfEven_lower (x : ℚ) : x - 1 / 2 ≤ (roundHalfEven x : ℚ) := by
  have hf := Int.floor_le x
  have hl := Int.lt_floor_add_one x
  rcases roundHalfEven_cases x with ⟨e, h⟩ | ⟨e, h⟩ <;> rw [e] <;> push_cast <;> linarith

theorem roundHalfEven_upper (x : ℚ) : (roundHalfEven x : ℚ) ≤ x + 1 / 2 := by
  have hf := Int.floor_le x
  have hl := Int.lt_floor_add_one x
  rcases roundHalfEven_cases x with ⟨e, h⟩ | ⟨e, h⟩ <;> rw [e] <;> push_cast <;> linarith

theorem roundHalfEven_mono {x y : ℚ} (h : x ≤ y) : roundHalfEven x ≤ roundHalfEven y := by
  have hfl : ⌊x⌋ ≤ ⌊y⌋ := Int.floor_le_floor h
  rcases lt_or_eq_of_le hfl with hlt | heq
  · rcases roundHalfEven_cases x with ⟨e, -⟩ | ⟨e, -⟩ <;>
      rcases roundHalfEven_cases y with ⟨e', -⟩ | ⟨e', -⟩ <;> rw [e, e'] <;> omega
  · unfold roundHalfEven
    rw [heq]
    have hxy : x - (⌊y⌋ : ℚ) ≤ y - ⌊y⌋ := by linarith
    split_ifs <;> first | omega | (exfalso; linarith)

/-- An integer below `x` is below the rounded value. -/
theorem roundHalfEven_ge_of_le {x : ℚ} {k : ℤ} (h : (k : ℚ) ≤ x) : k ≤ roundHalfEven x := by
  have := roundHalfEven_mono h
  rwa [roundHalfEven_intCast] at this

theorem roundHalfEven_le_of_le {x : ℚ} {k : ℤ} (h : x ≤ (k : ℚ)) : roundHalfEven x ≤ k := by
  have := roundHalfEven_mono h
  rwa [roundHalfEven_intCast] at this

theorem ulpF32_pos (a : ℚ) : 0 < ulpF32 a := zpow_pos (by norm_num) _

theorem ulpF32_eq (a : ℚ) (e : ℤ) (he : -126 ≤ e) (h1 : (2 : ℚ) ^ e ≤ a)
    (h2 : a < (2 : ℚ) ^ (e + 1)) : ulpF32 a = 2 ^ (e - 23) := by
  have ha : 0 < a := lt_of_lt_of_le (zpow_pos (by norm_num) e) h1
  have l1 : e ≤ Int.log 2 a := by
    rw [← Int.zpow_le_iff_le_log (by norm_num) ha]
    exact_mod_cast h1
  have l2 : Int.log 2 a < e + 1 := by
    rw [← Int.lt_zpow_iff_log_lt (by norm_num) ha]
    exact_mod_cast h2
  have : Int.log 2 a = e := by omega
  rw [ulpF32, this, max_eq_left he]

theorem roundF32_zero : roundF32 0 = 0 := by
  simp [roundF32, roundHalfEven]

/-- Evaluation of `roundF32` at a positive normal argument: `q` lies in the
binade `[2^e, 2^(e+1))` and `k` is the integer within `1/2` of `q / 2^(e-23)`. -/
theorem roundF32_eq_of_pos (q r : ℚ) (k e : ℤ) (he : -126 ≤ e) (h1 : (2 : ℚ) ^ e ≤ q)
    (h2 : q < (2 : ℚ) ^ (e + 1)) (hk : |q / 2 ^ (e - 23) - k| < 1 / 2)
    (hr : r = k * 2 ^ (e - 23)) : roundF32 q = r := by
  have ha : 0 < q := lt_of_lt_of_le (zpow_pos (by norm_num) e) h1
  rw [roundF32, if_neg (not_lt.mpr ha.le), ulpF32_eq q e he h1 h2, roundHalfEven_eq _ k hk, hr]

theorem roundF32_neg_of_pos {q : ℚ} (h : 0 < q) : roundF32 (-q) = -roundF32 q := by
  rw [roundF32, if_pos (by linarith), neg_neg, roundF32, if_neg (not_lt.mpr h.le)]

theorem roundF32_nonneg {q : ℚ} (h : 0 ≤ q) : 0 ≤ roundF32 q := by
  rw [roundF32, if_neg (not_lt.mpr h)]
  have h0 : (0 : ℚ) ≤ q / ulpF32 q := div_nonneg h (ulpF32_pos q).le
  have : (0 : ℤ) ≤ roundHalfEven (q / ulpF32 q) := roundHalfEven_ge_of_le (by exact_mod_cast h0)
  exact mul_nonneg (by exact_mod_cast this) (ulpF32_pos q).le

theorem roundF32_nonpos {q : ℚ} (h : q ≤ 0) : roundF32 q ≤ 0 := by
  rcases lt_or_eq_of_le h with hlt | heq
  · have := roundF32_nonneg (q := -q) (by linarith)
    have e : q = -(-q) := by ring
    rw [e, roundF32_neg_of_pos (by linarith)]
    linarith
  · rw [heq, roundF32_zero]

/-- A positive argument is below `2^(e + 1)` for its exponent `e`, so its
rounded value is at most `2^(e + 1)`. -/
theorem roundF32_le_binade {a : ℚ} (ha : 0 < a) :
    roundF32 a ≤ 2 ^ (max (Int.log 2 a) (-126) + 1) := by
  have hlt : a < (2 : ℚ) ^ (max (Int.log 2 a) (-126) + 1) := by
    have h1 : a < (2 : ℚ) ^ (Int.log 2 a + 1) := by
      have := Int.lt_zpow_succ_log_self (b := 2) (by norm_num) a
      exact_mod_cast this
    exact lt_of_lt_of_le h1 (zpow_le_zpow_right₀ (by norm_num) (by omega))
  rw [roundF32, if_neg (not_lt.mpr ha.le), ulpF32]
  set e := max (Int.log 2 a) (-126) with he
  have hu : (0 : ℚ) < 2 ^ (e - 23) := zpow_pos (by norm_num) _
  have hx : a / 2 ^ (e - 23) ≤ ((2 ^ 24 : ℤ) : ℚ) := by
    rw [div_le_iff₀ hu]
    have e1 : (((2 ^ 24 : ℤ) : ℚ)) * 2 ^ (e - 23) = 2 ^ (e + 1) := by
      have : (((2 ^ 24 : ℤ) : ℚ)) = (2 : ℚ) ^ (24 : ℤ) := by norm_num
      rw [this, ← zpow_add₀ (by norm_num)]
      congr 1
      ring
    rw [e1]
    exact hlt.le
  have hk := roundHalfEven_le_of_le hx
  have hk' : (roundHalfEven (a / 2 ^ (e - 23)) : ℚ) ≤ ((2 ^ 24 : ℤ) : ℚ) := by exact_mod_cast hk
  calc (roundHalfEven (a / 2 ^ (e - 23)) : ℚ) * 2 ^ (e - 23)
      ≤ ((2 ^ 24 : ℤ) : ℚ) * 2 ^ (e - 23) := mul_le_mul_of_nonneg_right hk' hu.le
    _ = 2 ^ (e + 1) := by
      have : (((2 ^ 24 : ℤ) : ℚ)) = (2 : ℚ) ^ (24 : ℤ) := by norm_num
      rw [this, ← zpow_add₀ (by norm_num)]
      congr 1
      ring

/-- A normal argument is at least `2^e` for its exponent `e`, and so is its
rounded value. -/
theorem roundF32_ge_binade {b : ℚ} (hb : 0 < b) (hn : -126 ≤ Int.log 2 b) :
    (2 : ℚ) ^ (Int.log 2 b) ≤ roundF32 b := by
  have hge : (2 : ℚ) ^ (Int.log 2 b) ≤ b := by
    have := Int.zpow_log_le_self (b := 2) (by norm_num) hb
    exact_mod_cast this
  rw [roundF32, if_neg (not_lt.mpr hb.le), ulpF32, max_eq_left hn]
  set e := Int.log 2 b with he
  have hu : (0 : ℚ) < 2 ^ (e - 23) := zpow_pos (by norm_num) _
  have e1 : (((2 ^ 23 : ℤ) : ℚ)) * 2 ^ (e - 23) = 2 ^ e := by
    have : (((2 ^ 23 : ℤ) : ℚ)) = (2 : ℚ) ^ (23 : ℤ) := by norm_num
    rw [this, ← zpow_add₀ (by norm_num)]
    congr 1
    ring
  have hx : ((2 ^ 23 : ℤ) : ℚ) ≤ b / 2 ^ (e - 23) := by
    rw [le_div_iff₀ hu, e1]
    exact hge
  have hk := roundHalfEven_ge_of_le hx
  have hk' : ((2 ^ 23 : ℤ) : ℚ) ≤ (roundHalfEven (b / 2 ^ (e - 23)) : ℚ) := by exact_mod_cast hk
  calc (2 : ℚ) ^ e = ((2 ^ 23 : ℤ) : ℚ) * 2 ^ (e - 23) := e1.symm
    _ ≤ (roundHalfEven (b / 2 ^ (e - 23)) : ℚ) * 2 ^ (e - 23) :=
      mul_le_mul_of_nonneg_right hk' hu.le

/-- Rounding to binary32 is monotone on the non-negative numbers. -/
theorem roundF32_mono_of_nonneg {a b : ℚ} (ha : 0 ≤ a) (hab : a ≤ b) :
    roundF32 a ≤ roundF32 b := by
  rcases lt_or_eq_of_le ha with hpos | h0
  · have hb : 0 < b := lt_of_lt_of_le hpos hab
    have hlog : Int.log 2 a ≤ Int.log 2 b := Int.log_mono_right hpos hab
    by_cases hexp : max (Int.log 2 a) (-126) = max (Int.log 2 b) (-126)
    · rw [roundF32, if_neg (not_lt.mpr hpos.le), roundF32, if_neg (not_lt.mpr hb.le), ulpF32,
        ulpF32, hexp]
      have hu : (0 : ℚ) < 2 ^ (max (Int.log 2 b) (-126) - 23) := zpow_pos (by norm_num) _
      have hm := roundHalfEven_mono (div_le_div_of_nonneg_right hab hu.le)
      exact mul_le_mul_of_nonneg_right (by exact_mod_cast hm) hu.le
    · have hn : -126 ≤ Int.log 2 b := by
        by_contra hc
        apply hexp
        have h1 : Int.log 2 b < -126 := by omega
        rw [max_eq_right (by omega), max_eq_right (by omega)]
      have hlt : max (Int.log 2 a) (-126) + 1 ≤ Int.log 2 b := by
        rw [max_eq_left hn] at hexp
        have : max (Int.log 2 a) (-126) ≤ Int.log 2 b := max_le hlog hn
        omega
      calc roundF32 a ≤ 2 ^ (max (Int.log 2 a) (-126) + 1) := roundF32_le_binade hpos
        _ ≤ 2 ^ (Int.log 2 b) := zpow_le_zpow_right₀ (by norm_num) hlt
        _ ≤ roundF32 b := roundF32_ge_binade hb hn
  · rw [← h0, roundF32_zero]
    exact roundF32_nonneg (by linarith)

/-- Below `2^18` in magnitude a binary32 operation loses at most `2^(-7)`. -/
theorem roundF32_lower {q : ℚ} (h : |q| < 2 ^ 18) : q - 1 / 128 ≤ roundF32 q := by
  have hulp : ∀ a : ℚ, 0 ≤ a → a < 2 ^ 18 → ulpF32 a ≤ 1 / 64 := by
    intro a ha0 ha
    have hlog : Int.log 2 a < 18 := by
      rcases lt_or_eq_of_le ha0 with hp | hz
      · rw [← Int.lt_zpow_iff_log_lt (by norm_num) hp]
        norm_num
        exact ha
      · rw [← hz, Int.log_zero_right]
        norm_num
    have hle : max (Int.log 2 a) (-126) - 23 ≤ -6 := by
      have : max (Int.log 2 a) (-126) ≤ 17 := max_le (by omega) (by norm_num)
      omega
    calc ulpF32 a = 2 ^ (max (Int.log 2 a) (-126) - 23) := rfl
      _ ≤ 2 ^ (-6 : ℤ) := zpow_le_zpow_right₀ (by norm_num) hle
      _ = 1 / 64 := by norm_num
  rw [abs_lt] at h
  by_cases hq : q < 0
  · rw [roundF32, if_pos hq]
    have hu := hulp (-q) (by linarith) (by linarith)
    have hp := ulpF32_pos (-q)
    have hr := roundHalfEven_upper (-q / ulpF32 (-q))
    have : (roundHalfEven (-q / ulpF32 (-q)) : ℚ) * ulpF32 (-q) ≤
        (-q / ulpF32 (-q) + 1 / 2) * ulpF32 (-q) := mul_le_mul_of_nonneg_right hr hp.le
    have e : (-q / ulpF32 (-q) + 1 / 2) * ulpF32 (-q) = -q + ulpF32 (-q) / 2 := by
      field_simp
      ring
    rw [e] at this
    linarith
  · rw [roundF32, if_neg hq]
    have hu := hulp q (not_lt.mp hq) h.2
    have hp := ulpF32_pos q
    have hr := roundHalfEven_lower (q / ulpF32 q)
    have : (q / ulpF32 q - 1 / 2) * ulpF32 q ≤ (roundHalfEven (q / ulpF32 q) : ℚ) * ulpF32 q :=
      mul_le_mul_of_nonneg_right hr hp.le
    have e : (q / ulpF32 q - 1 / 2) * ulpF32 q = q - ulpF32 q / 2 := by
      field_simp
      ring
    rw [e] at this
    linarith

/-! ## Facts about `generateGraph` -/

theorem truncInt_of_nonneg {q : ℚ} (h : 0 ≤ q) (hlt : q < 2 ^ 31) : truncInt q = some ⌊q⌋ := by
  unfold truncInt
  rw [if_pos ⟨by linarith, hlt⟩, Rat.floor_def]
  exact congrArg some (Int.tdiv_eq_ediv (Rat.num_nonneg.mpr h) (Int.ofNat_nonneg _))

theorem truncInt_nonpos {q : ℚ} {n : Int} (h : q ≤ 0) (hn : truncInt q = some n) : n ≤ 0 := by
  unfold truncInt at hn
  split_ifs at hn
  simp only [Option.some.injEq] at hn
  have h1 : q.num ≤ 0 := Rat.num_nonpos.mpr h
  have h2 : 0 ≤ (-q.num).tdiv (q.den : Int) :=
    Int.tdiv_nonneg (by omega) (Int.ofNat_nonneg _)
  rw [Int.neg_tdiv] at h2
  omega

theorem truncInt_lt_of_some {q : ℚ} {n : Int} (hn : truncInt q = some n) : q < 2 ^ 31 := by
  unfold truncInt at hn
  split_ifs at hn with h
  exact h.2

theorem truncInt_eq_none_of_ge {q : ℚ} (h : 2 ^ 31 ≤ q) : truncInt q = none := by
  unfold truncInt
  rw [if_neg (fun hc => absurd hc.2 (not_lt.mpr h))]

/-- The conversion to `int` is monotone, as far as `toNat` sees it. -/
theorem truncInt_toNat_mono {q1 q2 : ℚ} {n1 n2 : Int} (h : q1 ≤ q2)
    (h1 : truncInt q1 = some n1) (h2 : truncInt q2 = some n2) : n1.toNat ≤ n2.toNat := by
  by_cases hq : 0 ≤ q1
  · rw [truncInt_of_nonneg hq (truncInt_lt_of_some h1)] at h1
    rw [truncInt_of_nonneg (le_trans hq h) (truncInt_lt_of_some h2)] at h2
    simp only [Option.some.injEq] at h1 h2
    rw [← h1, ← h2]
    exact Int.toNat_le_toNat (Int.floor_le_floor h)
  · have := truncInt_nonpos (le_of_lt (not_le.mp hq)) h1
    have e : n1.toNat = 0 := by omega
    rw [e]
    exact Nat.zero_le _

theorem gridDim_eq_some_iff (lo hi step : ℚ) (n : Int) :
    gridDim lo hi step = some n ↔
      step ≠ 0 ∧ |roundF32 (hi - lo)| < 2 ^ 128 ∧
        truncInt (roundF32 (roundF32 (hi - lo) / step)) = some n := by
  unfold gridDim
  by_cases h0 : step = 0
  · simp [h0]
  · by_cases h1 : (2 : ℚ) ^ 128 ≤ |roundF32 (hi - lo)|
    · rw [if_neg h0, if_pos h1]
      constructor
      · intro h
        exact Option.noConfusion h
      · rintro ⟨-, h, -⟩
        exact absurd h (not_lt.mpr h1)
    · rw [if_neg h0, if_neg h1]
      exact ⟨fun h => ⟨h0, not_le.mp h1, h⟩, fun h => h.2.2⟩

/-- Evaluation of a derived dimension from the values of its three float
operations. -/
theorem gridDim_of_values (lo hi step d q : ℚ) (n : Int) (hs : step ≠ 0)
    (hd : roundF32 (hi - lo) = d) (hfin : |d| < 2 ^ 128) (hq : roundF32 (d / step) = q)
    (hn : truncInt q = some n) : gridDim lo hi step = some n := by
  rw [gridDim_eq_some_iff, hd, hq]
  exact ⟨hs, hfin, hn⟩

/-- The derived dimension does not shrink when the step shrinks. -/
theorem gridDim_toNat_mono {lo hi s1 s2 : ℚ} {n1 n2 : Int} (h2 : 0 < s2) (h12 : s2 < s1)
    (e1 : gridDim lo hi s1 = some n1) (e2 : gridDim lo hi s2 = some n2) :
    n1.toNat ≤ n2.toNat := by
  have h1 : 0 < s1 := lt_trans h2 h12
  obtain ⟨-, -, t1⟩ := (gridDim_eq_some_iff lo hi s1 n1).mp e1
  obtain ⟨-, -, t2⟩ := (gridDim_eq_some_iff lo hi s2 n2).mp e2
  by_cases hd : 0 ≤ roundF32 (hi - lo)
  · have q1 : 0 ≤ roundF32 (hi - lo) / s1 := div_nonneg hd h1.le
    have hq : roundF32 (hi - lo) / s1 ≤ roundF32 (hi - lo) / s2 :=
      div_le_div_of_nonneg_left hd h2 h12.le
    exact truncInt_toNat_mono (roundF32_mono_of_nonneg q1 hq) t1 t2
  · have q1 : roundF32 (hi - lo) / s1 ≤ 0 :=
      div_nonpos_of_nonpos_of_nonneg (le_of_lt (not_le.mp hd)) h1.le
    have := truncInt_nonpos (roundF32_nonpos q1) t1
    have e : n1.toNat = 0 := by omega
    rw [e]
    exact Nat.zero_le _

/-- The function `generateGraph` returns exactly when both derived dimensions
are defined, and then it returns the grid built by the loops. -/
theorem generateGraph_eq_some_iff (xmin xmax ymin ymax step : ℚ) (g : GraphData) :
    generateGraph xmin xmax ymin ymax step = some g ↔
      ∃ n m, gridDim xmin xmax step = some n ∧ gridDim ymin ymax step = some m ∧
        g = buildGraph xmin ymin step n m := by
  simp only [generateGraph, Option.bind_eq_bind, Option.bind_eq_some, Option.pure_def,
    Option.some.injEq]
  constructor
  · rintro ⟨n, hn, m, hm, e⟩
    exact ⟨n, m, hn, hm, e.symm⟩
  · rintro ⟨n, m, hn, hm, e⟩
    exact ⟨n, hn, m, hm, e.symm⟩

theorem generateGraph_of_dims {xmin xmax ymin ymax step : ℚ} {n m : Int}
    (hn : gridDim xmin xmax step = some n) (hm : gridDim ymin ymax step = some m) :
    generateGraph xmin xmax ymin ymax step = some (buildGraph xmin ymin step n m) :=
  (generateGraph_eq_some_iff _ _ _ _ _ _).mpr ⟨n, m, hn, hm, rfl⟩

theorem foldl_pushVertex (xmin ymin step : ℚ) (i : Nat) (js : List Nat) (r : GraphData) :
    js.foldl (pushVertex xmin ymin step i) r =
      { coords := r.coords ++ js.map
          (fun (j : Nat) => (⟨gridCoord xmin step i, gridCoord ymin step j⟩ : Vec2))
        values := r.values ++ js.map (fun _ => 0)
        indices := r.indices } := by
  induction js generalizing r with
  | nil => simp
  | cons j js ih => simp [List.foldl_cons, ih, pushVertex]

theorem foldl_vertexRows (xmin ymin step : ℚ) (m : Nat) (is : List Nat) (r : GraphData) :
    is.foldl (fun r i => (List.range m).foldl (pushVertex xmin ymin step i) r) r =
      { coords := r.coords ++ is.flatMap (fun i => (List.range m).map
          (fun (j : Nat) => (⟨gridCoord xmin step i, gridCoord ymin step j⟩ : Vec2)))
        values := r.values ++ is.flatMap (fun _ => (List.range m).map (fun _ => 0))
        indices := r.indices } := by
  induction is generalizing r with
  | nil => simp
  | cons i is ih =>
    rw [List.foldl_cons, ih, foldl_pushVertex]
    simp only [List.flatMap_cons, List.append_assoc]

theorem foldl_pushCell (m : Int) (i : Nat) (js : List Nat) (r : GraphData) :
    js.foldl (pushCell m i) r =
      { r with indices := r.indices ++ js.flatMap (cellIndices m i) } := by
  induction js generalizing r with
  | nil => simp
  | cons j js ih => simp [List.foldl_cons, ih, pushCell, cellIndices]

theorem foldl_cellRows (m : Int) (k : Nat) (is : List Nat) (r : GraphData) :
    is.foldl (fun r i => (List.range k).foldl (pushCell m i) r) r =
      { r with indices := r.indices ++
          is.flatMap (fun i => (List.range k).flatMap (cellIndices m i)) } := by
  induction is generalizing r with
  | nil => simp
  | cons i is ih =>
    rw [List.foldl_cons, ih, foldl_pushCell]
    simp only [List.flatMap_cons, List.append_assoc]

/-- The loops of `generateGraph` in closed form. -/
theorem buildGraph_eq (xmin ymin step : ℚ) (n m : Int) :
    buildGraph xmin ymin step n m =
      { coords := (List.range n.toNat).flatMap (fun i => (List.range m.toNat).map
          (fun (j : Nat) => (⟨gridCoord xmin step i, gridCoord ymin step j⟩ : Vec2)))
        values := (List.range n.toNat).flatMap (fun _ => (List.range m.toNat).map (fun _ => 0))
        indices := (List.range (n - 1).toNat).flatMap
          (fun i => (List.range (m - 1).toNat).flatMap (cellIndices m i)) } := by
  unfold buildGraph
  simp only [foldl_vertexRows, foldl_cellRows, List.nil_append]

theorem length_flatMap_const {α β : Type} (l : List α) (f : α → List β) (c : Nat)
    (h : ∀ a ∈ l, (f a).length = c) : (l.flatMap f).length = l.length * c := by
  induction l with
  | nil => simp
  | cons a l ih =>
    rw [List.flatMap_cons, List.length_append, h a (List.mem_cons_self _ _),
      ih (fun b hb => h b (List.mem_cons_of_mem _ hb)), List.length_cons]
    ring

theorem getElem?_flatMap_range {β : Type} (f : Nat → List β) (c : Nat)
    (hf : ∀ i, (f i).length = c) (n i j : Nat) (hi : i < n) (hj : j < c) :
    ((List.range n).flatMap f)[i * c + j]? = (f i)[j]? := by
  induction n with
  | zero => omega
  | succ n ih =>
    have hlen : ((List.range n).flatMap f).length = n * c := by
      rw [length_flatMap_const _ f c (fun a _ => hf a), List.length_range]
    rw [List.range_succ, List.flatMap_append, List.flatMap_singleton]
    by_cases h : i < n
    · have hlt : i * c + j < ((List.range n).flatMap f).length := by
        rw [hlen]
        calc i * c + j < i * c + c := by omega
          _ = (i + 1) * c := by ring
          _ ≤ n * c := Nat.mul_le_mul_right c h
      rw [List.getElem?_append_left hlt]
      exact ih h
    · have hin : i = n := by omega
      subst hin
      rw [List.getElem?_append_right (by rw [hlen]; omega), hlen]
      congr 1
      omega

theorem buildGraph_coords_length (xmin ymin step : ℚ) (n m : Int) :
    (buildGraph xmin ymin step n m).coords.length = n.toNat * m.toNat := by
  rw [buildGraph_eq]
  simp only
  rw [length_flatMap_const _ _ m.toNat (fun a _ => by simp), List.length_range]

theorem buildGraph_values_length (xmin ymin step : ℚ) (n m : Int) :
    (buildGraph xmin ymin step n m).values.length = n.toNat * m.toNat := by
  rw [buildGraph_eq]
  simp only
  rw [length_flatMap_const _ _ m.toNat (fun a _ => by simp), List.length_range]

theorem buildGraph_indices_length (xmin ymin step : ℚ) (n m : Int) :
    (buildGraph xmin ymin step n m).indices.length = (n - 1).toNat * ((m - 1).toNat * 6) := by
  rw [buildGraph_eq]
  simp only
  rw [length_flatMap_const _ _ ((m - 1).toNat * 6), List.length_range]
  intro i _
  rw [length_flatMap_const _ _ 6 (fun j _ => by simp [cellIndices]), List.length_range]

theorem buildGraph_empty (xmin ymin step : ℚ) (n m : Int) (h : n ≤ 0 ∨ m ≤ 0) :
    buildGraph xmin ymin step n m = emptyGraph := by
  rw [buildGraph_eq, emptyGraph]
  rcases h with h | h
  · have h1 : n.toNat = 0 := by omega
    have h2 : (n - 1).toNat = 0 := by omega
    simp [h1, h2]
  · have h1 : m.toNat = 0 := by omega
    have h2 : (m - 1).toNat = 0 := by omega
    simp [h1, h2]

theorem trianglesOf_cell_append (m : Int) (i j : Nat) (rest : List Int) :
    trianglesOf (cellIndices m i j ++ rest) = cellTriangles m i j ++ trianglesOf rest := by
  simp [cellIndices, cellTriangles, trianglesOf]

theorem trianglesOf_row_append (m : Int) (i : Nat) (js : List Nat) (rest : List Int) :
    trianglesOf (js.flatMap (cellIndices m i) ++ rest) =
      js.flatMap (cellTriangles m i) ++ trianglesOf rest := by
  induction js with
  | nil => simp
  | cons j js ih =>
    rw [List.flatMap_cons, List.append_assoc, trianglesOf_cell_append, ih,
      List.flatMap_cons, List.append_assoc]

theorem trianglesOf_rows (m : Int) (js is : List Nat) :
    trianglesOf (is.flatMap (fun i => js.flatMap (cellIndices m i))) =
      is.flatMap (fun i => js.flatMap (cellTriangles m i)) := by
  induction is with
  | nil => simp [trianglesOf]
  | cons i is ih =>
    rw [List.flatMap_cons, trianglesOf_row_append, ih, List.flatMap_cons]

/-- The triangles of the generated grid, cell by cell. -/
theorem buildGraph_triangles (xmin ymin step : ℚ) (n m : Int) :
    trianglesOf (buildGraph xmin ymin step n m).indices =
      (List.range (n - 1).toNat).flatMap
        (fun i => (List.range (m - 1).toNat).flatMap (cellTriangles m i)) := by
  rw [buildGraph_eq]
  exact trianglesOf_rows m _ _

theorem cell_index_bounds (n m : Int) (i j : Nat) (hi : i < (n - 1).toNat)
    (hj : j < (m - 1).toNat) (ix : Int) (hix : ix ∈ cellIndices m i j) :
    0 ≤ ix ∧ ix < n * m := by
  have hi' : (i : Int) + 2 ≤ n := by omega
  have hj' : (j : Int) + 2 ≤ m := by omega
  have hi0 : (0 : Int) ≤ i := Int.ofNat_nonneg i
  have hj0 : (0 : Int) ≤ j := Int.ofNat_nonneg j
  have hm0 : (0 : Int) ≤ m := by omega
  have h1 : (0 : Int) ≤ i * m := mul_nonneg hi0 hm0
  have h2 : ((i : Int) + 2) * m ≤ n * m := mul_le_mul_of_nonneg_right hi' hm0
  have h3 : ((i : Int) + 2) * m = i * m + 2 * m := by ring
  have h4 : ((i : Int) + 1) * m = i * m + m := by ring
  simp only [cellIndices, List.mem_cons, List.mem_singleton, List.not_mem_nil, or_false] at hix
  rcases hix with h | h | h | h | h | h <;> subst h <;> constructor <;> omega

/-- The generated grid with `n = m = 2`: four vertices, one quad split along
the diagonal `{1, 2}`. -/
theorem buildGraph_two_two (xmin ymin step : ℚ) :
    buildGraph xmin ymin step 2 2 =
      ⟨[⟨gridCoord xmin step 0, gridCoord ymin step 0⟩,
        ⟨gridCoord xmin step 0, gridCoord ymin step 1⟩,
        ⟨gridCoord xmin step 1, gridCoord ymin step 0⟩,
        ⟨gridCoord xmin step 1, gridCoord ymin step 1⟩],
        [0, 0, 0, 0], [0, 2, 1, 2, 3, 1]⟩ := by
  have h2 : (2 : ℤ).toNat = 2 := rfl
  have h1 : ((2 : ℤ) - 1).toNat = 1 := rfl
  simp only [buildGraph_eq, h1, h2]
  norm_num [List.range_succ, cellIndices]

/-! ### Concrete values of the float operations -/

theorem roundF32_one : roundF32 1 = 1 := by
  apply roundF32_eq_of_pos 1 1 (2 ^ 23) 0 <;> norm_num

theorem roundF32_two : roundF32 2 = 2 := by
  apply roundF32_eq_of_pos 2 2 (2 ^ 23) 1 <;> norm_num

theorem roundF32_three : roundF32 3 = 3 := by
  apply roundF32_eq_of_pos 3 3 (3 * 2 ^ 22) 1 <;> norm_num

theorem roundF32_four : roundF32 4 = 4 := by
  apply roundF32_eq_of_pos 4 4 (2 ^ 23) 2 <;> norm_num

theorem truncInt_zero : truncInt 0 = some 0 := by
  rw [truncInt_of_nonneg (le_refl _) (by norm_num)]
  simp

theorem truncInt_two : truncInt 2 = some 2 := by
  rw [truncInt_of_nonneg (by norm_num) (by norm_num)]
  norm_num

theorem truncInt_three : truncInt 3 = some 3 := by
  rw [truncInt_of_nonneg (by norm_num) (by norm_num)]
  norm_num

theorem truncInt_four : truncInt 4 = some 4 := by
  rw [truncInt_of_nonneg (by norm_num) (by norm_num)]
  norm_num

theorem gridCoord_zero_one_zero : gridCoord 0 1 0 = 0 := by
  simp [gridCoord, roundF32_zero]

theorem gridCoord_zero_one_one : gridCoord 0 1 1 = 1 := by
  simp [gridCoord, roundF32_one]

/-- The dimension derived for the interval `[0, 2]` with step 1. -/
theorem gridDim_zero_two_one : gridDim 0 2 1 = some 2 :=
  gridDim_of_values 0 2 1 2 2 2 (by norm_num) (by norm_num [roundF32_two]) (by norm_num)
    (by norm_num [roundF32_two]) truncInt_two

theorem gridDim_zero_three_one : gridDim 0 3 1 = some 3 :=
  gridDim_of_values 0 3 1 3 3 3 (by norm_num) (by norm_num [roundF32_three]) (by norm_num)
    (by norm_num [roundF32_three]) truncInt_three

theorem gridDim_zero_four_one : gridDim 0 4 1 = some 4 :=
  gridDim_of_values 0 4 1 4 4 4 (by norm_num) (by norm_num [roundF32_four]) (by norm_num)
    (by norm_num [roundF32_four]) truncInt_four

theorem gridDim_zero_zero_one : gridDim 0 0 1 = some 0 :=
  gridDim_of_values 0 0 1 0 0 0 (by norm_num) (by norm_num [roundF32_zero]) (by norm_num)
    (by norm_num [roundF32_zero]) truncInt_zero

/-- The grid generated for `[0,2] x [0,2]` with step 1. -/
theorem generateGraph_unit_quad :
    generateGraph 0 2 0 2 1 =
      some ⟨[⟨0, 0⟩, ⟨0, 1⟩, ⟨1, 0⟩, ⟨1, 1⟩], [0, 0, 0, 0], [0, 2, 1, 2, 3, 1]⟩ := by
  rw [generateGraph_of_dims gridDim_zero_two_one gridDim_zero_two_one, buildGraph_two_two,
    gridCoord_zero_one_zero, gridCoord_zero_one_one]
/-! ## Grid generator: settled properties -/

theorem roundF32_twenty : roundF32 20 = 20 := by
  apply roundF32_eq_of_pos 20 20 (20 * 2 ^ 19) 4 <;> norm_num

theorem roundF32_default_quotient : roundF32 (20 / defaultStep) = 200 := by
  apply roundF32_eq_of_pos _ _ 13107200 7 <;> norm_num [defaultStep, abs_lt]

theorem truncInt_two_hundred : truncInt 200 = some 200 := by
  rw [truncInt_of_nonneg (by norm_num) (by norm_num)]
  norm_num

/-- At the default configuration (`[-10, 10]`, `step = 0.1f`) the float
quotient rounds up to `200`, so the derived dimension is `200`. -/
theorem gridDim_default : gridDim (-10) 10 defaultStep = some 200 :=
  gridDim_of_values (-10) 10 defaultStep 20 200 200 (by norm_num [defaultStep])
    (by norm_num [roundF32_twenty]) (by norm_num) roundF32_default_quotient truncInt_two_hundred

/-- The floor of the exact quotient at the default configuration is `199`. -/
theorem floor_default_quotient : ⌊((10 : ℚ) - (-10)) / defaultStep⌋ = 199 := by
  rw [Int.floor_eq_iff]
  norm_num [defaultStep]

theorem generateGraph_default :
    generateGraph (-10) 10 (-10) 10 defaultStep =
      some (buildGraph (-10) (-10) defaultStep 200 200) :=
  generateGraph_of_dims gridDim_default gridDim_default

/-- C9: whenever both derived dimensions `n`, `m` are defined, the generated
index list consists of whole triangles, every index is a valid vertex index
(`0 ≤ index < n * m = coords.size()`), and the three indices of every triangle
are pairwise distinct. -/
theorem generateGraph_indices_valid (xmin xmax ymin ymax step : ℚ) (n m : Int)
    (hn : gridDim xmin xmax step = some n) (hm : gridDim ymin ymax step = some m) :
    ∃ g, generateGraph xmin xmax ymin ymax step = some g ∧
      g.indices.length % 3 = 0 ∧
      (∀ ix ∈ g.indices, 0 ≤ ix ∧ ix < n * m ∧ n * m = g.coords.length) ∧
      (∀ t ∈ trianglesOf g.indices, t.1 ≠ t.2.1 ∧ t.2.1 ≠ t.2.2 ∧ t.1 ≠ t.2.2) := by
  refine ⟨buildGraph xmin ymin step n m, generateGraph_of_dims hn hm, ?_, ?_, ?_⟩
  · rw [buildGraph_indices_length,
      show ∀ a b : ℕ, a * (b * 6) = (2 * (a * b)) * 3 from fun a b => by ring]
    exact Nat.mul_mod_left _ _
  · intro ix hix
    rw [buildGraph_eq] at hix
    simp only [List.mem_flatMap, List.mem_range] at hix
    obtain ⟨i, hi, j, hj, hmem⟩ := hix
    have hb := cell_index_bounds n m i j hi hj ix hmem
    refine ⟨hb.1, hb.2, ?_⟩
    rw [buildGraph_coords_length]
    push_cast
    rw [Int.toNat_of_nonneg (by omega), Int.toNat_of_nonneg (by omega)]
  · intro t ht
    rw [buildGraph_triangles] at ht
    simp only [List.mem_flatMap, List.mem_range] at ht
    obtain ⟨i, hi, j, hj, hmem⟩ := ht
    have hm2 : (2 : Int) ≤ m := by omega
    have h4 : ((i : Int) + 1) * m = i * m + m := by ring
    simp only [cellTriangles, List.mem_cons, List.mem_singleton, List.not_mem_nil,
      or_false] at hmem
    rcases hmem with h | h <;> subst h <;> refine ⟨?_, ?_, ?_⟩ <;> simp only [ne_eq] <;> omega

/-- Instance of `generateGraph_indices_valid`: the grid over `[0,3] x [0,4]`
with step 1. -/
theorem generateGraph_indices_valid_witness :
    (gridDim 0 3 1 = some 3 ∧ gridDim 0 4 1 = some 4) ∧
    ∃ g, generateGraph 0 3 0 4 1 = some g ∧
      g.indices.length % 3 = 0 ∧
      (∀ ix ∈ g.indices, 0 ≤ ix ∧ ix < (3 : ℤ) * 4 ∧ ((3 : ℤ) * 4 : ℤ) = g.coords.length) ∧
      (∀ t ∈ trianglesOf g.indices, t.1 ≠ t.2.1 ∧ t.2.1 ≠ t.2.2 ∧ t.1 ≠ t.2.2) :=
  ⟨⟨gridDim_zero_three_one, gridDim_zero_four_one⟩,
    generateGraph_indices_valid 0 3 0 4 1 3 4 gridDim_zero_three_one gridDim_zero_four_one⟩

theorem roundF32_defaultStep : roundF32 defaultStep = defaultStep := by
  apply roundF32_eq_of_pos _ _ 13421773 (-4) <;> norm_num [defaultStep]

theorem roundF32_ten : roundF32 10 = 10 := by
  apply roundF32_eq_of_pos 10 10 (10 * 2 ^ 20) 3 <;> norm_num

/-- The second grid line of the default configuration: the float sum
`1 * 0.1f + (-10)` is `-10380902 * 2^(-20)`, about `-9.8999996`. -/
theorem gridCoord_default_one : gridCoord (-10) defaultStep 1 = -(10380902 / 2 ^ 20) := by
  have h : roundF32 (defaultStep + -10) = -(10380902 / 2 ^ 20) := by
    have e : defaultStep + -10 = -(10 - defaultStep) := by ring
    rw [e, roundF32_neg_of_pos (by norm_num [defaultStep])]
    congr 1
    apply roundF32_eq_of_pos _ _ 10380902 3 <;> norm_num [defaultStep, abs_lt]
  simp only [gridCoord, Nat.cast_one, roundF32_one, one_mul, roundF32_defaultStep]
  exact h

theorem gridCoord_default_zero : gridCoord (-10) defaultStep 0 = -10 := by
  simp only [gridCoord, Nat.cast_zero, roundF32_zero, zero_mul, zero_add]
  rw [roundF32_neg_of_pos (by norm_num), roundF32_ten]

/-- The vertex at index `i * m + j` of the grid built for dimensions `n`, `m`. -/
theorem buildGraph_vertex (xmin ymin step : ℚ) (n m i j : Int) (hi0 : 0 ≤ i) (hin : i < n)
    (hj0 : 0 ≤ j) (hjm : j < m) :
    readAt (buildGraph xmin ymin step n m).coords (i * m + j) =
      some ⟨gridCoord xmin step i.toNat, gridCoord ymin step j.toNat⟩ := by
  have hm0 : 0 ≤ m := by omega
  have hidx : 0 ≤ i * m + j := add_nonneg (mul_nonneg hi0 hm0) hj0
  have e : (i * m + j).toNat = i.toNat * m.toNat + j.toNat := by
    apply Int.ofNat.inj
    simp only [Int.ofNat_eq_coe]
    push_cast
    rw [Int.toNat_of_nonneg hidx, Int.toNat_of_nonneg hi0, Int.toNat_of_nonneg hm0,
      Int.toNat_of_nonneg hj0]
  rw [readAt, if_pos hidx, e, buildGraph_eq]
  simp only
  rw [getElem?_flatMap_range _ m.toNat (fun a => by simp) n.toNat i.toNat j.toNat
    (by omega) (by omega)]
  rw [List.getElem?_map, List.getElem?_range (by omega)]
  rfl

/-- C10, as stated, fails at the default configuration (`[-10,10] x [-10,10]`,
`step = 0.1f`, so `step > 0`, `xmax ≥ xmin`, `ymax ≥ ymin`): the floor of the
exact quotient is `199`, but the grid has `200 * 200` vertices; and the vertex
at index `1 * 200 + 0` has the float position `(-10380902 * 2^(-20), -10)`, not
`(xmin + 1 * step, ymin + 0 * step)`. -/
theorem generateGraph_vertices_formula_fails :
    (0 : ℚ) < defaultStep ∧ (-10 : ℚ) ≤ 10 ∧
    ⌊((10 : ℚ) - (-10)) / defaultStep⌋ = 199 ∧
    ∃ g, generateGraph (-10) 10 (-10) 10 defaultStep = some g ∧
      g.coords.length = 40000 ∧
      (g.coords.length : ℤ) ≠
        ⌊((10 : ℚ) - (-10)) / defaultStep⌋ * ⌊((10 : ℚ) - (-10)) / defaultStep⌋ ∧
      readAt g.coords (1 * 200 + 0) = some ⟨-(10380902 / 2 ^ 20), -10⟩ ∧
      readAt g.coords (1 * 200 + 0) ≠ some ⟨-10 + 1 * defaultStep, -10 + 0 * defaultStep⟩ := by
  have hv : readAt (buildGraph (-10) (-10) defaultStep 200 200).coords (1 * 200 + 0) =
      some ⟨-(10380902 / 2 ^ 20), -10⟩ := by
    rw [buildGraph_vertex _ _ _ 200 200 1 0 (by norm_num) (by norm_num) (by norm_num)
      (by norm_num)]
    have e1 : (1 : ℤ).toNat = 1 := rfl
    have e0 : (0 : ℤ).toNat = 0 := rfl
    rw [e1, e0, gridCoord_default_one, gridCoord_default_zero]
  refine ⟨by norm_num [defaultStep], by norm_num, floor_default_quotient, _,
    generateGraph_default, ?_, ?_, hv, ?_⟩
  · rw [buildGraph_coords_length]
    rfl
  · rw [buildGraph_coords_length, floor_default_quotient]
    have e : (200 : ℤ).toNat = 200 := rfl
    rw [e]
    norm_num
  · rw [hv]
    intro h
    simp only [Option.some.injEq, Vec2.mk.injEq] at h
    norm_num [defaultStep] at h

/-- C10, amended: for `step > 0`, `xmax ≥ xmin`, `ymax ≥ ymin`, when both
derived dimensions `n`, `m` are defined, they are the floors of the float
quotients (non-negative), `generateGraph` returns exactly `n * m` vertices,
and the vertex at index `i * m + j` (`0 ≤ i < n`, `0 ≤ j < m`) has the position
`(i * step + xmin, j * step + ymin)` evaluated in binary32, provided these
float operations do not overflow. The float values are the exact ones,
`⌊(xmax - xmin) / step⌋` and `xmin + i * step`, when the operations involved
are exact. -/
theorem generateGraph_vertices (xmin xmax ymin ymax step : ℚ) (n m : Int) (hstep : 0 < step)
    (hx : xmin ≤ xmax) (hy : ymin ≤ ymax)
    (hn : gridDim xmin xmax step = some n) (hm : gridDim ymin ymax step = some m) :
    ∃ g, generateGraph xmin xmax ymin ymax step = some g ∧
      n = ⌊roundF32 (roundF32 (xmax - xmin) / step)⌋ ∧
      m = ⌊roundF32 (roundF32 (ymax - ymin) / step)⌋ ∧
      0 ≤ n ∧ 0 ≤ m ∧
      (g.coords.length : ℤ) = n * m ∧
      (∀ i j : ℤ, 0 ≤ i → i < n → 0 ≤ j → j < m →
        gridCoordFinite xmin step i.toNat → gridCoordFinite ymin step j.toNat →
        readAt g.coords (i * m + j) =
          some ⟨gridCoord xmin step i.toNat, gridCoord ymin step j.toNat⟩) ∧
      (roundF32 (xmax - xmin) = xmax - xmin →
        roundF32 ((xmax - xmin) / step) = (xmax - xmin) / step →
        n = ⌊(xmax - xmin) / step⌋) ∧
      (roundF32 (ymax - ymin) = ymax - ymin →
        roundF32 ((ymax - ymin) / step) = (ymax - ymin) / step →
        m = ⌊(ymax - ymin) / step⌋) ∧
      (∀ (lo : ℚ) (i : ℕ), roundF32 (i : ℚ) = i → roundF32 ((i : ℚ) * step) = (i : ℚ) * step →
        roundF32 ((i : ℚ) * step + lo) = (i : ℚ) * step + lo →
        gridCoord lo step i = lo + (i : ℚ) * step) := by
  have hq : ∀ lo hi : ℚ, lo ≤ hi → 0 ≤ roundF32 (roundF32 (hi - lo) / step) := by
    intro lo hi h
    exact roundF32_nonneg (div_nonneg (roundF32_nonneg (by linarith)) hstep.le)
  have hfloor : ∀ (lo hi : ℚ) (k : Int), lo ≤ hi → gridDim lo hi step = some k →
      k = ⌊roundF32 (roundF32 (hi - lo) / step)⌋ := by
    intro lo hi k h hk
    obtain ⟨-, -, ht⟩ := (gridDim_eq_some_iff lo hi step k).mp hk
    rw [truncInt_of_nonneg (hq lo hi h) (truncInt_lt_of_some ht)] at ht
    exact (Option.some.inj ht).symm
  have en := hfloor xmin xmax n hx hn
  have em := hfloor ymin ymax m hy hm
  have hn0 : 0 ≤ n := by
    rw [en]
    exact Int.floor_nonneg.mpr (hq xmin xmax hx)
  have hm0 : 0 ≤ m := by
    rw [em]
    exact Int.floor_nonneg.mpr (hq ymin ymax hy)
  refine ⟨buildGraph xmin ymin step n m, generateGraph_of_dims hn hm, en, em, hn0, hm0, ?_, ?_,
    ?_, ?_, ?_⟩
  · rw [buildGraph_coords_length]
    push_cast
    rw [Int.toNat_of_nonneg hn0, Int.toNat_of_nonneg hm0]
  · intro i j hi0 hin hj0 hjm _ _
    exact buildGraph_vertex xmin ymin step n m i j hi0 hin hj0 hjm
  · intro e1 e2
    rw [en, e1, e2]
  · intro e1 e2
    rw [em, e1, e2]
  · intro lo i e1 e2 e3
    rw [gridCoord, e1, e2, e3]
    ring

/-- Instance of `generateGraph_vertices`: the default configuration. -/
theorem generateGraph_vertices_witness :
    ((0 : ℚ) < defaultStep ∧ (-10 : ℚ) ≤ 10 ∧ gridDim (-10) 10 defaultStep = some 200) ∧
    ∃ g, generateGraph (-10) 10 (-10) 10 defaultStep = some g ∧
      (200 : ℤ) = ⌊roundF32 (roundF32 (10 - (-10)) / defaultStep)⌋ ∧
      (200 : ℤ) = ⌊roundF32 (roundF32 (10 - (-10)) / defaultStep)⌋ ∧
      (0 : ℤ) ≤ 200 ∧ (0 : ℤ) ≤ 200 ∧
      (g.coords.length : ℤ) = 200 * 200 ∧
      (∀ i j : ℤ, 0 ≤ i → i < 200 → 0 ≤ j → j < 200 →
        gridCoordFinite (-10) defaultStep i.toNat → gridCoordFinite (-10) defaultStep j.toNat →
        readAt g.coords (i * 200 + j) =
          some ⟨gridCoord (-10) defaultStep i.toNat, gridCoord (-10) defaultStep j.toNat⟩) ∧
      (roundF32 (10 - (-10)) = 10 - (-10) →
        roundF32 ((10 - (-10)) / defaultStep) = (10 - (-10)) / defaultStep →
        (200 : ℤ) = ⌊((10 : ℚ) - (-10)) / defaultStep⌋) ∧
      (roundF32 (10 - (-10)) = 10 - (-10) →
        roundF32 ((10 - (-10)) / defaultStep) = (10 - (-10)) / defaultStep →
        (200 : ℤ) = ⌊((10 : ℚ) - (-10)) / defaultStep⌋) ∧
      (∀ (lo : ℚ) (i : ℕ), roundF32 (i : ℚ) = i →
        roundF32 ((i : ℚ) * defaultStep) = (i : ℚ) * defaultStep →
        roundF32 ((i : ℚ) * defaultStep + lo) = (i : ℚ) * defaultStep + lo →
        gridCoord lo defaultStep i = lo + (i : ℚ) * defaultStep) :=
  ⟨⟨by norm_num [defaultStep], by norm_num, gridDim_default⟩,
    generateGraph_vertices (-10) 10 (-10) 10 defaultStep 200 200 (by norm_num [defaultStep])
      (by norm_num) (by norm_num) gridDim_default gridDim_default⟩

/-! ## Grid generator: triangle list and refinement of the step -/

/-- C11: whenever both derived dimensions `n`, `m` are defined, the triangle
index list returned by `generateGraph` is exactly the concatenation, over the
cells `(i, j)` with `0 ≤ i < n - 1` (outer loop) and `0 ≤ j < m - 1` (inner
loop), of the two triangles `(i*m+j, (i+1)*m+j, i*m+j+1)` and
`((i+1)*m+j, (i+1)*m+j+1, i*m+j+1)`, in that order; and every grid that
`generateGraph` returns is of this form for its derived dimensions. -/
theorem generateGraph_triangle_list (xmin xmax ymin ymax step : ℚ) (n m : Int)
    (hn : gridDim xmin xmax step = some n) (hm : gridDim ymin ymax step = some m) :
    (∃ g, generateGraph xmin xmax ymin ymax step = some g ∧
      g.indices =
        (List.range (n - 1).toNat).flatMap (fun i =>
          (List.range (m - 1).toNat).flatMap (fun j =>
            [(i : ℤ) * m + j, ((i : ℤ) + 1) * m + j, (i : ℤ) * m + j + 1,
             ((i : ℤ) + 1) * m + j, ((i : ℤ) + 1) * m + j + 1, (i : ℤ) * m + j + 1])) ∧
      trianglesOf g.indices =
        (List.range (n - 1).toNat).flatMap (fun i =>
          (List.range (m - 1).toNat).flatMap (fun j =>
            [((i : ℤ) * m + j, ((i : ℤ) + 1) * m + j, (i : ℤ) * m + j + 1),
             (((i : ℤ) + 1) * m + j, ((i : ℤ) + 1) * m + j + 1, (i : ℤ) * m + j + 1)]))) ∧
    ∀ g, generateGraph xmin xmax ymin ymax step = some g →
      g = buildGraph xmin ymin step n m := by
  refine ⟨⟨buildGraph xmin ymin step n m, generateGraph_of_dims hn hm, ?_, ?_⟩, ?_⟩
  · rw [buildGraph_eq]
    rfl
  · rw [buildGraph_triangles]
    rfl
  · intro g hg
    rw [generateGraph_of_dims hn hm] at hg
    exact (Option.some.inj hg).symm

/-- Instance of `generateGraph_triangle_list`: the grid over `[0,3] x [0,4]`
with step 1, six cells in two rows. -/
theorem generateGraph_triangle_list_witness :
    (gridDim 0 3 1 = some 3 ∧ gridDim 0 4 1 = some 4) ∧
    (∃ g, generateGraph 0 3 0 4 1 = some g ∧
      g.indices =
        (List.range ((3 : ℤ) - 1).toNat).flatMap (fun i =>
          (List.range ((4 : ℤ) - 1).toNat).flatMap (fun j =>
            [(i : ℤ) * 4 + j, ((i : ℤ) + 1) * 4 + j, (i : ℤ) * 4 + j + 1,
             ((i : ℤ) + 1) * 4 + j, ((i : ℤ) + 1) * 4 + j + 1, (i : ℤ) * 4 + j + 1])) ∧
      trianglesOf g.indices =
        (List.range ((3 : ℤ) - 1).toNat).flatMap (fun i =>
          (List.range ((4 : ℤ) - 1).toNat).flatMap (fun j =>
            [((i : ℤ) * 4 + j, ((i : ℤ) + 1) * 4 + j, (i : ℤ) * 4 + j + 1),
             (((i : ℤ) + 1) * 4 + j, ((i : ℤ) + 1) * 4 + j + 1, (i : ℤ) * 4 + j + 1)]))) ∧
    ∀ g, generateGraph 0 3 0 4 1 = some g → g = buildGraph 0 0 1 3 4 :=
  ⟨⟨gridDim_zero_three_one, gridDim_zero_four_one⟩,
    generateGraph_triangle_list 0 3 0 4 1 3 4 gridDim_zero_three_one gridDim_zero_four_one⟩

/-- The number of vertices and of index entries grows with the dimensions. -/
theorem buildGraph_counts_mono (xmin ymin s1 s2 : ℚ) (n1 m1 n2 m2 : Int)
    (hn : n1.toNat ≤ n2.toNat) (hm : m1.toNat ≤ m2.toNat) :
    (buildGraph xmin ymin s1 n1 m1).coords.length ≤ (buildGraph xmin ymin s2 n2 m2).coords.length ∧
    (buildGraph xmin ymin s1 n1 m1).indices.length / 3 ≤
      (buildGraph xmin ymin s2 n2 m2).indices.length / 3 := by
  rw [buildGraph_coords_length, buildGraph_coords_length, buildGraph_indices_length,
    buildGraph_indices_length]
  refine ⟨Nat.mul_le_mul hn hm, Nat.div_le_div_right ?_⟩
  have h1 : (n1 - 1).toNat ≤ (n2 - 1).toNat := by omega
  have h2 : (m1 - 1).toNat ≤ (m2 - 1).toNat := by omega
  exact Nat.mul_le_mul h1 (Nat.mul_le_mul h2 (le_refl 6))

theorem gridDim_three_quarters : gridDim 0 2 (3 / 4) = some 2 := by
  have hq : roundF32 (2 / (3 / 4)) = 11184811 / 2 ^ 22 := by
    apply roundF32_eq_of_pos _ _ 11184811 1 <;> norm_num [abs_lt]
  refine gridDim_of_values 0 2 (3 / 4) 2 (11184811 / 2 ^ 22) 2 (by norm_num)
    (by norm_num [roundF32_two]) (by norm_num) hq ?_
  rw [truncInt_of_nonneg (by norm_num) (by norm_num), Int.floor_eq_iff.mpr]
  norm_num

theorem gridDim_half : gridDim 0 2 (1 / 2) = some 4 :=
  gridDim_of_values 0 2 (1 / 2) 2 4 4 (by norm_num) (by norm_num [roundF32_two]) (by norm_num)
    (by norm_num [roundF32_four]) truncInt_four

/-- For the step `2^(-40)` the float quotient is `2^41`, outside the range of
`int`: the conversion is undefined. -/
theorem gridDim_tiny_step : gridDim 0 2 (1 / 2 ^ 40) = none := by
  have hq : roundF32 (2 / (1 / 2 ^ 40)) = 2 ^ 41 := by
    apply roundF32_eq_of_pos _ _ (2 ^ 23) 41 <;> norm_num
  unfold gridDim
  have h2 : roundF32 (2 - 0) = 2 := by norm_num [roundF32_two]
  rw [if_neg (by norm_num), h2, if_neg (by norm_num), hq]
  exact truncInt_eq_none_of_ge (by norm_num)

/-- C12, as stated, fails twice. Over `[0,2] x [0,2]` the steps `s1 = 1` and
`s2 = 3/4 < s1` both give the 2 x 2 grid, so neither the vertex count nor the
triangle count grows. And for the smaller step `2^(-40)` the quotient `2^41`
is outside the range of `int`: the conversion is undefined and no grid is
defined that could be compared. -/
theorem smaller_step_not_strict :
    ((0 : ℚ) < 3 / 4 ∧ (3 / 4 : ℚ) < 1 ∧
      ∃ g1 g2, generateGraph 0 2 0 2 1 = some g1 ∧ generateGraph 0 2 0 2 (3 / 4) = some g2 ∧
        ¬ (g1.coords.length < g2.coords.length) ∧
        ¬ (g1.indices.length / 3 < g2.indices.length / 3)) ∧
    ((0 : ℚ) < 1 / 2 ^ 40 ∧ (1 / 2 ^ 40 : ℚ) < 1 ∧
      generateGraph 0 2 0 2 (1 / 2 ^ 40) = none) := by
  refine ⟨⟨by norm_num, by norm_num, buildGraph 0 0 1 2 2, buildGraph 0 0 (3 / 4) 2 2,
    generateGraph_of_dims gridDim_zero_two_one gridDim_zero_two_one,
    generateGraph_of_dims gridDim_three_quarters gridDim_three_quarters, ?_, ?_⟩,
    ⟨by norm_num, by norm_num, ?_⟩⟩
  · rw [buildGraph_coords_length, buildGraph_coords_length]
    exact lt_irrefl _
  · rw [buildGraph_indices_length, buildGraph_indices_length]
    exact lt_irrefl _
  · simp only [generateGraph, gridDim_tiny_step]
    rfl

/-- C12, amended: for fixed bounds and steps `0 < s2 < s1` for which both
grids are generated (both quotients convert to `int`), the grid generated with
step `s2` has at least as many vertices and at least as many triangles as the
grid generated with step `s1`. -/
theorem smaller_step_monotone (xmin xmax ymin ymax s1 s2 : ℚ) (g1 g2 : GraphData)
    (h2 : 0 < s2) (h12 : s2 < s1)
    (e1 : generateGraph xmin xmax ymin ymax s1 = some g1)
    (e2 : generateGraph xmin xmax ymin ymax s2 = some g2) :
    g1.coords.length ≤ g2.coords.length ∧
    g1.indices.length / 3 ≤ g2.indices.length / 3 := by
  obtain ⟨n1, m1, hn1, hm1, rfl⟩ := (generateGraph_eq_some_iff _ _ _ _ _ _).mp e1
  obtain ⟨n2, m2, hn2, hm2, rfl⟩ := (generateGraph_eq_some_iff _ _ _ _ _ _).mp e2
  exact buildGraph_counts_mono xmin ymin s1 s2 _ _ _ _
    (gridDim_toNat_mono h2 h12 hn1 hn2) (gridDim_toNat_mono h2 h12 hm1 hm2)

/-- Instance of `smaller_step_monotone`: steps 1 and 1/2 over `[0,2] x [0,2]`,
4 and 16 vertices, 2 and 18 triangles. -/
theorem smaller_step_monotone_witness :
    ((0 : ℚ) < 1 / 2 ∧ (1 / 2 : ℚ) < 1 ∧
      generateGraph 0 2 0 2 1 = some (buildGraph 0 0 1 2 2) ∧
      generateGraph 0 2 0 2 (1 / 2) = some (buildGraph 0 0 (1 / 2) 4 4)) ∧
    (buildGraph 0 0 1 2 2).coords.length ≤ (buildGraph 0 0 (1 / 2) 4 4).coords.length ∧
    (buildGraph 0 0 1 2 2).indices.length / 3 ≤ (buildGraph 0 0 (1 / 2) 4 4).indices.length / 3 :=
  ⟨⟨by norm_num, by norm_num, generateGraph_of_dims gridDim_zero_two_one gridDim_zero_two_one,
      generateGraph_of_dims gridDim_half gridDim_half⟩,
    smaller_step_monotone 0 2 0 2 1 (1 / 2) _ _ (by norm_num) (by norm_num)
      (generateGraph_of_dims gridDim_zero_two_one gridDim_zero_two_one)
      (generateGraph_of_dims gridDim_half gridDim_half)⟩

/-! ## Field evaluator -/

theorem updateVertex_frame (sinF cosF : ℚ → ℚ) (t : ℚ) (graph : GraphData) (i : Nat)
    (hic : i < graph.coords.length) (hiv : i < graph.values.length) :
    ∃ g, updateVertex sinF cosF t graph i = some g ∧ g.coords = graph.coords ∧
      g.indices = graph.indices ∧ g.values.length = graph.values.length := by
  refine ⟨⟨graph.coords, graph.values.set i
    (sinF ((graph.coords.get ⟨i, hic⟩).x + 3 * t) + cosF ((graph.coords.get ⟨i, hic⟩).y + t)),
    graph.indices⟩, ?_, rfl, rfl, ?_⟩
  · simp [updateVertex, List.getElem?_eq_getElem hic, hiv]
  · simp

theorem updateLoop_frame (sinF cosF : ℚ → ℚ) (t : ℚ) (is : List Nat) (graph : GraphData)
    (his : ∀ i ∈ is, i < graph.coords.length) (hlen : graph.coords.length ≤ graph.values.length) :
    ∃ g, updateLoop sinF cosF t is graph = some g ∧ g.coords = graph.coords ∧
      g.indices = graph.indices ∧ g.values.length = graph.values.length := by
  induction is generalizing graph with
  | nil => exact ⟨graph, rfl, rfl, rfl, rfl⟩
  | cons i is ih =>
    have hi := his i (List.mem_cons_self _ _)
    obtain ⟨g1, h1, hc1, hi1, hv1⟩ :=
      updateVertex_frame sinF cosF t graph i hi (lt_of_lt_of_le hi hlen)
    obtain ⟨g2, h2, hc2, hi2, hv2⟩ := ih g1
      (fun j hj => by rw [hc1]; exact his j (List.mem_cons_of_mem _ hj))
      (by rw [hc1, hv1]; exact hlen)
    refine ⟨g2, ?_, hc2.trans hc1, hi2.trans hi1, hv2.trans hv1⟩
    rw [updateLoop, h1]
    exact h2

/-- C20: `updateGraph` modifies only the values array: on a grid with one
value per vertex it returns a grid with the same vertex positions, the same
triangle list and a values array of the same length. -/
theorem updateGraph_frame (sinF cosF : ℚ → ℚ) (t : ℚ) (graph : GraphData)
    (hlen : graph.coords.length ≤ graph.values.length) :
    ∃ g, updateGraph sinF cosF t graph = some g ∧ g.coords = graph.coords ∧
      g.indices = graph.indices ∧ g.values.length = graph.values.length :=
  updateLoop_frame sinF cosF t _ graph (fun _ hi => List.mem_range.mp hi) hlen

/-- Witness for C20: the single triangle, any field functions and time 0. -/
theorem updateGraph_frame_witness :
    ∃ g, updateGraph (fun x => x) (fun x => x) 0 singleTriangle = some g ∧
      g.coords = singleTriangle.coords ∧ g.indices = singleTriangle.indices ∧
      g.values.length = singleTriangle.values.length :=
  updateGraph_frame (fun x => x) (fun x => x) 0 singleTriangle (le_refl 3)

/-! ## Facts about `addIsoline` -/

/-- One loop iteration performs exactly the calls listed by `segment`. -/
theorem triangle_eq_segment (graph : GraphData) (value : ℚ) (st : AddState) (i0 i1 i2 : Int) :
    triangle graph value st i0 i1 i2 =
      (segment graph value i0 i1 i2).map (fun cs => cs.foldl addCrossing st) := by
  unfold triangle segment
  cases readAt graph.coords i0 with
  | none => rfl
  | some p0 =>
  cases readAt graph.coords i1 with
  | none => rfl
  | some p1 =>
  cases readAt graph.coords i2 with
  | none => rfl
  | some p2 =>
  cases readAt graph.values i0 with
  | none => rfl
  | some v0 =>
  cases readAt graph.values i1 with
  | none => rfl
  | some v1 =>
  cases readAt graph.values i2 with
  | none => rfl
  | some v2 =>
    simp only [Option.bind_eq_bind, Option.some_bind, Option.pure_def, Option.map_some',
      segmentCalls]
    split_ifs <;> simp [addCrossing]

/-- The triangle loop performs exactly the calls listed by `crossings`. -/
theorem triangleLoop_eq_crossings (graph : GraphData) (value : ℚ) :
    ∀ (tris : List Int) (st : AddState),
      triangleLoop graph value tris st =
        (crossings graph value tris).map (fun cs => cs.foldl addCrossing st)
  | [], st => by simp [triangleLoop, crossings]
  | [_], st => by simp [triangleLoop, crossings]
  | [_, _], st => by simp [triangleLoop, crossings]
  | i0 :: i1 :: i2 :: rest, st => by
    rw [triangleLoop, crossings, triangle_eq_segment]
    cases hs : segment graph value i0 i1 i2 with
    | none => simp
    | some s =>
      simp only [Option.map_some', Option.some_bind, Option.bind_some]
      rw [triangleLoop_eq_crossings graph value rest]
      cases crossings graph value rest <;> simp [List.foldl_append]

/-- The function `addIsoline` in terms of the calls of `add` it makes. -/
theorem addIsoline_eq_crossings (graph : GraphData) (isolines : IsolinesData) (value : ℚ) :
    addIsoline graph isolines value =
      (crossings graph value graph.indices).map
        (fun cs => (cs.foldl addCrossing ⟨[], isolines⟩).isolines) := by
  rw [addIsoline, triangleLoop_eq_crossings]
  cases crossings graph value graph.indices <;> simp

/-! ### The edge key and the lambda `add` -/

theorem edgeKey_comm (a b : Int) : edgeKey a b = edgeKey b a := by
  unfold edgeKey
  simp only
  by_cases h1 : toUnsigned a > toUnsigned b
  · have h2 : ¬ toUnsigned b > toUnsigned a := by omega
    simp [h1, h2]
  · by_cases h2 : toUnsigned b > toUnsigned a
    · simp [h1, h2]
    · have e : toUnsigned a = toUnsigned b := by omega
      simp [e]

theorem edgeKey_of_sameEdge {c d : Crossing} (h : sameEdge c d) :
    edgeKey c.idx0 c.idx1 = edgeKey d.idx0 d.idx1 := by
  rcases h with ⟨h0, h1⟩ | ⟨h0, h1⟩
  · rw [h0, h1]
  · rw [h0, h1, edgeKey_comm]

theorem add_of_lookup_some {st : AddState} {a b : Int} {k : Int} (p : Vec3)
    (h : st.idxs.lookup (edgeKey a b) = some k) :
    add st p a b =
      { st with isolines := { st.isolines with indices := st.isolines.indices ++ [k] } } := by
  simp only [add, h]

theorem add_of_lookup_none {st : AddState} {a b : Int} (p : Vec3)
    (h : st.idxs.lookup (edgeKey a b) = none) :
    add st p a b =
      { idxs := (edgeKey a b, (st.isolines.coords.length : Int)) :: st.idxs
        isolines :=
          { coords := st.isolines.coords ++ [p]
            indices := st.isolines.indices ++ [(st.isolines.coords.length : Int)] } } := by
  simp only [add, h]

/-- After a call of `add` the map holds the index that was pushed. -/
theorem add_pushes_lookup (st : AddState) (p : Vec3) (a b : Int) :
    ∃ k, (add st p a b).idxs.lookup (edgeKey a b) = some k ∧
      (add st p a b).isolines.indices = st.isolines.indices ++ [k] := by
  cases h : st.idxs.lookup (edgeKey a b) with
  | none =>
    refine ⟨(st.isolines.coords.length : Int), ?_, ?_⟩
    · rw [add_of_lookup_none p h]
      simp [List.lookup_cons]
    · rw [add_of_lookup_none p h]
  | some k =>
    refine ⟨k, ?_, ?_⟩
    · rw [add_of_lookup_some p h]
      exact h
    · rw [add_of_lookup_some p h]

/-- A call of `add` never changes an entry that is already in the map. -/
theorem add_keeps_lookup (st : AddState) (p : Vec3) (a b : Int) (key : Nat) (v : Int)
    (h : st.idxs.lookup key = some v) : (add st p a b).idxs.lookup key = some v := by
  cases h' : st.idxs.lookup (edgeKey a b) with
  | none =>
    rw [add_of_lookup_none p h']
    have hne : key ≠ edgeKey a b := by
      intro e
      rw [e, h'] at h
      exact Option.noConfusion h
    simp only [List.lookup_cons]
    rw [beq_false_of_ne hne]
    exact h
  | some k =>
    rw [add_of_lookup_some p h']
    exact h

theorem foldl_keeps_lookup (cs : List Crossing) (st : AddState) (key : Nat) (v : Int)
    (h : st.idxs.lookup key = some v) :
    (cs.foldl addCrossing st).idxs.lookup key = some v := by
  induction cs generalizing st with
  | nil => exact h
  | cons c cs ih =>
    rw [List.foldl_cons]
    exact ih _ (add_keeps_lookup st c.point c.idx0 c.idx1 key v h)

/-- The calls of `add` only append to the index buffer, one entry per call. -/
theorem foldl_indices (cs : List Crossing) (st : AddState) :
    ∃ l, l.length = cs.length ∧
      (cs.foldl addCrossing st).isolines.indices = st.isolines.indices ++ l := by
  induction cs generalizing st with
  | nil => exact ⟨[], rfl, by simp⟩
  | cons c cs ih =>
    obtain ⟨k, -, hk⟩ := add_pushes_lookup st c.point c.idx0 c.idx1
    obtain ⟨l, hl, hl'⟩ := ih (addCrossing st c)
    refine ⟨k :: l, by simp [hl], ?_⟩
    rw [List.foldl_cons, hl', addCrossing, hk]
    simp

/-- The calls of `add` only append to the vertex buffer. -/
theorem foldl_coords (cs : List Crossing) (st : AddState) :
    ∃ l, (cs.foldl addCrossing st).isolines.coords = st.isolines.coords ++ l := by
  induction cs generalizing st with
  | nil => exact ⟨[], by simp⟩
  | cons c cs ih =>
    obtain ⟨l, hl⟩ := ih (addCrossing st c)
    rw [List.foldl_cons, hl]
    cases h : st.idxs.lookup (edgeKey c.idx0 c.idx1) with
    | none =>
      rw [addCrossing, add_of_lookup_none c.point h]
      exact ⟨c.point :: l, by simp⟩
    | some k =>
      rw [addCrossing, add_of_lookup_some c.point h]
      exact ⟨l, rfl⟩

theorem add_mapInRange (base : Nat) (st : AddState) (p : Vec3) (a b : Int)
    (hb : base ≤ st.isolines.coords.length) (h : MapInRange base st) :
    MapInRange base (add st p a b) ∧ base ≤ (add st p a b).isolines.coords.length := by
  cases h' : st.idxs.lookup (edgeKey a b) with
  | none =>
    rw [add_of_lookup_none p h']
    refine ⟨?_, by simp; omega⟩
    intro key v hv
    simp only [List.lookup_cons] at hv
    simp only [List.length_append, List.length_singleton, Nat.cast_add, Nat.cast_one]
    by_cases e : key = edgeKey a b
    · rw [e, beq_self_eq_true] at hv
      simp only [Option.some.injEq] at hv
      omega
    · rw [beq_false_of_ne e] at hv
      have := h key v hv
      omega
  | some k =>
    rw [add_of_lookup_some p h']
    exact ⟨h, hb⟩

theorem foldl_mapInRange (base : Nat) (cs : List Crossing) (st : AddState)
    (hb : base ≤ st.isolines.coords.length) (h : MapInRange base st) :
    MapInRange base (cs.foldl addCrossing st) := by
  induction cs generalizing st with
  | nil => exact h
  | cons c cs ih =>
    rw [List.foldl_cons]
    have := add_mapInRange base st c.point c.idx0 c.idx1 hb h
    exact ih _ this.2 this.1

/-! ### The classification mask -/

/-- The mask as a function of the three comparison results. -/
theorem classify_eq (t0 t1 t2 value : ℚ) :
    classify t0 t1 t2 value =
      (if t0 > value then 1 else 0) + (if t1 > value then 2 else 0) +
        (if t2 > value then 4 else 0) := by
  unfold classify bit
  by_cases h0 : t0 > value <;> by_cases h1 : t1 > value <;> by_cases h2 : t2 > value <;>
    simp only [h0, h1, h2, decide_True, decide_False, if_true, if_false] <;> decide

theorem remap_one : remap 1 = 1 := by decide

theorem remap_two : remap 2 = 2 := by decide

theorem remap_three : remap 3 = 4 := by decide

theorem remap_four : remap 4 = 4 := by decide

theorem remap_five : remap 5 = 2 := by decide

theorem remap_six : remap 6 = 1 := by decide

/-- No call of `add` when the three comparisons agree (masks 0 and 7). -/
theorem segmentCalls_uncrossed (p0 p1 p2 : Vec2) (t0 t1 t2 value : ℚ) (i0 i1 i2 : Int)
    (h01 : t0 > value ↔ t1 > value) (h12 : t1 > value ↔ t2 > value) :
    segmentCalls p0 p1 p2 t0 t1 t2 value i0 i1 i2 = [] := by
  unfold segmentCalls
  rw [classify_eq]
  by_cases h1 : t1 > value
  · simp [h01.mpr h1, h1, h12.mp h1]
  · simp [mt h01.mp h1, h1, mt h12.mpr h1]

/-- Vertex 0 alone on its side (masks 1 and 6): calls on edges `{i0,i1}`, `{i0,i2}`. -/
theorem segmentCalls_first (p0 p1 p2 : Vec2) (t0 t1 t2 value : ℚ) (i0 i1 i2 : Int)
    (h01 : ¬ (t0 > value ↔ t1 > value)) (h12 : t1 > value ↔ t2 > value) :
    segmentCalls p0 p1 p2 t0 t1 t2 value i0 i1 i2 =
      [⟨mix (vec3 p0 t0) (vec3 p1 t1) (1 - (value - t1) / (t0 - t1)), i0, i1⟩,
       ⟨mix (vec3 p0 t0) (vec3 p2 t2) (1 - (value - t2) / (t0 - t2)), i0, i2⟩] := by
  unfold segmentCalls
  rw [classify_eq]
  by_cases h1 : t1 > value
  · have h0 : ¬ t0 > value := fun h0 => h01 ⟨fun _ => h1, fun _ => h0⟩
    simp [h0, h1, h12.mp h1, remap]
  · have h0 : t0 > value := by
      by_contra h0
      exact h01 ⟨fun h => absurd h h0, fun h => absurd h h1⟩
    simp [h0, h1, mt h12.mpr h1, remap]

/-- Vertex 1 alone on its side (masks 2 and 5): calls on edges `{i0,i1}`, `{i1,i2}`. -/
theorem segmentCalls_second (p0 p1 p2 : Vec2) (t0 t1 t2 value : ℚ) (i0 i1 i2 : Int)
    (h10 : ¬ (t1 > value ↔ t0 > value)) (h02 : t0 > value ↔ t2 > value) :
    segmentCalls p0 p1 p2 t0 t1 t2 value i0 i1 i2 =
      [⟨mix (vec3 p1 t1) (vec3 p0 t0) (1 - (value - t0) / (t1 - t0)), i0, i1⟩,
       ⟨mix (vec3 p1 t1) (vec3 p2 t2) (1 - (value - t2) / (t1 - t2)), i1, i2⟩] := by
  unfold segmentCalls
  rw [classify_eq]
  by_cases h0 : t0 > value
  · have h1 : ¬ t1 > value := fun h1 => h10 ⟨fun _ => h0, fun _ => h1⟩
    simp [h0, h1, h02.mp h0, remap]
  · have h1 : t1 > value := by
      by_contra h1
      exact h10 ⟨fun h => absurd h h1, fun h => absurd h h0⟩
    simp [h0, h1, mt h02.mpr h0, remap]

/-- Vertex 2 alone on its side (masks 4 and 3): calls on edges `{i1,i2}`, `{i0,i2}`. -/
theorem segmentCalls_third (p0 p1 p2 : Vec2) (t0 t1 t2 value : ℚ) (i0 i1 i2 : Int)
    (h20 : ¬ (t2 > value ↔ t0 > value)) (h01 : t0 > value ↔ t1 > value) :
    segmentCalls p0 p1 p2 t0 t1 t2 value i0 i1 i2 =
      [⟨mix (vec3 p2 t2) (vec3 p1 t1) (1 - (value - t1) / (t2 - t1)), i1, i2⟩,
       ⟨mix (vec3 p2 t2) (vec3 p0 t0) (1 - (value - t0) / (t2 - t0)), i0, i2⟩] := by
  unfold segmentCalls
  rw [classify_eq]
  by_cases h0 : t0 > value
  · have h2 : ¬ t2 > value := fun h2 => h20 ⟨fun _ => h0, fun _ => h2⟩
    simp [h0, h01.mp h0, h2, remap]
  · have h2 : t2 > value := by
      by_contra h2
      exact h20 ⟨fun h => absurd h h2, fun h => absurd h h0⟩
    simp [h0, mt h01.mpr h0, h2, remap]

/-- The calls of one loop iteration exist exactly when the six reads succeed. -/
theorem segment_eq_some (graph : GraphData) (value : ℚ) (i0 i1 i2 : Int) (cs : List Crossing) :
    segment graph value i0 i1 i2 = some cs ↔
      ∃ p0 p1 p2 v0 v1 v2,
        readAt graph.coords i0 = some p0 ∧ readAt graph.coords i1 = some p1 ∧
        readAt graph.coords i2 = some p2 ∧ readAt graph.values i0 = some v0 ∧
        readAt graph.values i1 = some v1 ∧ readAt graph.values i2 = some v2 ∧
        cs = segmentCalls p0 p1 p2 (v0 + eps) (v1 + eps) (v2 + eps) value i0 i1 i2 := by
  simp only [segment, Option.bind_eq_bind, Option.bind_eq_some, Option.pure_def,
    Option.some.injEq]
  constructor
  · rintro ⟨p0, h0, p1, h1, p2, h2, v0, g0, v1, g1, v2, g2, h⟩
    exact ⟨p0, p1, p2, v0, v1, v2, h0, h1, h2, g0, g1, g2, h.symm⟩
  · rintro ⟨p0, p1, p2, v0, v1, v2, h0, h1, h2, g0, g1, g2, h⟩
    exact ⟨p0, h0, p1, h1, p2, h2, v0, g0, v1, g1, v2, g2, h.symm⟩

theorem classBit_ne_iff (v w value : ℚ) :
    classBit v value ≠ classBit w value ↔ ¬ (v + eps > value ↔ w + eps > value) := by
  simp [classBit]

theorem classBit_eq_iff (v w value : ℚ) :
    classBit v value = classBit w value ↔ (v + eps > value ↔ w + eps > value) := by
  simp [classBit]

/-- Two vertices with different classification bits are different vertices. -/
theorem index_ne_of_classBit_ne (graph : GraphData) (value : ℚ) (i j : Int) (v w : ℚ)
    (hi : readAt graph.values i = some v) (hj : readAt graph.values j = some w)
    (h : classBit v value ≠ classBit w value) : i ≠ j := by
  intro e
  rw [e, hj] at hi
  rw [Option.some.inj hi] at h
  exact h rfl

theorem segment_singleTriangle :
    segment singleTriangle 0 0 1 2 =
      some [⟨⟨99 / 200, 0, 0⟩, 0, 1⟩, ⟨⟨99 / 200, 101 / 200, 0⟩, 1, 2⟩] := by
  simp [segment, readAt, singleTriangle, segmentCalls, classify_eq, eps, mix, vec3]
  norm_num [remap_one, remap_two, remap_three, remap_four, remap_five, remap_six]

/-! ### Interpolation -/

theorem mix_swap (x y : Vec3) (a : ℚ) : mix x y (1 - a) = mix y x a := by
  simp only [mix, Vec3.mk.injEq]
  refine ⟨?_, ?_, ?_⟩ <;> ring

/-- The fraction used by the source, `1 - (value - tb) / (ta - tb)`, is the
lerp fraction `(value - ta) / (tb - ta)` from `a` towards `b`. -/
theorem fraction_eq (ta tb value : ℚ) (h : ta ≠ tb) :
    1 - (value - tb) / (ta - tb) = (value - ta) / (tb - ta) := by
  have h1 : ta - tb ≠ 0 := sub_ne_zero.mpr h
  have h2 : tb - ta ≠ 0 := sub_ne_zero.mpr (Ne.symm h)
  field_simp
  ring

theorem mix_fraction (x y : Vec3) (ta tb value : ℚ) (h : ta ≠ tb) :
    mix x y (1 - (value - tb) / (ta - tb)) = mix x y ((value - ta) / (tb - ta)) := by
  rw [fraction_eq ta tb value h]

/-- Every call listed by `crossings` is made by some loop iteration. -/
theorem mem_crossings (graph : GraphData) (value : ℚ) :
    ∀ (tris : List Int) (cs : List Crossing), crossings graph value tris = some cs →
      ∀ c ∈ cs, ∃ i0 i1 i2 s, segment graph value i0 i1 i2 = some s ∧ c ∈ s
  | [], cs, h, c, hc => by
    simp only [crossings, Option.some.injEq] at h
    rw [← h] at hc
    exact absurd hc (List.not_mem_nil c)
  | [_], cs, h, c, hc => by simp [crossings] at h
  | [_, _], cs, h, c, hc => by simp [crossings] at h
  | i0 :: i1 :: i2 :: rest, cs, h, c, hc => by
    simp only [crossings, Option.bind_eq_some, Option.map_eq_some'] at h
    obtain ⟨s, hs, r, hr, e⟩ := h
    rw [← e, List.mem_append] at hc
    rcases hc with hc | hc
    · exact ⟨i0, i1, i2, s, hs, hc⟩
    · exact mem_crossings graph value rest r hr c hc

/-- Strictly-above and not-above shifted values are different. -/
theorem ne_of_gt_of_not_gt {t u value : ℚ} (h : t > value) (h' : ¬ u > value) : t ≠ u := by
  intro e
  rw [e] at h
  exact h' h

theorem ne_of_not_iff_gt {t u value : ℚ} (h : ¬ (t > value ↔ u > value)) : t ≠ u := by
  intro e
  rw [e] at h
  exact h Iff.rfl

/-- The four possible outcomes of the branches of one loop iteration. -/
theorem segmentCalls_cases (p0 p1 p2 : Vec2) (t0 t1 t2 value : ℚ) (i0 i1 i2 : Int) :
    ((t0 > value ↔ t1 > value) ∧ (t1 > value ↔ t2 > value) ∧
      segmentCalls p0 p1 p2 t0 t1 t2 value i0 i1 i2 = []) ∨
    (¬ (t0 > value ↔ t1 > value) ∧ ¬ (t0 > value ↔ t2 > value) ∧
      segmentCalls p0 p1 p2 t0 t1 t2 value i0 i1 i2 =
        [⟨mix (vec3 p0 t0) (vec3 p1 t1) (1 - (value - t1) / (t0 - t1)), i0, i1⟩,
         ⟨mix (vec3 p0 t0) (vec3 p2 t2) (1 - (value - t2) / (t0 - t2)), i0, i2⟩]) ∨
    (¬ (t1 > value ↔ t0 > value) ∧ ¬ (t1 > value ↔ t2 > value) ∧
      segmentCalls p0 p1 p2 t0 t1 t2 value i0 i1 i2 =
        [⟨mix (vec3 p1 t1) (vec3 p0 t0) (1 - (value - t0) / (t1 - t0)), i0, i1⟩,
         ⟨mix (vec3 p1 t1) (vec3 p2 t2) (1 - (value - t2) / (t1 - t2)), i1, i2⟩]) ∨
    (¬ (t2 > value ↔ t1 > value) ∧ ¬ (t2 > value ↔ t0 > value) ∧
      segmentCalls p0 p1 p2 t0 t1 t2 value i0 i1 i2 =
        [⟨mix (vec3 p2 t2) (vec3 p1 t1) (1 - (value - t1) / (t2 - t1)), i1, i2⟩,
         ⟨mix (vec3 p2 t2) (vec3 p0 t0) (1 - (value - t0) / (t2 - t0)), i0, i2⟩]) := by
  by_cases e01 : (t0 > value ↔ t1 > value)
  · by_cases e12 : (t1 > value ↔ t2 > value)
    · exact Or.inl ⟨e01, e12, segmentCalls_uncrossed _ _ _ _ _ _ _ _ _ _ e01 e12⟩
    · have n20 : ¬ (t2 > value ↔ t0 > value) := fun e => e12 (e01.symm.trans e.symm)
      exact Or.inr (Or.inr (Or.inr ⟨fun e => e12 e.symm, n20,
        segmentCalls_third _ _ _ _ _ _ _ _ _ _ n20 e01⟩))
  · by_cases e12 : (t1 > value ↔ t2 > value)
    · exact Or.inr (Or.inl ⟨e01, fun e => e01 (e.trans e12.symm),
        segmentCalls_first _ _ _ _ _ _ _ _ _ _ e01 e12⟩)
    · have e02 : (t0 > value ↔ t2 > value) := by
        by_cases a0 : t0 > value <;> by_cases a1 : t1 > value <;> by_cases a2 : t2 > value <;>
          simp [a0, a1, a2] at e01 e12 ⊢
      exact Or.inr (Or.inr (Or.inl ⟨fun e => e01 e.symm, e12,
        segmentCalls_second _ _ _ _ _ _ _ _ _ _ (fun e => e01 e.symm) e02⟩))

/-- The point of every call of one loop iteration is the lerp of the two
endpoints named in the call, taken with the eps-shifted values. -/
theorem segment_point_lerp (graph : GraphData) (value : ℚ) (i0 i1 i2 : Int)
    (s : List Crossing) (h : segment graph value i0 i1 i2 = some s) :
    ∀ c ∈ s, ∃ pa pb va vb,
      readAt graph.coords c.idx0 = some pa ∧ readAt graph.coords c.idx1 = some pb ∧
      readAt graph.values c.idx0 = some va ∧ readAt graph.values c.idx1 = some vb ∧
      va + eps ≠ vb + eps ∧
      c.point = mix (vec3 pa (va + eps)) (vec3 pb (vb + eps))
        ((value - (va + eps)) / ((vb + eps) - (va + eps))) := by
  obtain ⟨p0, p1, p2, v0, v1, v2, hp0, hp1, hp2, hv0, hv1, hv2, hs⟩ :=
    (segment_eq_some graph value i0 i1 i2 s).mp h
  intro c hc
  rcases segmentCalls_cases p0 p1 p2 (v0 + eps) (v1 + eps) (v2 + eps) value i0 i1 i2 with
    ⟨-, -, e⟩ | ⟨n1, n2, e⟩ | ⟨n1, n2, e⟩ | ⟨n1, n2, e⟩
  · rw [hs, e] at hc
    exact absurd hc (List.not_mem_nil c)
  · rw [hs, e] at hc
    simp only [List.mem_cons, List.mem_singleton, List.not_mem_nil, or_false] at hc
    rcases hc with rfl | rfl
    · exact ⟨p0, p1, v0, v1, hp0, hp1, hv0, hv1, ne_of_not_iff_gt n1,
        mix_fraction _ _ _ _ _ (ne_of_not_iff_gt n1)⟩
    · exact ⟨p0, p2, v0, v2, hp0, hp2, hv0, hv2, ne_of_not_iff_gt n2,
        mix_fraction _ _ _ _ _ (ne_of_not_iff_gt n2)⟩
  · rw [hs, e] at hc
    simp only [List.mem_cons, List.mem_singleton, List.not_mem_nil, or_false] at hc
    rcases hc with rfl | rfl
    · exact ⟨p0, p1, v0, v1, hp0, hp1, hv0, hv1, Ne.symm (ne_of_not_iff_gt n1),
        mix_swap _ _ _⟩
    · exact ⟨p1, p2, v1, v2, hp1, hp2, hv1, hv2, ne_of_not_iff_gt n2,
        mix_fraction _ _ _ _ _ (ne_of_not_iff_gt n2)⟩
  · rw [hs, e] at hc
    simp only [List.mem_cons, List.mem_singleton, List.not_mem_nil, or_false] at hc
    rcases hc with rfl | rfl
    · exact ⟨p1, p2, v1, v2, hp1, hp2, hv1, hv2, Ne.symm (ne_of_not_iff_gt n1),
        mix_swap _ _ _⟩
    · exact ⟨p0, p2, v0, v2, hp0, hp2, hv0, hv2, Ne.symm (ne_of_not_iff_gt n2),
        mix_swap _ _ _⟩

/-! ### The single-triangle example -/

theorem crossings_singleTriangle :
    crossings singleTriangle 0 singleTriangle.indices =
      some [⟨⟨99 / 200, 0, 0⟩, 0, 1⟩, ⟨⟨99 / 200, 101 / 200, 0⟩, 1, 2⟩] := by
  have h : singleTriangle.indices = [0, 1, 2] := rfl
  rw [h, crossings, segment_singleTriangle]
  simp [crossings]

theorem addIsoline_singleTriangle :
    addIsoline singleTriangle emptyMesh 0 =
      some ⟨[⟨99 / 200, 0, 0⟩, ⟨99 / 200, 101 / 200, 0⟩], [0, 1]⟩ := by
  rw [addIsoline_eq_crossings, crossings_singleTriangle]
  simp [addCrossing, add, edgeKey, toUnsigned, emptyMesh, List.lookup]

/-! ### The two-triangle quad -/

/-- The calls of `add` on a quad with triangles `(0,2,1)` and `(2,3,1)`. -/
theorem crossings_quad (p0 p1 p2 p3 : Vec2) (v0 v1 v2 v3 value : ℚ) :
    crossings ⟨[p0, p1, p2, p3], [v0, v1, v2, v3], [0, 2, 1, 2, 3, 1]⟩ value
        [0, 2, 1, 2, 3, 1] =
      some (segmentCalls p0 p2 p1 (v0 + eps) (v2 + eps) (v1 + eps) value 0 2 1 ++
        segmentCalls p2 p3 p1 (v2 + eps) (v3 + eps) (v1 + eps) value 2 3 1) := by
  simp [crossings, segment, readAt]

theorem lookup_cons_self (k : Nat) (v : Int) (es : List (Nat × Int)) :
    List.lookup k ((k, v) :: es) = some v := by
  simp [List.lookup_cons]

theorem lookup_cons_of_ne {key k : Nat} (h : key ≠ k) (v : Int) (es : List (Nat × Int)) :
    List.lookup key ((k, v) :: es) = List.lookup key es := by
  simp [List.lookup_cons, beq_false_of_ne h]

/-- Four calls of `add` into an empty mesh where the fourth call names the
edge of the second one. -/
theorem fold_four_shared_second (q1 q2 q3 q4 : Vec3) (a1 b1 a2 b2 a3 b3 a4 b4 : Int)
    (h21 : edgeKey a2 b2 ≠ edgeKey a1 b1) (h31 : edgeKey a3 b3 ≠ edgeKey a1 b1)
    (h32 : edgeKey a3 b3 ≠ edgeKey a2 b2) (h42 : edgeKey a4 b4 = edgeKey a2 b2) :
    (([⟨q1, a1, b1⟩, ⟨q2, a2, b2⟩, ⟨q3, a3, b3⟩, ⟨q4, a4, b4⟩] : List Crossing).foldl
      addCrossing ⟨[], emptyMesh⟩).isolines = ⟨[q1, q2, q3], [0, 1, 2, 1]⟩ := by
  simp [addCrossing, add, emptyMesh, h42, lookup_cons_self, lookup_cons_of_ne h21,
    lookup_cons_of_ne h31, lookup_cons_of_ne h32, lookup_cons_of_ne h32.symm]

/-- Four calls of `add` into an empty mesh where the fourth call names the
edge of the first one. -/
theorem fold_four_shared_first (q1 q2 q3 q4 : Vec3) (a1 b1 a2 b2 a3 b3 a4 b4 : Int)
    (h21 : edgeKey a2 b2 ≠ edgeKey a1 b1) (h31 : edgeKey a3 b3 ≠ edgeKey a1 b1)
    (h32 : edgeKey a3 b3 ≠ edgeKey a2 b2) (h41 : edgeKey a4 b4 = edgeKey a1 b1) :
    (([⟨q1, a1, b1⟩, ⟨q2, a2, b2⟩, ⟨q3, a3, b3⟩, ⟨q4, a4, b4⟩] : List Crossing).foldl
      addCrossing ⟨[], emptyMesh⟩).isolines = ⟨[q1, q2, q3], [0, 1, 2, 0]⟩ := by
  simp [addCrossing, add, emptyMesh, h41, lookup_cons_self, lookup_cons_of_ne h21,
    lookup_cons_of_ne h31, lookup_cons_of_ne h32, lookup_cons_of_ne h31.symm,
    lookup_cons_of_ne h21.symm]

/-! ## Isoline extractor: settled properties -/

theorem foldl_take_succ (cs : List Crossing) (st : AddState) (k : Nat) (hk : k < cs.length) :
    (cs.take (k + 1)).foldl addCrossing st =
      addCrossing ((cs.take k).foldl addCrossing st) cs[k] := by
  rw [List.take_succ, List.foldl_append, List.getElem?_eq_getElem hk]
  rfl

theorem foldl_take_le (cs : List Crossing) (st : AddState) (k k' : Nat) (h : k ≤ k') :
    (cs.take k').foldl addCrossing st =
      ((cs.take k').drop k).foldl addCrossing ((cs.take k).foldl addCrossing st) := by
  rw [← List.foldl_append]
  congr 1
  have e : cs.take k = (cs.take k').take k := by
    rw [List.take_take, Nat.min_eq_left h]
  rw [e, List.take_append_drop]

theorem foldl_take_indices_length (cs : List Crossing) (st : AddState) (k : Nat)
    (hk : k ≤ cs.length) :
    ((cs.take k).foldl addCrossing st).isolines.indices.length =
      st.isolines.indices.length + k := by
  obtain ⟨l, hl, hl'⟩ := foldl_indices (cs.take k) st
  rw [hl', List.length_append, hl, List.length_take, Nat.min_eq_left hk]

/-- An index written by one of the first `k` calls is still there at the end. -/
theorem foldl_take_getElem? (cs : List Crossing) (st : AddState) (k pos : Nat) (v : Int)
    (h : ((cs.take k).foldl addCrossing st).isolines.indices[pos]? = some v) :
    (cs.foldl addCrossing st).isolines.indices[pos]? = some v := by
  have e : cs.foldl addCrossing st =
      (cs.drop k).foldl addCrossing ((cs.take k).foldl addCrossing st) := by
    rw [← List.foldl_append, List.take_append_drop]
  obtain ⟨l, -, hl⟩ := foldl_indices (cs.drop k) ((cs.take k).foldl addCrossing st)
  rw [e, hl]
  have hpos : pos < ((cs.take k).foldl addCrossing st).isolines.indices.length := by
    by_contra hc
    rw [List.getElem?_eq_none (by omega)] at h
    exact Option.noConfusion h
  rw [List.getElem?_append_left hpos]
  exact h

/-- The calls of `add` for the quad with values `(1, 0, 1, 1)` at level `1/2`. -/
theorem crossings_quad_shared :
    crossings (quadGraph 1 0 1 1) (1 / 2) (quadGraph 1 0 1 1).indices =
      some [⟨⟨49 / 100, 51 / 100, 1 / 2⟩, 2, 1⟩, ⟨⟨0, 51 / 100, 1 / 2⟩, 0, 1⟩,
            ⟨⟨49 / 100, 1, 1 / 2⟩, 3, 1⟩, ⟨⟨49 / 100, 51 / 100, 1 / 2⟩, 2, 1⟩] := by
  simp [crossings, segment, readAt, quadGraph, segmentCalls, classify_eq, eps, mix, vec3]
  norm_num [remap_one, remap_two, remap_three, remap_four, remap_five, remap_six]

/-- The mesh extracted from the quad with values `(1, 0, 1, 1)` at level `1/2`. -/
theorem addIsoline_quad_shared :
    addIsoline (quadGraph 1 0 1 1) emptyMesh (1 / 2) =
      some ⟨[⟨49 / 100, 51 / 100, 1 / 2⟩, ⟨0, 51 / 100, 1 / 2⟩, ⟨49 / 100, 1, 1 / 2⟩],
            [0, 1, 2, 0]⟩ := by
  rw [addIsoline_eq_crossings, crossings_quad_shared]
  simp [addCrossing, add, edgeKey, toUnsigned, emptyMesh, List.lookup]

/-- C1: within one call of `addIsoline`, whenever two calls of `add` (the
`k1`-th and the later `k2`-th) name the same undirected grid edge, with the
endpoints in either order, both push the same output vertex index `v`, that
index refers to a point appended during this call, and the later call appends
no point to the vertex buffer. -/
theorem shared_edge_dedup (graph : GraphData) (isolines : IsolinesData) (value : ℚ)
    (out : IsolinesData) (h : addIsoline graph isolines value = some out) :
    ∃ cs, crossings graph value graph.indices = some cs ∧
      out = (cs.foldl addCrossing ⟨[], isolines⟩).isolines ∧
      ∀ (k1 k2 : Nat) (c1 c2 : Crossing), k1 < k2 → cs[k1]? = some c1 → cs[k2]? = some c2 →
        sameEdge c1 c2 →
        (∃ v, out.indices[isolines.indices.length + k1]? = some v ∧
            out.indices[isolines.indices.length + k2]? = some v ∧
            (isolines.coords.length : Int) ≤ v ∧ v < (out.coords.length : Int)) ∧
        ((cs.take (k2 + 1)).foldl addCrossing ⟨[], isolines⟩).isolines.coords =
          ((cs.take k2).foldl addCrossing ⟨[], isolines⟩).isolines.coords := by
  rw [addIsoline_eq_crossings] at h
  cases hcs : crossings graph value graph.indices with
  | none =>
    rw [hcs] at h
    exact Option.noConfusion h
  | some cs =>
    rw [hcs] at h
    simp only [Option.map_some', Option.some.injEq] at h
    refine ⟨cs, rfl, h.symm, ?_⟩
    intro k1 k2 c1 c2 h12 hc1 hc2 hsame
    have hk2 : k2 < cs.length := by
      by_contra hc
      rw [List.getElem?_eq_none (by omega)] at hc2
      exact Option.noConfusion hc2
    have hk1 : k1 < cs.length := by omega
    have e1 : cs[k1] = c1 := by
      rw [List.getElem?_eq_getElem hk1] at hc1
      exact Option.some.inj hc1
    have e2 : cs[k2] = c2 := by
      rw [List.getElem?_eq_getElem hk2] at hc2
      exact Option.some.inj hc2
    generalize hst : (⟨[], isolines⟩ : AddState) = st0 at h
    have hidx0 : st0.isolines.indices = isolines.indices := by rw [← hst]
    have hcoords0 : st0.isolines.coords = isolines.coords := by rw [← hst]
    have hinv0 : MapInRange isolines.coords.length st0 := by
      intro key v hv
      rw [← hst] at hv
      exact Option.noConfusion hv
    -- the state after the first of the two calls
    have hs1 := foldl_take_succ cs st0 k1 hk1
    rw [e1] at hs1
    obtain ⟨v, hlook1, hpush1⟩ :=
      add_pushes_lookup ((cs.take k1).foldl addCrossing st0) c1.point c1.idx0 c1.idx1
    have hlen1 := foldl_take_indices_length cs st0 k1 hk1.le
    have hget1 : ((cs.take (k1 + 1)).foldl addCrossing st0).isolines.indices[
        isolines.indices.length + k1]? = some v := by
      rw [hs1, addCrossing, hpush1, List.getElem?_append_right (by rw [hlen1, hidx0]),
        hlen1, hidx0]
      simp
    -- the map entry survives until the second call
    have hlook2 : ((cs.take k2).foldl addCrossing st0).idxs.lookup
        (edgeKey c2.idx0 c2.idx1) = some v := by
      rw [foldl_take_le cs st0 (k1 + 1) k2 h12, ← edgeKey_of_sameEdge hsame]
      apply foldl_keeps_lookup
      rw [hs1]
      exact hlook1
    have hs2 := foldl_take_succ cs st0 k2 hk2
    rw [e2, addCrossing, add_of_lookup_some c2.point hlook2] at hs2
    have hlen2 := foldl_take_indices_length cs st0 k2 hk2.le
    have hget2 : ((cs.take (k2 + 1)).foldl addCrossing st0).isolines.indices[
        isolines.indices.length + k2]? = some v := by
      rw [hs2]
      simp only
      rw [List.getElem?_append_right (by rw [hlen2, hidx0]), hlen2, hidx0]
      simp
    -- the index refers to a point minted during this call
    have hrange : MapInRange isolines.coords.length ((cs.take k2).foldl addCrossing st0) :=
      foldl_mapInRange _ _ _ (by rw [hcoords0]) hinv0
    have hv := hrange _ _ hlook2
    obtain ⟨l, hl⟩ := foldl_coords (cs.drop k2) ((cs.take k2).foldl addCrossing st0)
    rw [← List.foldl_append, List.take_append_drop] at hl
    refine ⟨⟨v, ?_, ?_, hv.1, ?_⟩, ?_⟩
    · rw [← h]
      exact foldl_take_getElem? cs st0 (k1 + 1) _ v hget1
    · rw [← h]
      exact foldl_take_getElem? cs st0 (k2 + 1) _ v hget2
    · rw [← h, hl, List.length_append]
      push_cast
      have := hv.2
      omega
    · rw [hs2]

/-- Witness for C1: on the quad with values `(1, 0, 1, 1)` at level `1/2` both
triangles call `add` on the diagonal `{1, 2}` (calls 0 and 3). -/
theorem shared_edge_dedup_witness :
    ∃ cs, crossings (quadGraph 1 0 1 1) (1 / 2) (quadGraph 1 0 1 1).indices = some cs ∧
      (⟨[⟨49 / 100, 51 / 100, 1 / 2⟩, ⟨0, 51 / 100, 1 / 2⟩, ⟨49 / 100, 1, 1 / 2⟩],
          [0, 1, 2, 0]⟩ : IsolinesData) = (cs.foldl addCrossing ⟨[], emptyMesh⟩).isolines ∧
      ∀ (k1 k2 : Nat) (c1 c2 : Crossing), k1 < k2 → cs[k1]? = some c1 → cs[k2]? = some c2 →
        sameEdge c1 c2 →
        (∃ v, ([0, 1, 2, 0] : List Int)[emptyMesh.indices.length + k1]? = some v ∧
            ([0, 1, 2, 0] : List Int)[emptyMesh.indices.length + k2]? = some v ∧
            (emptyMesh.coords.length : Int) ≤ v ∧ v < ((3 : Nat) : Int)) ∧
        ((cs.take (k2 + 1)).foldl addCrossing ⟨[], emptyMesh⟩).isolines.coords =
          ((cs.take k2).foldl addCrossing ⟨[], emptyMesh⟩).isolines.coords :=
  shared_edge_dedup (quadGraph 1 0 1 1) emptyMesh (1 / 2) _ addIsoline_quad_shared

/-- C2: for a processed triangle whose three classification bits are not all
equal, exactly one vertex is alone on its side, the two calls of `add` are on
the two edges joining that vertex to the other two vertices, and no call is on
the edge joining the two same-side vertices. -/
theorem minority_vertex_edges (graph : GraphData) (value : ℚ) (i0 i1 i2 : Int)
    (v0 v1 v2 : ℚ) (cs : List Crossing)
    (h0 : readAt graph.values i0 = some v0) (h1 : readAt graph.values i1 = some v1)
    (h2 : readAt graph.values i2 = some v2)
    (hcs : segment graph value i0 i1 i2 = some cs)
    (hne : ¬ (classBit v0 value = classBit v1 value ∧ classBit v1 value = classBit v2 value)) :
    (minority (classBit v0 value) (classBit v1 value) (classBit v2 value) ∧
      ¬ minority (classBit v1 value) (classBit v0 value) (classBit v2 value) ∧
      ¬ minority (classBit v2 value) (classBit v0 value) (classBit v1 value) ∧
      ∃ c1 c2, cs = [c1, c2] ∧ onEdge c1 i0 i1 ∧ onEdge c2 i0 i2 ∧
        ¬ onEdge c1 i1 i2 ∧ ¬ onEdge c2 i1 i2) ∨
    (minority (classBit v1 value) (classBit v0 value) (classBit v2 value) ∧
      ¬ minority (classBit v0 value) (classBit v1 value) (classBit v2 value) ∧
      ¬ minority (classBit v2 value) (classBit v0 value) (classBit v1 value) ∧
      ∃ c1 c2, cs = [c1, c2] ∧ onEdge c1 i1 i0 ∧ onEdge c2 i1 i2 ∧
        ¬ onEdge c1 i0 i2 ∧ ¬ onEdge c2 i0 i2) ∨
    (minority (classBit v2 value) (classBit v0 value) (classBit v1 value) ∧
      ¬ minority (classBit v0 value) (classBit v1 value) (classBit v2 value) ∧
      ¬ minority (classBit v1 value) (classBit v0 value) (classBit v2 value) ∧
      ∃ c1 c2, cs = [c1, c2] ∧ onEdge c1 i2 i1 ∧ onEdge c2 i2 i0 ∧
        ¬ onEdge c1 i0 i1 ∧ ¬ onEdge c2 i0 i1) := by
  obtain ⟨p0, p1, p2, w0, w1, w2, -, -, -, g0, g1, g2, hseg⟩ :=
    (segment_eq_some graph value i0 i1 i2 cs).mp hcs
  rw [h0] at g0
  rw [h1] at g1
  rw [h2] at g2
  rw [← Option.some.inj g0, ← Option.some.inj g1, ← Option.some.inj g2] at hseg
  have d01 := index_ne_of_classBit_ne graph value i0 i1 v0 v1 h0 h1
  have d02 := index_ne_of_classBit_ne graph value i0 i2 v0 v2 h0 h2
  have d12 := index_ne_of_classBit_ne graph value i1 i2 v1 v2 h1 h2
  by_cases e12 : classBit v1 value = classBit v2 value
  · -- vertex 0 is alone
    have n01 : classBit v0 value ≠ classBit v1 value := fun e => hne ⟨e, e12⟩
    have n02 : classBit v0 value ≠ classBit v2 value := fun e => n01 (e.trans e12.symm)
    left
    rw [segmentCalls_first p0 p1 p2 _ _ _ value i0 i1 i2
      ((classBit_ne_iff v0 v1 value).mp n01) ((classBit_eq_iff v1 v2 value).mp e12)] at hseg
    refine ⟨⟨n01, e12⟩, fun m => n02 m.2, fun m => n01 m.2, _, _, hseg, ?_, ?_, ?_, ?_⟩
    · exact Or.inl ⟨rfl, rfl⟩
    · exact Or.inl ⟨rfl, rfl⟩
    · rintro (⟨a, -⟩ | ⟨a, -⟩)
      · exact d01 n01 a
      · exact d02 n02 a
    · rintro (⟨a, -⟩ | ⟨a, -⟩)
      · exact d01 n01 a
      · exact d02 n02 a
  · by_cases e02 : classBit v0 value = classBit v2 value
    · -- vertex 1 is alone
      have n10 : classBit v1 value ≠ classBit v0 value := fun e => e12 (e.trans e02)
      right; left
      rw [segmentCalls_second p0 p1 p2 _ _ _ value i0 i1 i2
        ((classBit_ne_iff v1 v0 value).mp n10) ((classBit_eq_iff v0 v2 value).mp e02)] at hseg
      refine ⟨⟨n10, e02⟩, fun m => e12 m.2, fun m => n10 m.2.symm, _, _, hseg, ?_, ?_, ?_, ?_⟩
      · exact Or.inr ⟨rfl, rfl⟩
      · exact Or.inl ⟨rfl, rfl⟩
      · rintro (⟨-, a⟩ | ⟨-, a⟩)
        · exact d12 e12 a
        · exact d01 (Ne.symm n10) a.symm
      · rintro (⟨a, -⟩ | ⟨a, -⟩)
        · exact d01 (Ne.symm n10) a.symm
        · exact d12 e12 a
    · -- vertex 2 is alone
      have e01 : classBit v0 value = classBit v1 value := by
        revert e12 e02
        cases classBit v0 value <;> cases classBit v1 value <;> cases classBit v2 value <;> simp
      have n20 : classBit v2 value ≠ classBit v0 value := fun e => e02 e.symm
      right; right
      rw [segmentCalls_third p0 p1 p2 _ _ _ value i0 i1 i2
        ((classBit_ne_iff v2 v0 value).mp n20) ((classBit_eq_iff v0 v1 value).mp e01)] at hseg
      refine ⟨⟨n20, e01⟩, fun m => e12 m.2, fun m => e02 m.2, _, _, hseg, ?_, ?_, ?_, ?_⟩
      · exact Or.inr ⟨rfl, rfl⟩
      · exact Or.inr ⟨rfl, rfl⟩
      · rintro (⟨-, a⟩ | ⟨-, a⟩)
        · exact d12 e12 a.symm
        · exact d02 e02 a.symm
      · rintro (⟨-, a⟩ | ⟨-, a⟩)
        · exact d12 e12 a.symm
        · exact d02 e02 a.symm

/-- Witness for C2: the single triangle with values `(-1, 1, -1)` at level 0. -/
theorem minority_vertex_edges_witness :
    (minority (classBit (-1) 0) (classBit 1 0) (classBit (-1) 0) ∧
      ¬ minority (classBit 1 0) (classBit (-1) 0) (classBit (-1) 0) ∧
      ¬ minority (classBit (-1) 0) (classBit (-1) 0) (classBit 1 0) ∧
      ∃ c1 c2, [(⟨⟨99 / 200, 0, 0⟩, 0, 1⟩ : Crossing), ⟨⟨99 / 200, 101 / 200, 0⟩, 1, 2⟩] =
          [c1, c2] ∧ onEdge c1 0 1 ∧ onEdge c2 0 2 ∧ ¬ onEdge c1 1 2 ∧ ¬ onEdge c2 1 2) ∨
    (minority (classBit 1 0) (classBit (-1) 0) (classBit (-1) 0) ∧
      ¬ minority (classBit (-1) 0) (classBit 1 0) (classBit (-1) 0) ∧
      ¬ minority (classBit (-1) 0) (classBit (-1) 0) (classBit 1 0) ∧
      ∃ c1 c2, [(⟨⟨99 / 200, 0, 0⟩, 0, 1⟩ : Crossing), ⟨⟨99 / 200, 101 / 200, 0⟩, 1, 2⟩] =
          [c1, c2] ∧ onEdge c1 1 0 ∧ onEdge c2 1 2 ∧ ¬ onEdge c1 0 2 ∧ ¬ onEdge c2 0 2) ∨
    (minority (classBit (-1) 0) (classBit (-1) 0) (classBit 1 0) ∧
      ¬ minority (classBit (-1) 0) (classBit 1 0) (classBit (-1) 0) ∧
      ¬ minority (classBit 1 0) (classBit (-1) 0) (classBit (-1) 0) ∧
      ∃ c1 c2, [(⟨⟨99 / 200, 0, 0⟩, 0, 1⟩ : Crossing), ⟨⟨99 / 200, 101 / 200, 0⟩, 1, 2⟩] =
          [c1, c2] ∧ onEdge c1 2 1 ∧ onEdge c2 2 0 ∧ ¬ onEdge c1 0 1 ∧ ¬ onEdge c2 0 1) :=
  minority_vertex_edges singleTriangle 0 0 1 2 (-1) 1 (-1) _
    (by simp [readAt, singleTriangle]) (by simp [readAt, singleTriangle])
    (by simp [readAt, singleTriangle]) segment_singleTriangle
    (by simp [classBit, eps]; norm_num)

/-- C3, as stated, fails: on the single triangle with values `(-1, 1, -1)` at
level 0 the call on edge `{0, 1}` passes the point `(99/200, 0, 0)`, while the
lerp of the stored positions with the raw stored values `-1` and `1` is
`(1/2, 0, 0)`. -/
theorem raw_value_lerp_fails :
    ∃ cs c pa pb ta tb,
      crossings singleTriangle 0 singleTriangle.indices = some cs ∧ c ∈ cs ∧
      readAt singleTriangle.coords c.idx0 = some pa ∧
      readAt singleTriangle.coords c.idx1 = some pb ∧
      readAt singleTriangle.values c.idx0 = some ta ∧
      readAt singleTriangle.values c.idx1 = some tb ∧
      c.point ≠ mix (vec3 pa ta) (vec3 pb tb) ((0 - ta) / (tb - ta)) := by
  refine ⟨_, ⟨⟨99 / 200, 0, 0⟩, 0, 1⟩, ⟨0, 0⟩, ⟨1, 0⟩, -1, 1, crossings_singleTriangle,
    List.mem_cons_self _ _, ?_, ?_, ?_, ?_, ?_⟩
  · simp [readAt, singleTriangle]
  · simp [readAt, singleTriangle]
  · simp [readAt, singleTriangle]
  · simp [readAt, singleTriangle]
  · simp only [mix, vec3, ne_eq, Vec3.mk.injEq, not_and]
    norm_num

/-- C3, amended: the point passed by every call of `add` on an edge between
vertices `a` and `b` is `lerp((P_a, ta), (P_b, tb), f)` with
`f = (isoValue - ta) / (tb - ta)`, where `ta`, `tb` are the eps-shifted values
`graph.values[a] + eps`, `graph.values[b] + eps` (and `ta ≠ tb`). -/
theorem crossing_is_shifted_lerp (graph : GraphData) (value : ℚ) (cs : List Crossing)
    (h : crossings graph value graph.indices = some cs) :
    ∀ c ∈ cs, ∃ pa pb va vb,
      readAt graph.coords c.idx0 = some pa ∧ readAt graph.coords c.idx1 = some pb ∧
      readAt graph.values c.idx0 = some va ∧ readAt graph.values c.idx1 = some vb ∧
      va + eps ≠ vb + eps ∧
      c.point = mix (vec3 pa (va + eps)) (vec3 pb (vb + eps))
        ((value - (va + eps)) / ((vb + eps) - (va + eps))) := by
  intro c hc
  obtain ⟨i0, i1, i2, s, hs, hcs⟩ := mem_crossings graph value graph.indices cs h c hc
  exact segment_point_lerp graph value i0 i1 i2 s hs c hcs

/-- Witness for C3 (amended): the call on edge `{0, 1}` of the single triangle
at level 0. -/
theorem crossing_is_shifted_lerp_witness :
    ∃ pa pb va vb,
      readAt singleTriangle.coords 0 = some pa ∧
      readAt singleTriangle.coords 1 = some pb ∧
      readAt singleTriangle.values 0 = some va ∧
      readAt singleTriangle.values 1 = some vb ∧
      va + eps ≠ vb + eps ∧
      (⟨99 / 200, 0, 0⟩ : Vec3) = mix (vec3 pa (va + eps)) (vec3 pb (vb + eps))
        ((0 - (va + eps)) / ((vb + eps) - (va + eps))) :=
  crossing_is_shifted_lerp singleTriangle 0 _ crossings_singleTriangle
    ⟨⟨99 / 200, 0, 0⟩, 0, 1⟩ (List.mem_cons_self _ _)

/-- C4, as stated, fails: neither `(1/2, 0)` nor `(1, 1/2)` is the position of
a point that `addIsoline` emits for the single triangle at level 0. -/
theorem single_triangle_not_midpoints :
    ∃ out, addIsoline singleTriangle emptyMesh 0 = some out ∧
      ∀ p ∈ out.coords, (p.x, p.y) ≠ (1 / 2, 0) ∧ (p.x, p.y) ≠ (1, 1 / 2) := by
  refine ⟨_, addIsoline_singleTriangle, ?_⟩
  intro p hp
  simp only [List.mem_cons, List.mem_singleton, List.not_mem_nil, or_false] at hp
  rcases hp with rfl | rfl <;> constructor <;> simp only [ne_eq, Prod.mk.injEq, not_and] <;>
    norm_num

/-- C4, amended: for the single triangle with values `(-1, 1, -1)` at
`(0,0)`, `(1,0)`, `(0,1)` and level 0, `addIsoline` into an empty mesh emits its
two points at positions `(0.495, 0)` and `(0.495, 0.505)`. -/
theorem single_triangle_positions :
    (addIsoline singleTriangle emptyMesh 0).map
        (fun out => out.coords.map (fun p => (p.x, p.y))) =
      some [(99 / 200, 0), (99 / 200, 101 / 200)] := by
  rw [addIsoline_singleTriangle]
  rfl

/-- C5: for the single triangle with values `(-1, 1, -1)` and level 0 the
mask after the remap is 2 (vertex 1 is the distinguished vertex, the two calls
of `add` are on the edges `{0,1}` and `{1,2}`), and `addIsoline` into an empty
mesh yields exactly 2 points and 2 indices (one segment). -/
theorem single_triangle_mask_and_counts :
    remap (classify (-1 + eps) (1 + eps) (-1 + eps) 0) = 2 ∧
    (∃ c1 c2, segment singleTriangle 0 0 1 2 = some [c1, c2] ∧
      onEdge c1 1 0 ∧ onEdge c2 1 2) ∧
    ∃ out, addIsoline singleTriangle emptyMesh 0 = some out ∧
      out.coords.length = 2 ∧ out.indices.length = 2 := by
  refine ⟨?_, ⟨_, _, segment_singleTriangle, Or.inr ⟨rfl, rfl⟩, Or.inl ⟨rfl, rfl⟩⟩,
    _, addIsoline_singleTriangle, rfl, rfl⟩
  rw [classify_eq]
  norm_num [eps, remap_two]

/-! ### The shared diagonal of the quad -/

theorem mix_x_of_eq (pa pb : Vec2) (ta tb g : ℚ) (h : pa.x = pb.x) :
    (mix (vec3 pa ta) (vec3 pb tb) g).x = pa.x := by
  simp only [mix, vec3, ← h]
  ring

theorem mix_y_of_eq (pa pb : Vec2) (ta tb g : ℚ) (h : pa.y = pb.y) :
    (mix (vec3 pa ta) (vec3 pb tb) g).y = pa.y := by
  simp only [mix, vec3, ← h]
  ring

/-- A lerp `a * (1 - g) + b * g` between different numbers, with the source's
fraction `g = 1 - (value - tb) / (ta - tb)`, is `a` only if `ta = value` and
`b` only if `tb = value`. -/
theorem lerp_ne_ends (a b ta tb value : ℚ) (hab : a ≠ b) (hne : ta ≠ tb) :
    (ta ≠ value → a * (1 - (1 - (value - tb) / (ta - tb))) + b * (1 - (value - tb) / (ta - tb)) ≠ a) ∧
    (tb ≠ value → a * (1 - (1 - (value - tb) / (ta - tb))) + b * (1 - (value - tb) / (ta - tb)) ≠ b) := by
  have hd : ta - tb ≠ 0 := sub_ne_zero.mpr hne
  have hba : b - a ≠ 0 := sub_ne_zero.mpr (Ne.symm hab)
  constructor
  · intro hta e
    have h1 : (b - a) * (1 - (value - tb) / (ta - tb)) = 0 := by linarith
    rcases mul_eq_zero.mp h1 with h2 | h2
    · exact hba h2
    · apply hta
      field_simp at h2
      linarith
  · intro htb e
    have h1 : (b - a) * ((value - tb) / (ta - tb)) = 0 := by linarith
    rcases mul_eq_zero.mp h1 with h2 | h2
    · exact hba h2
    · apply htb
      rcases div_eq_zero_iff.mp h2 with h3 | h3
      · linarith
      · exact absurd h3 hd

theorem mix_x_ne (pa pb : Vec2) (ta tb value : ℚ) (hx : pa.x ≠ pb.x) (hne : ta ≠ tb) :
    (ta ≠ value → (mix (vec3 pa ta) (vec3 pb tb) (1 - (value - tb) / (ta - tb))).x ≠ pa.x) ∧
    (tb ≠ value → (mix (vec3 pa ta) (vec3 pb tb) (1 - (value - tb) / (ta - tb))).x ≠ pb.x) :=
  lerp_ne_ends pa.x pb.x ta tb value hx hne

theorem mix_y_ne (pa pb : Vec2) (ta tb value : ℚ) (hy : pa.y ≠ pb.y) (hne : ta ≠ tb) :
    (ta ≠ value → (mix (vec3 pa ta) (vec3 pb tb) (1 - (value - tb) / (ta - tb))).y ≠ pa.y) ∧
    (tb ≠ value → (mix (vec3 pa ta) (vec3 pb tb) (1 - (value - tb) / (ta - tb))).y ≠ pb.y) :=
  lerp_ne_ends pa.y pb.y ta tb value hy hne

theorem nodup_three_positions (a b c : Vec3) (hab : a.x ≠ b.x ∨ a.y ≠ b.y)
    (hac : a.x ≠ c.x ∨ a.y ≠ c.y) (hbc : b.x ≠ c.x ∨ b.y ≠ c.y) :
    ([a, b, c].map (fun p => (p.x, p.y))).Nodup := by
  simp only [List.map_cons, List.map_nil, List.nodup_cons, List.mem_cons, List.mem_singleton,
    List.not_mem_nil, Prod.mk.injEq, not_or, not_and_or, List.nodup_nil, and_true, not_false_eq_true]
  exact ⟨⟨hab, hac⟩, hbc⟩

/-- C6, as stated, fails twice on the 2 x 2 grid generated for
`[0,2] x [0,2]`, step 1. With the saddle values `(1, 0, 0, 1)` both triangles
are crossed at level `1/2`, yet one call of `addIsoline` into an empty mesh
yields 4 points and no vertex index occurs in both segments. With the values
`(1, 1, 49/100, 1)` both triangles are crossed at level `1/2` and 3 points are
stored, but all three are the same point `(1, 0, 1/2)`: the shifted value of
vertex 2 equals the level, so every crossing at that vertex lands on it. -/
theorem quad_saddle_four_points :
    generateGraph 0 2 0 2 1 = some { quadGraph 1 0 0 1 with values := [0, 0, 0, 0] } ∧
    ((∃ c1 c2, segment (quadGraph 1 0 0 1) (1 / 2) 0 2 1 = some [c1, c2]) ∧
      (∃ c1 c2, segment (quadGraph 1 0 0 1) (1 / 2) 2 3 1 = some [c1, c2]) ∧
      ∃ out, addIsoline (quadGraph 1 0 0 1) emptyMesh (1 / 2) = some out ∧
        out.coords.length = 4 ∧ out.indices = [0, 1, 2, 3]) ∧
    ((∃ c1 c2, segment (quadGraph 1 1 (49 / 100) 1) (1 / 2) 0 2 1 = some [c1, c2]) ∧
      (∃ c1 c2, segment (quadGraph 1 1 (49 / 100) 1) (1 / 2) 2 3 1 = some [c1, c2]) ∧
      addIsoline (quadGraph 1 1 (49 / 100) 1) emptyMesh (1 / 2) =
        some ⟨[⟨1, 0, 1 / 2⟩, ⟨1, 0, 1 / 2⟩, ⟨1, 0, 1 / 2⟩], [0, 1, 2, 1]⟩) := by
  have hc : crossings (quadGraph 1 0 0 1) (1 / 2) (quadGraph 1 0 0 1).indices =
      some [⟨⟨51 / 100, 0, 1 / 2⟩, 0, 2⟩, ⟨⟨0, 51 / 100, 1 / 2⟩, 0, 1⟩,
            ⟨⟨1, 49 / 100, 1 / 2⟩, 2, 3⟩, ⟨⟨49 / 100, 1, 1 / 2⟩, 3, 1⟩] := by
    simp [crossings, segment, readAt, quadGraph, segmentCalls, classify_eq, eps, mix, vec3]
    norm_num [remap_one, remap_two, remap_three, remap_four, remap_five, remap_six]
  have hc' : crossings (quadGraph 1 1 (49 / 100) 1) (1 / 2)
      (quadGraph 1 1 (49 / 100) 1).indices =
      some [⟨⟨1, 0, 1 / 2⟩, 0, 2⟩, ⟨⟨1, 0, 1 / 2⟩, 2, 1⟩,
            ⟨⟨1, 0, 1 / 2⟩, 2, 3⟩, ⟨⟨1, 0, 1 / 2⟩, 2, 1⟩] := by
    simp [crossings, segment, readAt, quadGraph, segmentCalls, classify_eq, eps, mix, vec3]
    norm_num [remap_one, remap_two, remap_three, remap_four, remap_five, remap_six]
  refine ⟨?_, ⟨?_, ?_, ?_⟩, ⟨?_, ?_, ?_⟩⟩
  · rw [generateGraph_unit_quad]
    rfl
  · refine ⟨⟨⟨51 / 100, 0, 1 / 2⟩, 0, 2⟩, ⟨⟨0, 51 / 100, 1 / 2⟩, 0, 1⟩, ?_⟩
    simp [segment, readAt, quadGraph, segmentCalls, classify_eq, eps, mix, vec3]
    norm_num [remap_one, remap_two, remap_three, remap_four, remap_five, remap_six]
  · refine ⟨⟨⟨1, 49 / 100, 1 / 2⟩, 2, 3⟩, ⟨⟨49 / 100, 1, 1 / 2⟩, 3, 1⟩, ?_⟩
    simp [segment, readAt, quadGraph, segmentCalls, classify_eq, eps, mix, vec3]
    norm_num [remap_one, remap_two, remap_three, remap_four, remap_five, remap_six]
  · refine ⟨⟨[⟨51 / 100, 0, 1 / 2⟩, ⟨0, 51 / 100, 1 / 2⟩, ⟨1, 49 / 100, 1 / 2⟩,
      ⟨49 / 100, 1, 1 / 2⟩], [0, 1, 2, 3]⟩, ?_, rfl, rfl⟩
    rw [addIsoline_eq_crossings, hc]
    simp [addCrossing, add, edgeKey, toUnsigned, emptyMesh, List.lookup]
  · refine ⟨⟨⟨1, 0, 1 / 2⟩, 0, 2⟩, ⟨⟨1, 0, 1 / 2⟩, 2, 1⟩, ?_⟩
    simp [segment, readAt, quadGraph, segmentCalls, classify_eq, eps, mix, vec3]
    norm_num [remap_one, remap_two, remap_three, remap_four, remap_five, remap_six]
  · refine ⟨⟨⟨1, 0, 1 / 2⟩, 2, 3⟩, ⟨⟨1, 0, 1 / 2⟩, 2, 1⟩, ?_⟩
    simp [segment, readAt, quadGraph, segmentCalls, classify_eq, eps, mix, vec3]
    norm_num [remap_one, remap_two, remap_three, remap_four, remap_five, remap_six]
  · rw [addIsoline_eq_crossings, hc', Option.map_some',
      fold_four_shared_second _ _ _ _ 0 2 2 1 2 3 2 1 (by decide) (by decide) (by decide) rfl]

/-- C6, amended: on every 2 x 2 grid produced by `generateGraph` (`n = m = 2`,
triangles `(0,2,1)` and `(2,3,1)`), carrying any field values, and for every
level at which the shared diagonal `{1, 2}` is crossed (its endpoints have
different classification bits, so both triangles are crossed), one call of
`addIsoline` into an empty mesh yields exactly 3 points and 2 segments, and the
index of the point on the shared edge occurs in both segments: the index
buffer is `[0, 1, 2, 1]` or `[0, 1, 2, 0]`. The 3 points have pairwise
distinct positions when the four grid vertices are distinct and the shifted
value of neither endpoint of the diagonal equals the level. -/
theorem quad_shared_vertex (xmin xmax ymin ymax step : ℚ) (g : GraphData)
    (hg : generateGraph xmin xmax ymin ymax step = some g)
    (hn : gridDim xmin xmax step = some 2) (hm : gridDim ymin ymax step = some 2)
    (v0 v1 v2 v3 value : ℚ) (hshared : classBit v1 value ≠ classBit v2 value) :
    ∃ out, addIsoline { g with values := [v0, v1, v2, v3] } emptyMesh value = some out ∧
      out.coords.length = 3 ∧
      (out.indices = [0, 1, 2, 1] ∨ out.indices = [0, 1, 2, 0]) ∧
      (g.coords.Nodup → v1 + eps ≠ value → v2 + eps ≠ value →
        (out.coords.map (fun p => (p.x, p.y))).Nodup) := by
  rw [generateGraph_of_dims hn hm, buildGraph_two_two, Option.some.injEq] at hg
  subst hg
  generalize gridCoord xmin step 0 = x0
  generalize gridCoord xmin step 1 = x1
  generalize gridCoord ymin step 0 = y0
  generalize gridCoord ymin step 1 = y1
  simp only
  rw [addIsoline_eq_crossings]
  simp only
  rw [crossings_quad]
  have hs : ¬ (v1 + eps > value ↔ v2 + eps > value) := (classBit_ne_iff v1 v2 value).mp hshared
  have hs' : ¬ (v2 + eps > value ↔ v1 + eps > value) := fun e => hs e.symm
  have h12 : v1 + eps ≠ v2 + eps := ne_of_not_iff_gt hs
  have h21 : v2 + eps ≠ v1 + eps := Ne.symm h12
  have hgrid : ([⟨x0, y0⟩, ⟨x0, y1⟩, ⟨x1, y0⟩, ⟨x1, y1⟩] : List Vec2).Nodup →
      x0 ≠ x1 ∧ y0 ≠ y1 := by
    intro hnd
    have ha := (List.nodup_cons.mp hnd).1
    refine ⟨fun e => ha ?_, fun e => ha ?_⟩
    · rw [e]
      simp
    · rw [e]
      simp
  rcases segmentCalls_cases ⟨x0, y0⟩ ⟨x1, y0⟩ ⟨x0, y1⟩
      (v0 + eps) (v2 + eps) (v1 + eps) value 0 2 1 with
    ⟨-, a, -⟩ | ⟨a, b, -⟩ | ⟨-, -, e1⟩ | ⟨-, -, e1⟩
  · exact absurd a hs'
  · exfalso
    by_cases c0 : v0 + eps > value <;> by_cases c1 : v1 + eps > value <;>
      by_cases c2 : v2 + eps > value <;> simp [c0, c1, c2] at a b hs
  · rcases segmentCalls_cases ⟨x1, y0⟩ ⟨x1, y1⟩ ⟨x0, y1⟩
        (v2 + eps) (v3 + eps) (v1 + eps) value 2 3 1 with
      ⟨a, b, -⟩ | ⟨b1, -, e2⟩ | ⟨a, b, -⟩ | ⟨b1, -, e2⟩
    · exact absurd (a.trans b) hs'
    · rw [e1, e2]
      simp only [List.cons_append, List.nil_append, Option.map_some']
      rw [fold_four_shared_second _ _ _ _ 0 2 2 1 2 3 2 1 (by decide) (by decide) (by decide)
        rfl]
      refine ⟨_, rfl, rfl, Or.inl rfl, ?_⟩
      intro hnd h1 h2
      obtain ⟨hx, hy⟩ := hgrid hnd
      apply nodup_three_positions
      · right
        rw [mix_y_of_eq ⟨x1, y0⟩ ⟨x0, y0⟩ _ _ _ rfl]
        exact Ne.symm ((mix_y_ne ⟨x1, y0⟩ ⟨x0, y1⟩ _ _ value hy h21).1 h2)
      · right
        rw [mix_y_of_eq ⟨x1, y0⟩ ⟨x0, y0⟩ _ _ _ rfl]
        exact Ne.symm ((mix_y_ne ⟨x1, y0⟩ ⟨x1, y1⟩ _ _ value hy (ne_of_not_iff_gt b1)).1 h2)
      · left
        rw [mix_x_of_eq ⟨x1, y0⟩ ⟨x1, y1⟩ _ _ _ rfl]
        exact (mix_x_ne ⟨x1, y0⟩ ⟨x0, y1⟩ _ _ value (Ne.symm hx) h21).1 h2
    · exfalso
      by_cases c3 : v3 + eps > value <;> by_cases c1 : v1 + eps > value <;>
        by_cases c2 : v2 + eps > value <;> simp [c3, c1, c2] at a b hs
    · rw [e1, e2]
      simp only [List.cons_append, List.nil_append, Option.map_some']
      rw [fold_four_shared_second _ _ _ _ 0 2 2 1 3 1 2 1 (by decide) (by decide) (by decide)
        rfl]
      refine ⟨_, rfl, rfl, Or.inl rfl, ?_⟩
      intro hnd h1 h2
      obtain ⟨hx, hy⟩ := hgrid hnd
      apply nodup_three_positions
      · right
        rw [mix_y_of_eq ⟨x1, y0⟩ ⟨x0, y0⟩ _ _ _ rfl]
        exact Ne.symm ((mix_y_ne ⟨x1, y0⟩ ⟨x0, y1⟩ _ _ value hy h21).1 h2)
      · right
        rw [mix_y_of_eq ⟨x1, y0⟩ ⟨x0, y0⟩ _ _ _ rfl, mix_y_of_eq ⟨x0, y1⟩ ⟨x1, y1⟩ _ _ _ rfl]
        exact hy
      · right
        rw [mix_y_of_eq ⟨x0, y1⟩ ⟨x1, y1⟩ _ _ _ rfl]
        exact (mix_y_ne ⟨x1, y0⟩ ⟨x0, y1⟩ _ _ value hy h21).2 h1
  · rcases segmentCalls_cases ⟨x1, y0⟩ ⟨x1, y1⟩ ⟨x0, y1⟩
        (v2 + eps) (v3 + eps) (v1 + eps) value 2 3 1 with
      ⟨a, b, -⟩ | ⟨b1, -, e2⟩ | ⟨a, b, -⟩ | ⟨b1, -, e2⟩
    · exact absurd (a.trans b) hs'
    · rw [e1, e2]
      simp only [List.cons_append, List.nil_append, Option.map_some']
      rw [fold_four_shared_first _ _ _ _ 2 1 0 1 2 3 2 1 (by decide) (by decide) (by decide)
        rfl]
      refine ⟨_, rfl, rfl, Or.inr rfl, ?_⟩
      intro hnd h1 h2
      obtain ⟨hx, hy⟩ := hgrid hnd
      apply nodup_three_positions
      · left
        rw [mix_x_of_eq ⟨x0, y1⟩ ⟨x0, y0⟩ _ _ _ rfl]
        exact (mix_x_ne ⟨x0, y1⟩ ⟨x1, y0⟩ _ _ value hx h12).1 h1
      · left
        rw [mix_x_of_eq ⟨x1, y0⟩ ⟨x1, y1⟩ _ _ _ rfl]
        exact (mix_x_ne ⟨x0, y1⟩ ⟨x1, y0⟩ _ _ value hx h12).2 h2
      · left
        rw [mix_x_of_eq ⟨x0, y1⟩ ⟨x0, y0⟩ _ _ _ rfl, mix_x_of_eq ⟨x1, y0⟩ ⟨x1, y1⟩ _ _ _ rfl]
        exact hx
    · exfalso
      by_cases c3 : v3 + eps > value <;> by_cases c1 : v1 + eps > value <;>
        by_cases c2 : v2 + eps > value <;> simp [c3, c1, c2] at a b hs
    · rw [e1, e2]
      simp only [List.cons_append, List.nil_append, Option.map_some']
      rw [fold_four_shared_first _ _ _ _ 2 1 0 1 3 1 2 1 (by decide) (by decide) (by decide)
        rfl]
      refine ⟨_, rfl, rfl, Or.inr rfl, ?_⟩
      intro hnd h1 h2
      obtain ⟨hx, hy⟩ := hgrid hnd
      apply nodup_three_positions
      · left
        rw [mix_x_of_eq ⟨x0, y1⟩ ⟨x0, y0⟩ _ _ _ rfl]
        exact (mix_x_ne ⟨x0, y1⟩ ⟨x1, y0⟩ _ _ value hx h12).1 h1
      · right
        rw [mix_y_of_eq ⟨x0, y1⟩ ⟨x1, y1⟩ _ _ _ rfl]
        exact (mix_y_ne ⟨x0, y1⟩ ⟨x1, y0⟩ _ _ value (Ne.symm hy) h12).1 h1
      · left
        rw [mix_x_of_eq ⟨x0, y1⟩ ⟨x0, y0⟩ _ _ _ rfl]
        exact Ne.symm ((mix_x_ne ⟨x0, y1⟩ ⟨x1, y1⟩ _ _ value hx (ne_of_not_iff_gt b1)).1 h1)

/-- Instance of `quad_shared_vertex`: the grid generated for `[0,2] x [0,2]`,
step 1, with values `(1, 0, 1, 1)` at level `1/2`; the four grid vertices are
distinct and neither shifted value on the diagonal equals the level, so the 3
points have pairwise distinct positions. -/
theorem quad_shared_vertex_witness :
    (generateGraph 0 2 0 2 1 =
        some ⟨[⟨0, 0⟩, ⟨0, 1⟩, ⟨1, 0⟩, ⟨1, 1⟩], [0, 0, 0, 0], [0, 2, 1, 2, 3, 1]⟩ ∧
      gridDim 0 2 1 = some 2 ∧ classBit 0 (1 / 2) ≠ classBit 1 (1 / 2) ∧
      ([⟨0, 0⟩, ⟨0, 1⟩, ⟨1, 0⟩, ⟨1, 1⟩] : List Vec2).Nodup ∧
      (0 : ℚ) + eps ≠ 1 / 2 ∧ (1 : ℚ) + eps ≠ 1 / 2) ∧
    ∃ out, addIsoline
        { (⟨[⟨0, 0⟩, ⟨0, 1⟩, ⟨1, 0⟩, ⟨1, 1⟩], [0, 0, 0, 0], [0, 2, 1, 2, 3, 1]⟩ : GraphData)
          with values := [1, 0, 1, 1] } emptyMesh (1 / 2) = some out ∧
      out.coords.length = 3 ∧
      (out.indices = [0, 1, 2, 1] ∨ out.indices = [0, 1, 2, 0]) ∧
      (out.coords.map (fun p => (p.x, p.y))).Nodup := by
  have hbit : classBit 0 (1 / 2) ≠ classBit 1 (1 / 2) := by
    simp [classBit, eps]
    norm_num
  have hnd : ([⟨0, 0⟩, ⟨0, 1⟩, ⟨1, 0⟩, ⟨1, 1⟩] : List Vec2).Nodup := by simp
  have h1 : (0 : ℚ) + eps ≠ 1 / 2 := by norm_num [eps]
  have h2 : (1 : ℚ) + eps ≠ 1 / 2 := by norm_num [eps]
  obtain ⟨out, ho, hl, hi, hd⟩ :=
    quad_shared_vertex 0 2 0 2 1 _ generateGraph_unit_quad gridDim_zero_two_one
      gridDim_zero_two_one 1 0 1 1 (1 / 2) hbit
  exact ⟨⟨generateGraph_unit_quad, gridDim_zero_two_one, hbit, hnd, h1, h2⟩,
    out, ho, hl, hi, hd hnd h1 h2⟩

/-! ### Reads on a well-formed grid -/

theorem readAt_of_lt {α : Type} (v : List α) (i : Int) (h0 : 0 ≤ i) (h1 : i < (v.length : Int)) :
    ∃ a, readAt v i = some a ∧ a ∈ v := by
  have hlt : i.toNat < v.length := by omega
  refine ⟨v.get ⟨i.toNat, hlt⟩, ?_, List.get_mem _ _ _⟩
  rw [readAt, if_pos h0, List.getElem?_eq_getElem hlt]
  rfl

/-- On a flat field no loop iteration calls `add`. -/
theorem segment_flat (graph : GraphData) (c value : ℚ) (i0 i1 i2 : Int)
    (hlen : graph.values.length = graph.coords.length)
    (hflat : ∀ v ∈ graph.values, v = c)
    (h0 : 0 ≤ i0 ∧ i0 < (graph.coords.length : Int))
    (h1 : 0 ≤ i1 ∧ i1 < (graph.coords.length : Int))
    (h2 : 0 ≤ i2 ∧ i2 < (graph.coords.length : Int)) :
    segment graph value i0 i1 i2 = some [] := by
  obtain ⟨p0, hp0, -⟩ := readAt_of_lt graph.coords i0 h0.1 h0.2
  obtain ⟨p1, hp1, -⟩ := readAt_of_lt graph.coords i1 h1.1 h1.2
  obtain ⟨p2, hp2, -⟩ := readAt_of_lt graph.coords i2 h2.1 h2.2
  obtain ⟨v0, hv0, m0⟩ := readAt_of_lt graph.values i0 h0.1 (by rw [hlen]; exact h0.2)
  obtain ⟨v1, hv1, m1⟩ := readAt_of_lt graph.values i1 h1.1 (by rw [hlen]; exact h1.2)
  obtain ⟨v2, hv2, m2⟩ := readAt_of_lt graph.values i2 h2.1 (by rw [hlen]; exact h2.2)
  rw [segment_eq_some]
  refine ⟨p0, p1, p2, v0, v1, v2, hp0, hp1, hp2, hv0, hv1, hv2, ?_⟩
  rw [hflat v0 m0, hflat v1 m1, hflat v2 m2]
  exact (segmentCalls_uncrossed _ _ _ _ _ _ _ _ _ _ Iff.rfl Iff.rfl).symm

theorem crossings_flat (graph : GraphData) (c value : ℚ)
    (hlen : graph.values.length = graph.coords.length)
    (hflat : ∀ v ∈ graph.values, v = c) :
    ∀ tris : List Int, tris.length % 3 = 0 →
      (∀ ix ∈ tris, 0 ≤ ix ∧ ix < (graph.coords.length : Int)) →
      crossings graph value tris = some []
  | [], _, _ => rfl
  | [_], h, _ => by simp at h
  | [_, _], h, _ => by simp at h
  | i0 :: i1 :: i2 :: rest, h, hr => by
    have hs := segment_flat graph c value i0 i1 i2 hlen hflat
      (hr i0 (by simp)) (hr i1 (by simp)) (hr i2 (by simp))
    have hrest := crossings_flat graph c value hlen hflat rest
      (by simp only [List.length_cons] at h; omega)
      (fun ix hix => hr ix (by simp [hix]))
    rw [crossings, hs, hrest]
    rfl

/-! ### The index invariant -/

theorem add_indicesInRange (lo : Int → Prop) (hlo : ∀ n : Nat, lo (n : Int))
    (st : AddState) (p : Vec3) (a b : Int) (h : IndicesInRange lo st) :
    IndicesInRange lo (add st p a b) := by
  cases hl : st.idxs.lookup (edgeKey a b) with
  | none =>
    rw [add_of_lookup_none p hl]
    constructor
    · intro ix hix
      simp only [List.mem_append, List.mem_singleton] at hix
      simp only [List.length_append, List.length_singleton, Nat.cast_add, Nat.cast_one]
      rcases hix with hix | hix
      · have := h.1 ix hix
        exact ⟨this.1, by omega⟩
      · rw [hix]
        exact ⟨hlo _, by omega⟩
    · intro key v hv
      simp only [List.lookup_cons] at hv
      simp only [List.length_append, List.length_singleton, Nat.cast_add, Nat.cast_one]
      by_cases e : key = edgeKey a b
      · rw [e, beq_self_eq_true] at hv
        simp only [Option.some.injEq] at hv
        rw [← hv]
        exact ⟨hlo _, by omega⟩
      · rw [beq_false_of_ne e] at hv
        have := h.2 key v hv
        exact ⟨this.1, by omega⟩
  | some k =>
    rw [add_of_lookup_some p hl]
    constructor
    · intro ix hix
      simp only [List.mem_append, List.mem_singleton] at hix
      rcases hix with hix | hix
      · exact h.1 ix hix
      · rw [hix]
        exact h.2 _ _ hl
    · exact h.2

theorem foldl_indicesInRange (lo : Int → Prop) (hlo : ∀ n : Nat, lo (n : Int))
    (cs : List Crossing) (st : AddState) (h : IndicesInRange lo st) :
    IndicesInRange lo (cs.foldl addCrossing st) := by
  induction cs generalizing st with
  | nil => exact h
  | cons c cs ih =>
    rw [List.foldl_cons]
    exact ih _ (add_indicesInRange lo hlo st c.point c.idx0 c.idx1 h)

/-- One call of `addIsoline` keeps the index invariant. -/
theorem addIsoline_indicesInRange (lo : Int → Prop) (hlo : ∀ n : Nat, lo (n : Int))
    (graph : GraphData) (isolines out : IsolinesData) (value : ℚ)
    (hpre : ∀ ix ∈ isolines.indices, lo ix ∧ ix < (isolines.coords.length : Int))
    (h : addIsoline graph isolines value = some out) :
    ∀ ix ∈ out.indices, lo ix ∧ ix < (out.coords.length : Int) := by
  rw [addIsoline_eq_crossings] at h
  cases hcs : crossings graph value graph.indices with
  | none =>
    rw [hcs] at h
    exact Option.noConfusion h
  | some cs =>
    rw [hcs] at h
    simp only [Option.map_some', Option.some.injEq] at h
    rw [← h]
    exact (foldl_indicesInRange lo hlo cs ⟨[], isolines⟩
      ⟨hpre, fun key v hv => Option.noConfusion hv⟩).1

theorem accumulate_indicesInRange (lo : Int → Prop) (hlo : ∀ n : Nat, lo (n : Int))
    (graph : GraphData) (levels : List ℚ) (isolines out : IsolinesData)
    (hpre : ∀ ix ∈ isolines.indices, lo ix ∧ ix < (isolines.coords.length : Int))
    (h : accumulate graph levels isolines = some out) :
    ∀ ix ∈ out.indices, lo ix ∧ ix < (out.coords.length : Int) := by
  induction levels generalizing isolines with
  | nil =>
    simp only [accumulate, Option.some.injEq] at h
    rw [← h]
    exact hpre
  | cons value rest ih =>
    rw [accumulate] at h
    cases h1 : addIsoline graph isolines value with
    | none =>
      rw [h1] at h
      exact Option.noConfusion h
    | some mid =>
      rw [h1] at h
      exact ih mid (addIsoline_indicesInRange lo hlo graph isolines mid value hpre h1) h

/-! ### Accumulation as offset append -/

theorem lookup_map_shift (key : Nat) (d : Int) (l : List (Nat × Int)) :
    (l.map (fun kv => (kv.1, kv.2 + d))).lookup key = (l.lookup key).map (fun v => v + d) := by
  induction l with
  | nil => rfl
  | cons kv l ih =>
    obtain ⟨k, v⟩ := kv
    simp only [List.map_cons, List.lookup_cons]
    by_cases e : key = k
    · rw [e, beq_self_eq_true]
      rfl
    · rw [beq_false_of_ne e]
      exact ih

theorem add_shifted (base : IsolinesData) (stB stE : AddState) (p : Vec3) (a b : Int)
    (h : Shifted base stB stE) : Shifted base (add stB p a b) (add stE p a b) := by
  obtain ⟨hidx, hco, hin⟩ := h
  have hlook := lookup_map_shift (edgeKey a b) (base.coords.length : Int) stE.idxs
  rw [← hidx] at hlook
  have hlen : (stB.isolines.coords.length : Int) =
      (stE.isolines.coords.length : Int) + (base.coords.length : Int) := by
    rw [hco, List.length_append]
    push_cast
    ring
  cases hE : stE.idxs.lookup (edgeKey a b) with
  | none =>
    rw [hE] at hlook
    rw [add_of_lookup_none p hE, add_of_lookup_none p hlook]
    refine ⟨?_, ?_, ?_⟩
    · simp only [List.map_cons, hidx, hlen]
    · simp only [hco, List.append_assoc]
    · simp only [hin, hlen, List.map_append, List.map_cons, List.map_nil, List.append_assoc]
  | some k =>
    rw [hE] at hlook
    rw [add_of_lookup_some p hE, add_of_lookup_some p hlook]
    refine ⟨hidx, hco, ?_⟩
    simp only [hin, List.map_append, List.map_cons, List.map_nil, List.append_assoc]

theorem foldl_shifted (base : IsolinesData) (cs : List Crossing) (stB stE : AddState)
    (h : Shifted base stB stE) :
    Shifted base (cs.foldl addCrossing stB) (cs.foldl addCrossing stE) := by
  induction cs generalizing stB stE with
  | nil => exact h
  | cons c cs ih =>
    rw [List.foldl_cons, List.foldl_cons]
    exact ih _ _ (add_shifted base stB stE c.point c.idx0 c.idx1 h)

/-- A call of `addIsoline` on an accumulated mesh in terms of the same call
on an empty mesh. -/
theorem addIsoline_offset (graph : GraphData) (base : IsolinesData) (value : ℚ) :
    addIsoline graph base value =
      (addIsoline graph emptyMesh value).map (fun e =>
        ⟨base.coords ++ e.coords,
          base.indices ++ e.indices.map (fun ix => ix + (base.coords.length : Int))⟩) := by
  rw [addIsoline_eq_crossings, addIsoline_eq_crossings]
  cases crossings graph value graph.indices with
  | none => rfl
  | some cs =>
    simp only [Option.map_some']
    have h := foldl_shifted base cs ⟨[], base⟩ ⟨[], emptyMesh⟩
      ⟨rfl, by simp [emptyMesh], by simp [emptyMesh]⟩
    rw [← h.2.1, ← h.2.2]

/-! ### One segment per crossed triangle -/

theorem segmentCalls_length (p0 p1 p2 : Vec2) (t0 t1 t2 value : ℚ) (i0 i1 i2 : Int) :
    (segmentCalls p0 p1 p2 t0 t1 t2 value i0 i1 i2).length =
      if classify t0 t1 t2 value = 0 ∨ classify t0 t1 t2 value = 7 then 0 else 2 := by
  unfold segmentCalls
  simp only
  split_ifs <;> rfl

theorem crossedTriangle_of_reads (graph : GraphData) (value : ℚ) (i0 i1 i2 : Int)
    (v0 v1 v2 : ℚ) (h0 : readAt graph.values i0 = some v0)
    (h1 : readAt graph.values i1 = some v1) (h2 : readAt graph.values i2 = some v2) :
    crossedTriangle graph value (i0, i1, i2) =
      !(classify (v0 + eps) (v1 + eps) (v2 + eps) value == 0 ||
        classify (v0 + eps) (v1 + eps) (v2 + eps) value == 7) := by
  simp only [crossedTriangle, h0, h1, h2]

/-- The mask is `0` or `7` exactly when the three classification bits agree. -/
theorem mask_uncrossed_iff (v0 v1 v2 value : ℚ) :
    (classify (v0 + eps) (v1 + eps) (v2 + eps) value = 0 ∨
      classify (v0 + eps) (v1 + eps) (v2 + eps) value = 7) ↔
    (classBit v0 value = classBit v1 value ∧ classBit v1 value = classBit v2 value) := by
  rw [classify_eq, classBit_eq_iff, classBit_eq_iff]
  by_cases h0 : v0 + eps > value <;> by_cases h1 : v1 + eps > value <;>
    by_cases h2 : v2 + eps > value <;> simp [h0, h1, h2]

/-- The number of `add` calls of a loop iteration: two if crossed, else none. -/
theorem segment_length (graph : GraphData) (value : ℚ) (i0 i1 i2 : Int) (s : List Crossing)
    (h : segment graph value i0 i1 i2 = some s) :
    s.length = if crossedTriangle graph value (i0, i1, i2) = true then 2 else 0 := by
  obtain ⟨p0, p1, p2, v0, v1, v2, -, -, -, h0, h1, h2, hs⟩ :=
    (segment_eq_some graph value i0 i1 i2 s).mp h
  rw [hs, segmentCalls_length, crossedTriangle_of_reads graph value i0 i1 i2 v0 v1 v2 h0 h1 h2]
  by_cases hm : classify (v0 + eps) (v1 + eps) (v2 + eps) value = 0 ∨
      classify (v0 + eps) (v1 + eps) (v2 + eps) value = 7
  · rw [if_pos hm]
    rcases hm with e | e <;> simp [e]
  · rw [if_neg hm]
    push_neg at hm
    simp [hm.1, hm.2]

/-- One loop iteration appends a block of two indices if the triangle is
crossed, and changes nothing otherwise. -/
theorem triangle_block (graph : GraphData) (value : ℚ) (st st' : AddState) (i0 i1 i2 : Int)
    (h : triangle graph value st i0 i1 i2 = some st') :
    (crossedTriangle graph value (i0, i1, i2) = false → st' = st) ∧
    ∃ blk : List Int, st'.isolines.indices = st.isolines.indices ++ blk ∧
      blk.length = if crossedTriangle graph value (i0, i1, i2) = true then 2 else 0 := by
  rw [triangle_eq_segment] at h
  cases hs : segment graph value i0 i1 i2 with
  | none =>
    rw [hs] at h
    exact Option.noConfusion h
  | some s =>
    rw [hs] at h
    simp only [Option.map_some', Option.some.injEq] at h
    have hlen := segment_length graph value i0 i1 i2 s hs
    constructor
    · intro hc
      rw [hc] at hlen
      simp only [Bool.false_eq_true, if_false, List.length_eq_zero] at hlen
      rw [← h, hlen]
      rfl
    · obtain ⟨l, hl, hl'⟩ := foldl_indices s st
      exact ⟨l, by rw [← h]; exact hl', by rw [hl, hlen]⟩

/-- The triangle loop appends one block per triangle, in triangle-list order. -/
theorem triangleLoop_blocks (graph : GraphData) (value : ℚ) :
    ∀ (tris : List Int) (st st' : AddState), triangleLoop graph value tris st = some st' →
      ∃ blocks : List (List Int),
        st'.isolines.indices = st.isolines.indices ++ blocks.flatten ∧
        List.Forall₂ (fun t blk => blk.length =
          if crossedTriangle graph value t = true then 2 else 0) (trianglesOf tris) blocks
  | [], st, st', h => by
    simp only [triangleLoop, Option.some.injEq] at h
    exact ⟨[], by simp [h], by simp [trianglesOf]⟩
  | [_], st, st', h => by simp [triangleLoop] at h
  | [_, _], st, st', h => by simp [triangleLoop] at h
  | i0 :: i1 :: i2 :: rest, st, st', h => by
    rw [triangleLoop] at h
    cases h1 : triangle graph value st i0 i1 i2 with
    | none =>
      rw [h1] at h
      exact Option.noConfusion h
    | some mid =>
      rw [h1] at h
      obtain ⟨-, blk, hb, hbl⟩ := triangle_block graph value st mid i0 i1 i2 h1
      obtain ⟨blocks, hbs, hf⟩ := triangleLoop_blocks graph value rest mid st' h
      refine ⟨blk :: blocks, ?_, ?_⟩
      · rw [hbs, hb, List.flatten_cons, List.append_assoc]
      · rw [trianglesOf]
        exact List.Forall₂.cons hbl hf

theorem blocks_length (graph : GraphData) (value : ℚ) (ts : List (Int × Int × Int))
    (blocks : List (List Int))
    (h : List.Forall₂ (fun t blk => blk.length =
      if crossedTriangle graph value t = true then 2 else 0) ts blocks) :
    blocks.flatten.length = 2 * (ts.filter (crossedTriangle graph value)).length := by
  induction h with
  | nil => rfl
  | cons hab _ ih =>
    rw [List.flatten_cons, List.length_append, ih, hab, List.filter_cons]
    split_ifs
    · rw [List.length_cons]
      omega
    · omega

/-! ### The edge key on 32-bit indices -/

theorem toUnsigned_of_lt (a : Int) (h0 : 0 ≤ a) (h1 : a < 2 ^ 32) :
    toUnsigned a = a.toNat := by
  rw [toUnsigned, Int.emod_eq_of_lt h0 h1]

/-- For indices in `[0, 2^32)` the key is `min * 2^32 + max`. -/
theorem edgeKey_eq_pack (a b : Int) (ha0 : 0 ≤ a) (ha : a < 2 ^ 32) (hb0 : 0 ≤ b)
    (hb : b < 2 ^ 32) :
    edgeKey a b = (min a b).toNat * 2 ^ 32 + (max a b).toNat := by
  have pack : ∀ lo hi : Nat, lo < 2 ^ 32 → hi < 2 ^ 32 →
      ((lo <<< 32) % 2 ^ 64) ||| hi = lo * 2 ^ 32 + hi := by
    intro lo hi hlo hhi
    rw [Nat.shiftLeft_eq, Nat.mod_eq_of_lt (by omega), Nat.mul_comm,
      ← Nat.mul_add_lt_is_or hhi]
  have ua : a.toNat < 2 ^ 32 := by omega
  have ub : b.toNat < 2 ^ 32 := by omega
  unfold edgeKey
  simp only [toUnsigned_of_lt a ha0 ha, toUnsigned_of_lt b hb0 hb]
  by_cases hgt : a.toNat > b.toNat
  · have hba : b ≤ a := by omega
    rw [if_pos hgt, if_pos hgt, pack _ _ ub ua, min_eq_right hba, max_eq_left hba]
  · have hab : a ≤ b := by omega
    rw [if_neg hgt, if_neg hgt, pack _ _ ua ub, min_eq_left hab, max_eq_right hab]

/-- On indices in `[0, 2^32)` two calls have the same key exactly when they
name the same undirected edge. -/
theorem edgeKey_eq_iff_edgeOf_eq (c d : Crossing)
    (hc0 : 0 ≤ c.idx0 ∧ c.idx0 < 2 ^ 32) (hc1 : 0 ≤ c.idx1 ∧ c.idx1 < 2 ^ 32)
    (hd0 : 0 ≤ d.idx0 ∧ d.idx0 < 2 ^ 32) (hd1 : 0 ≤ d.idx1 ∧ d.idx1 < 2 ^ 32) :
    edgeKey c.idx0 c.idx1 = edgeKey d.idx0 d.idx1 ↔ edgeOf c = edgeOf d := by
  rw [edgeKey_eq_pack _ _ hc0.1 hc0.2 hc1.1 hc1.2, edgeKey_eq_pack _ _ hd0.1 hd0.2 hd1.1 hd1.2,
    edgeOf, edgeOf, Prod.mk.injEq]
  have h1 : 0 ≤ min c.idx0 c.idx1 := le_min hc0.1 hc1.1
  have h2 : 0 ≤ min d.idx0 d.idx1 := le_min hd0.1 hd1.1
  have h3 : max c.idx0 c.idx1 < 2 ^ 32 := max_lt hc0.2 hc1.2
  have h4 : max d.idx0 d.idx1 < 2 ^ 32 := max_lt hd0.2 hd1.2
  have h5 : 0 ≤ max c.idx0 c.idx1 := le_trans hc0.1 (le_max_left _ _)
  have h6 : 0 ≤ max d.idx0 d.idx1 := le_trans hd0.1 (le_max_left _ _)
  generalize min c.idx0 c.idx1 = x at *
  generalize min d.idx0 d.idx1 = y at *
  generalize max c.idx0 c.idx1 = z at *
  generalize max d.idx0 d.idx1 = w at *
  constructor
  · intro h
    constructor <;> omega
  · rintro ⟨rfl, rfl⟩
    rfl

/-! ### Counting the appended points -/

theorem lookup_eq_none_iff_not_mem (key : Nat) (l : List (Nat × Int)) :
    l.lookup key = none ↔ key ∉ l.map Prod.fst := by
  induction l with
  | nil => simp
  | cons kv l ih =>
    obtain ⟨k, v⟩ := kv
    simp only [List.lookup_cons, List.map_cons, List.mem_cons, not_or]
    by_cases e : key = k
    · rw [e, beq_self_eq_true]
      simp
    · rw [beq_false_of_ne e]
      simp [e, ih]

/-- The calls of `add` append one point per key that is not yet in the map. -/
theorem foldl_coords_card (cs : List Crossing) (st : AddState) :
    (cs.foldl addCrossing st).isolines.coords.length =
      st.isolines.coords.length +
        ((cs.map (fun c => edgeKey c.idx0 c.idx1)).toFinset \
          (st.idxs.map Prod.fst).toFinset).card := by
  induction cs generalizing st with
  | nil => simp
  | cons c cs ih =>
    rw [List.foldl_cons, ih, List.map_cons, List.toFinset_cons]
    cases hl : st.idxs.lookup (edgeKey c.idx0 c.idx1) with
    | some k =>
      have hmem : edgeKey c.idx0 c.idx1 ∈ (st.idxs.map Prod.fst).toFinset := by
        rw [List.mem_toFinset]
        by_contra hn
        rw [(lookup_eq_none_iff_not_mem _ _).mpr hn] at hl
        exact Option.noConfusion hl
      rw [addCrossing, add_of_lookup_some c.point hl, Finset.insert_sdiff_of_mem _ hmem]
    | none =>
      have hnot : edgeKey c.idx0 c.idx1 ∉ (st.idxs.map Prod.fst).toFinset := by
        rw [List.mem_toFinset]
        exact (lookup_eq_none_iff_not_mem _ _).mp hl
      rw [addCrossing, add_of_lookup_none c.point hl, Finset.insert_sdiff_of_not_mem _ hnot]
      simp only [List.length_append, List.length_singleton, List.map_cons, List.toFinset_cons,
        Finset.sdiff_insert]
      rw [← Finset.insert_erase (Finset.mem_insert_self (edgeKey c.idx0 c.idx1)
        ((cs.map (fun c => edgeKey c.idx0 c.idx1)).toFinset \ (st.idxs.map Prod.fst).toFinset)),
        Finset.erase_insert_eq_erase,
        Finset.card_insert_of_not_mem (Finset.not_mem_erase _ _)]
      omega

/-- Two labellings of a list that identify the same elements have the same
number of distinct labels. -/
theorem card_map_eq_of_iff {α β γ : Type} [DecidableEq β] [DecidableEq γ] (f : α → β)
    (g : α → γ) (l : List α) (h : ∀ x ∈ l, ∀ y ∈ l, f x = f y ↔ g x = g y) :
    (l.map f).toFinset.card = (l.map g).toFinset.card := by
  induction l with
  | nil => rfl
  | cons x l ih =>
    have ih' := ih (fun a ha b hb => h a (List.mem_cons_of_mem _ ha) b (List.mem_cons_of_mem _ hb))
    have hmem : f x ∈ (l.map f).toFinset ↔ g x ∈ (l.map g).toFinset := by
      simp only [List.mem_toFinset, List.mem_map]
      constructor
      · rintro ⟨y, hy, e⟩
        exact ⟨y, hy, (h y (List.mem_cons_of_mem _ hy) x (List.mem_cons_self _ _)).mp e⟩
      · rintro ⟨y, hy, e⟩
        exact ⟨y, hy, (h y (List.mem_cons_of_mem _ hy) x (List.mem_cons_self _ _)).mpr e⟩
    rw [List.map_cons, List.map_cons, List.toFinset_cons, List.toFinset_cons]
    by_cases hf : f x ∈ (l.map f).toFinset
    · rw [Finset.card_insert_of_mem hf, Finset.card_insert_of_mem (hmem.mp hf), ih']
    · rw [Finset.card_insert_of_not_mem hf, Finset.card_insert_of_not_mem (mt hmem.mpr hf), ih']

theorem nonneg_of_readAt {α : Type} (v : List α) (i : Int) (a : α) (h : readAt v i = some a) :
    0 ≤ i := by
  by_contra hn
  rw [readAt, if_neg hn] at h
  exact Option.noConfusion h

/-- The endpoints named by a call of one loop iteration are vertices of the
triangle. -/
theorem segment_indices (graph : GraphData) (value : ℚ) (i0 i1 i2 : Int) (s : List Crossing)
    (h : segment graph value i0 i1 i2 = some s) :
    ∀ c ∈ s, (c.idx0 = i0 ∨ c.idx0 = i1 ∨ c.idx0 = i2) ∧
      (c.idx1 = i0 ∨ c.idx1 = i1 ∨ c.idx1 = i2) := by
  obtain ⟨p0, p1, p2, v0, v1, v2, -, -, -, -, -, -, hs⟩ :=
    (segment_eq_some graph value i0 i1 i2 s).mp h
  intro c hc
  rcases segmentCalls_cases p0 p1 p2 (v0 + eps) (v1 + eps) (v2 + eps) value i0 i1 i2 with
    ⟨-, -, e⟩ | ⟨-, -, e⟩ | ⟨-, -, e⟩ | ⟨-, -, e⟩ <;>
    rw [hs, e] at hc <;>
    simp only [List.mem_cons, List.mem_singleton, List.not_mem_nil, or_false] at hc
  · rcases hc with rfl | rfl <;> simp
  · rcases hc with rfl | rfl <;> simp
  · rcases hc with rfl | rfl <;> simp

/-- Every endpoint named by a call of `add` is an entry of the index list. -/
theorem crossings_indices (graph : GraphData) (value : ℚ) :
    ∀ (tris : List Int) (cs : List Crossing), crossings graph value tris = some cs →
      ∀ c ∈ cs, c.idx0 ∈ tris ∧ c.idx1 ∈ tris
  | [], cs, h, c, hc => by
    simp only [crossings, Option.some.injEq] at h
    rw [← h] at hc
    exact absurd hc (List.not_mem_nil c)
  | [_], cs, h, c, hc => by simp [crossings] at h
  | [_, _], cs, h, c, hc => by simp [crossings] at h
  | i0 :: i1 :: i2 :: rest, cs, h, c, hc => by
    simp only [crossings, Option.bind_eq_some, Option.map_eq_some'] at h
    obtain ⟨s, hs, r, hr, e⟩ := h
    rw [← e, List.mem_append] at hc
    rcases hc with hc | hc
    · have := segment_indices graph value i0 i1 i2 s hs c hc
      constructor
      · rcases this.1 with e | e | e <;> simp [e]
      · rcases this.2 with e | e | e <;> simp [e]
    · have := crossings_indices graph value rest r hr c hc
      exact ⟨by simp [this.1], by simp [this.2]⟩

/-- The number of calls of `add` is twice the number of crossed triangles. -/
theorem crossings_length (graph : GraphData) (value : ℚ) :
    ∀ (tris : List Int) (cs : List Crossing), crossings graph value tris = some cs →
      cs.length = 2 * ((trianglesOf tris).filter (crossedTriangle graph value)).length
  | [], cs, h => by
    simp only [crossings, Option.some.injEq] at h
    rw [← h]
    rfl
  | [_], cs, h => by simp [crossings] at h
  | [_, _], cs, h => by simp [crossings] at h
  | i0 :: i1 :: i2 :: rest, cs, h => by
    simp only [crossings, Option.bind_eq_some, Option.map_eq_some'] at h
    obtain ⟨s, hs, r, hr, e⟩ := h
    have h1 := segment_length graph value i0 i1 i2 s hs
    have h2 := crossings_length graph value rest r hr
    rw [← e, List.length_append, h1, h2, trianglesOf, List.filter_cons]
    split_ifs
    · rw [List.length_cons]
      omega
    · omega

/-! ## Isoline extractor: classification, counts and accumulation -/

theorem triangleMask_eq_some (shift : ℚ → ℚ) (graph : GraphData) (value : ℚ) (i0 i1 i2 : Int)
    (mask : Nat) :
    triangleMask shift graph value i0 i1 i2 = some mask ↔
      ∃ p0 p1 p2 v0 v1 v2,
        readAt graph.coords i0 = some p0 ∧ readAt graph.coords i1 = some p1 ∧
        readAt graph.coords i2 = some p2 ∧ readAt graph.values i0 = some v0 ∧
        readAt graph.values i1 = some v1 ∧ readAt graph.values i2 = some v2 ∧
        mask = classify (shift v0) (shift v1) (shift v2) value := by
  simp only [triangleMask, Option.bind_eq_bind, Option.bind_eq_some, Option.pure_def,
    Option.some.injEq]
  constructor
  · rintro ⟨p0, h0, p1, h1, p2, h2, v0, g0, v1, g1, v2, g2, h⟩
    exact ⟨p0, p1, p2, v0, v1, v2, h0, h1, h2, g0, g1, g2, h.symm⟩
  · rintro ⟨p0, p1, p2, v0, v1, v2, h0, h1, h2, g0, g1, g2, h⟩
    exact ⟨p0, h0, p1, h1, p2, h2, v0, g0, v1, g1, v2, g2, h.symm⟩

/-- The bits of the mask are the three comparison results. -/
theorem classify_testBit (t0 t1 t2 value : ℚ) :
    (classify t0 t1 t2 value).testBit 0 = decide (t0 > value) ∧
    (classify t0 t1 t2 value).testBit 1 = decide (t1 > value) ∧
    (classify t0 t1 t2 value).testBit 2 = decide (t2 > value) := by
  rw [classify_eq]
  by_cases h0 : t0 > value <;> by_cases h1 : t1 > value <;> by_cases h2 : t2 > value <;>
    simp only [h0, h1, h2, if_true, if_false, decide_True, decide_False] <;> decide

/-- The mask that decides what a loop iteration of `triangle` does is the mask
of `triangleMask` in exact arithmetic: for mask `0` or `7` the state is left
as it is, otherwise two indices are appended. -/
theorem triangle_mask (graph : GraphData) (value : ℚ) (st st' : AddState) (i0 i1 i2 : Int)
    (h : triangle graph value st i0 i1 i2 = some st') :
    ∃ mask, triangleMask (fun v => v + eps) graph value i0 i1 i2 = some mask ∧
      ((mask = 0 ∨ mask = 7) → st' = st) ∧
      (¬ (mask = 0 ∨ mask = 7) →
        st'.isolines.indices.length = st.isolines.indices.length + 2) := by
  rw [triangle_eq_segment] at h
  cases hs : segment graph value i0 i1 i2 with
  | none =>
    rw [hs] at h
    exact Option.noConfusion h
  | some s =>
    rw [hs] at h
    simp only [Option.map_some', Option.some.injEq] at h
    obtain ⟨p0, p1, p2, v0, v1, v2, hp0, hp1, hp2, hv0, hv1, hv2, e⟩ :=
      (segment_eq_some graph value i0 i1 i2 s).mp hs
    refine ⟨classify (v0 + eps) (v1 + eps) (v2 + eps) value,
      (triangleMask_eq_some _ graph value i0 i1 i2 _).mpr
        ⟨p0, p1, p2, v0, v1, v2, hp0, hp1, hp2, hv0, hv1, hv2, rfl⟩, ?_, ?_⟩
    · intro hm
      have hl : s.length = 0 := by rw [e, segmentCalls_length, if_pos hm]
      rw [List.length_eq_zero.mp hl] at h
      exact h.symm
    · intro hm
      have hl : s.length = 2 := by rw [e, segmentCalls_length, if_neg hm]
      obtain ⟨l, hll, hl'⟩ := foldl_indices s st
      rw [← h, hl', List.length_append, hll, hl]

/-- A loop iteration of `triangle` is defined exactly when the six reads of
`triangleMask` are. -/
theorem triangle_defined_iff (graph : GraphData) (value : ℚ) (st : AddState) (i0 i1 i2 : Int) :
    (∃ st', triangle graph value st i0 i1 i2 = some st') ↔
      ∃ mask, triangleMask (fun v => v + eps) graph value i0 i1 i2 = some mask := by
  constructor
  · rintro ⟨st', h⟩
    obtain ⟨mask, hm, -, -⟩ := triangle_mask graph value st st' i0 i1 i2 h
    exact ⟨mask, hm⟩
  · rintro ⟨mask, h⟩
    obtain ⟨p0, p1, p2, v0, v1, v2, hp0, hp1, hp2, hv0, hv1, hv2, -⟩ :=
      (triangleMask_eq_some _ graph value i0 i1 i2 mask).mp h
    have hs := (segment_eq_some graph value i0 i1 i2 _).mpr
      ⟨p0, p1, p2, v0, v1, v2, hp0, hp1, hp2, hv0, hv1, hv2, rfl⟩
    rw [triangle_eq_segment, hs]
    exact ⟨_, rfl⟩

theorem shiftF32_threshold : shiftF32 262144 = 262144 := by
  unfold shiftF32
  apply roundF32_eq_of_pos _ _ (2 ^ 23) 18 <;> norm_num [eps32, abs_lt]

/-- In binary32 the shift is an increase for every value of magnitude below
`2^18`. -/
theorem shiftF32_gt {v : ℚ} (h : |v + eps32| < 2 ^ 18) : shiftF32 v > v := by
  have := roundF32_lower h
  have he : (1 : ℚ) / 128 < eps32 := by norm_num [eps32]
  unfold shiftF32
  linarith

/-- C17, as stated, fails in the float arithmetic of the source: for a
triangle whose three field values equal the level `262144 = 2^18`, the float
sum `value_k + eps` rounds back to `262144`, the mask is `0`, and no vertex is
classified as above. -/
theorem tie_break_fails_f32 :
    shiftF32 262144 = 262144 ∧
    triangleMask shiftF32 ⟨[⟨0, 0⟩, ⟨1, 0⟩, ⟨0, 1⟩], [262144, 262144, 262144], [0, 1, 2]⟩
      262144 0 1 2 = some 0 ∧
    (0 : Nat).testBit 0 = false ∧ (0 : Nat).testBit 1 = false ∧ (0 : Nat).testBit 2 = false := by
  refine ⟨shiftF32_threshold, ?_, rfl, rfl, rfl⟩
  rw [triangleMask_eq_some]
  refine ⟨⟨0, 0⟩, ⟨1, 0⟩, ⟨0, 1⟩, 262144, 262144, 262144, rfl, rfl, rfl, rfl, rfl, rfl, ?_⟩
  rw [shiftF32_threshold, classify_eq]
  simp

/-- C17, amended: bit `k` of the classification mask of a loop iteration is
set exactly when the sum `value_k + eps` is greater than `isoValue`, whichever
arithmetic the sum is taken in. In exact arithmetic (`eps = 1/100 > 0`), the
reading under which `triangle` is embedded, a vertex whose field value equals
`isoValue` is always classified as above. In binary32 (`eps = 0.01f`) it is
classified as above whenever `|value_k + eps| < 2^18`. The mask is the one
that decides what the loop iteration `triangle` does, and is defined exactly
when that iteration is. -/
theorem tie_break_above (graph : GraphData) (value : ℚ) (i0 i1 i2 : Int) :
    (∀ (shift : ℚ → ℚ) (mask : Nat), triangleMask shift graph value i0 i1 i2 = some mask →
      ∃ v0 v1 v2, readAt graph.values i0 = some v0 ∧ readAt graph.values i1 = some v1 ∧
        readAt graph.values i2 = some v2 ∧
        mask.testBit 0 = decide (shift v0 > value) ∧
        mask.testBit 1 = decide (shift v1 > value) ∧
        mask.testBit 2 = decide (shift v2 > value)) ∧
    (eps = 1 / 100 ∧ 0 < eps ∧ eps32 = 10737418 / 2 ^ 30 ∧ 0 < eps32) ∧
    (∀ (mask : Nat), triangleMask (fun v => v + eps) graph value i0 i1 i2 = some mask →
      (readAt graph.values i0 = some value → mask.testBit 0 = true) ∧
      (readAt graph.values i1 = some value → mask.testBit 1 = true) ∧
      (readAt graph.values i2 = some value → mask.testBit 2 = true)) ∧
    (∀ (mask : Nat), triangleMask shiftF32 graph value i0 i1 i2 = some mask →
      |value + eps32| < 2 ^ 18 →
      (readAt graph.values i0 = some value → mask.testBit 0 = true) ∧
      (readAt graph.values i1 = some value → mask.testBit 1 = true) ∧
      (readAt graph.values i2 = some value → mask.testBit 2 = true)) ∧
    (∀ st st', triangle graph value st i0 i1 i2 = some st' →
      ∃ mask, triangleMask (fun v => v + eps) graph value i0 i1 i2 = some mask ∧
        ((mask = 0 ∨ mask = 7) → st' = st) ∧
        (¬ (mask = 0 ∨ mask = 7) →
          st'.isolines.indices.length = st.isolines.indices.length + 2)) ∧
    (∀ st, (∃ st', triangle graph value st i0 i1 i2 = some st') ↔
      ∃ mask, triangleMask (fun v => v + eps) graph value i0 i1 i2 = some mask) := by
  have hbits : ∀ (shift : ℚ → ℚ) (mask : Nat),
      triangleMask shift graph value i0 i1 i2 = some mask →
      ∃ v0 v1 v2, readAt graph.values i0 = some v0 ∧ readAt graph.values i1 = some v1 ∧
        readAt graph.values i2 = some v2 ∧
        mask.testBit 0 = decide (shift v0 > value) ∧
        mask.testBit 1 = decide (shift v1 > value) ∧
        mask.testBit 2 = decide (shift v2 > value) := by
    intro shift mask h
    obtain ⟨p0, p1, p2, v0, v1, v2, -, -, -, hv0, hv1, hv2, e⟩ :=
      (triangleMask_eq_some shift graph value i0 i1 i2 mask).mp h
    rw [e]
    exact ⟨v0, v1, v2, hv0, hv1, hv2, classify_testBit _ _ _ _⟩
  have htie : ∀ (shift : ℚ → ℚ), shift value > value → ∀ (mask : Nat),
      triangleMask shift graph value i0 i1 i2 = some mask →
      (readAt graph.values i0 = some value → mask.testBit 0 = true) ∧
      (readAt graph.values i1 = some value → mask.testBit 1 = true) ∧
      (readAt graph.values i2 = some value → mask.testBit 2 = true) := by
    intro shift hgt mask h
    obtain ⟨v0, v1, v2, hv0, hv1, hv2, b0, b1, b2⟩ := hbits shift mask h
    refine ⟨fun e => ?_, fun e => ?_, fun e => ?_⟩
    · rw [hv0] at e
      rw [b0, Option.some.inj e]
      exact decide_eq_true hgt
    · rw [hv1] at e
      rw [b1, Option.some.inj e]
      exact decide_eq_true hgt
    · rw [hv2] at e
      rw [b2, Option.some.inj e]
      exact decide_eq_true hgt
  have hpos : 0 < eps := by norm_num [eps]
  refine ⟨hbits, ⟨rfl, hpos, rfl, by norm_num [eps32]⟩, ?_, ?_, ?_,
    fun st => triangle_defined_iff graph value st i0 i1 i2⟩
  · exact htie (fun v => v + eps) (by simp only; linarith)
  · intro mask h hlt
    exact htie shiftF32 (shiftF32_gt hlt) mask h
  · intro st st' h
    exact triangle_mask graph value st st' i0 i1 i2 h

/-- Instance of `tie_break_above` in binary32: on the single triangle the
value of vertex 1 is `1`; at the level `1` the float sum `1 + 0.01f` is
greater than `1` and the mask is `2`, bit 1 set. -/
theorem tie_break_above_witness :
    |(1 : ℚ) + eps32| < 2 ^ 18 ∧ readAt singleTriangle.values 1 = some 1 ∧
    ∃ mask, triangleMask shiftF32 singleTriangle 1 0 1 2 = some mask ∧
      mask.testBit 1 = true := by
  have hlt : |(1 : ℚ) + eps32| < 2 ^ 18 := by
    rw [abs_lt]
    constructor <;> norm_num [eps32]
  have hm : triangleMask shiftF32 singleTriangle 1 0 1 2 =
      some (classify (shiftF32 (-1)) (shiftF32 1) (shiftF32 (-1)) 1) :=
    (triangleMask_eq_some _ _ _ _ _ _ _).mpr
      ⟨⟨0, 0⟩, ⟨1, 0⟩, ⟨0, 1⟩, -1, 1, -1, rfl, rfl, rfl, rfl, rfl, rfl, rfl⟩
  exact ⟨hlt, rfl, _, hm,
    ((tie_break_above singleTriangle 1 0 1 2).2.2.2.1 _ hm hlt).2.1 rfl⟩

/-- C19: for an empty generated grid (derived dimensions with `n * m = 0`)
and every iso-value, `addIsoline` completes and leaves the mesh as it was; in
particular an empty mesh stays empty. The generated grid has no vertices and
no triangles. -/
theorem empty_grid_isoline (xmin xmax ymin ymax step : ℚ) (n m : Int)
    (hn : gridDim xmin xmax step = some n) (hm : gridDim ymin ymax step = some m)
    (h : n * m = 0) :
    ∃ g, generateGraph xmin xmax ymin ymax step = some g ∧
      g.coords = [] ∧ g.indices = [] ∧
      (∀ value isolines, addIsoline g isolines value = some isolines) ∧
      ∀ value, addIsoline g emptyMesh value = some emptyMesh := by
  have hz : n ≤ 0 ∨ m ≤ 0 := by
    rcases mul_eq_zero.mp h with e | e
    · exact Or.inl (le_of_eq e)
    · exact Or.inr (le_of_eq e)
  have hall : ∀ value isolines, addIsoline emptyGraph isolines value = some isolines := by
    intro value isolines
    simp [addIsoline, emptyGraph, triangleLoop]
  refine ⟨emptyGraph, ?_, rfl, rfl, hall, fun value => hall value emptyMesh⟩
  rw [generateGraph_of_dims hn hm, buildGraph_empty _ _ _ _ _ hz]

/-- Instance of `empty_grid_isoline`: bounds `xmax = xmin`, step 1. -/
theorem empty_grid_isoline_witness :
    (gridDim 0 0 1 = some 0 ∧ gridDim 0 3 1 = some 3 ∧ (0 : ℤ) * 3 = 0) ∧
    ∃ g, generateGraph 0 0 0 3 1 = some g ∧
      g.coords = [] ∧ g.indices = [] ∧
      (∀ value isolines, addIsoline g isolines value = some isolines) ∧
      ∀ value, addIsoline g emptyMesh value = some emptyMesh :=
  ⟨⟨gridDim_zero_zero_one, gridDim_zero_three_one, by norm_num⟩,
    empty_grid_isoline 0 0 0 3 1 0 3 gridDim_zero_zero_one gridDim_zero_three_one
      (by norm_num)⟩

/-- C18: on a well-formed grid whose field is perfectly flat (every vertex
value equals `c`), `addIsoline` into an empty mesh returns an empty mesh, for
every iso-value (in particular for every `isoValue ≠ c`). -/
theorem flat_field_empty (graph : GraphData) (c value : ℚ) (hwf : WellFormed graph)
    (hflat : ∀ v ∈ graph.values, v = c) :
    addIsoline graph emptyMesh value = some emptyMesh := by
  rw [addIsoline_eq_crossings,
    crossings_flat graph c value hwf.2.1 hflat graph.indices hwf.1 hwf.2.2]
  rfl

/-- Witness for C18: the quad with the flat field `0` at level `1/2`. -/
theorem flat_field_empty_witness :
    addIsoline (quadGraph 0 0 0 0) emptyMesh (1 / 2) = some emptyMesh :=
  flat_field_empty (quadGraph 0 0 0 0) 0 (1 / 2)
    ⟨by decide, by decide, by decide⟩
    (by simp [quadGraph])

/-- C14: if every index in `isolines.indices` is below `isolines.coords.size()`
before a call of `addIsoline`, the same holds after the call and after any
sequence of calls; hence the mesh accumulated from an empty mesh over any
sequence of iso-values has every index in `[0, points.size())`. -/
theorem index_invariant (graph : GraphData) (isolines : IsolinesData)
    (hpre : ∀ ix ∈ isolines.indices, ix < (isolines.coords.length : Int)) :
    (∀ value out, addIsoline graph isolines value = some out →
      ∀ ix ∈ out.indices, ix < (out.coords.length : Int)) ∧
    (∀ levels out, accumulate graph levels isolines = some out →
      ∀ ix ∈ out.indices, ix < (out.coords.length : Int)) ∧
    (∀ levels out, accumulate graph levels emptyMesh = some out →
      ∀ ix ∈ out.indices, 0 ≤ ix ∧ ix < (out.coords.length : Int)) := by
  refine ⟨?_, ?_, ?_⟩
  · intro value out h ix hix
    exact (addIsoline_indicesInRange (fun _ => True) (fun _ => trivial) graph isolines out value
      (fun i hi => ⟨trivial, hpre i hi⟩) h ix hix).2
  · intro levels out h ix hix
    exact (accumulate_indicesInRange (fun _ => True) (fun _ => trivial) graph levels isolines out
      (fun i hi => ⟨trivial, hpre i hi⟩) h ix hix).2
  · intro levels out h
    exact accumulate_indicesInRange (fun i => 0 ≤ i) (fun n => Int.ofNat_nonneg n) graph levels
      emptyMesh out (fun i hi => absurd hi (List.not_mem_nil i)) h

/-- Witness for C14: the mesh extracted from the single triangle at level 0 as
the already-accumulated mesh. -/
theorem index_invariant_witness :
    (∀ value out,
      addIsoline singleTriangle ⟨[⟨99 / 200, 0, 0⟩, ⟨99 / 200, 101 / 200, 0⟩], [0, 1]⟩ value =
        some out →
      ∀ ix ∈ out.indices, ix < (out.coords.length : Int)) ∧
    (∀ levels out,
      accumulate singleTriangle levels
        ⟨[⟨99 / 200, 0, 0⟩, ⟨99 / 200, 101 / 200, 0⟩], [0, 1]⟩ = some out →
      ∀ ix ∈ out.indices, ix < (out.coords.length : Int)) ∧
    (∀ levels out, accumulate singleTriangle levels emptyMesh = some out →
      ∀ ix ∈ out.indices, 0 ≤ ix ∧ ix < (out.coords.length : Int)) :=
  index_invariant singleTriangle ⟨[⟨99 / 200, 0, 0⟩, ⟨99 / 200, 101 / 200, 0⟩], [0, 1]⟩
    (by simp)

/-- C13: `addIsoline` on an already-accumulated mesh `base` keeps the points
and indices of `base` as a prefix and appends exactly the points of the
standalone extraction (`addIsoline` into an empty mesh) and its indices, each
increased by `base.coords.size()`; in particular accumulating two levels
yields the two standalone vertex buffers one after the other, so the vertex
count is the sum of the two standalone counts. -/
theorem accumulate_is_offset_append (graph : GraphData) (base : IsolinesData) (v1 v2 : ℚ) :
    addIsoline graph base v1 =
      (addIsoline graph emptyMesh v1).map (fun e =>
        ⟨base.coords ++ e.coords,
          base.indices ++ e.indices.map (fun ix => ix + (base.coords.length : Int))⟩) ∧
    ∀ e1 e2, addIsoline graph emptyMesh v1 = some e1 → addIsoline graph emptyMesh v2 = some e2 →
      ∃ out, accumulate graph [v1, v2] emptyMesh = some out ∧
        out.coords = e1.coords ++ e2.coords ∧
        out.indices = e1.indices ++ e2.indices.map (fun ix => ix + (e1.coords.length : Int)) ∧
        out.coords.length = e1.coords.length + e2.coords.length := by
  refine ⟨addIsoline_offset graph base v1, ?_⟩
  intro e1 e2 h1 h2
  refine ⟨⟨e1.coords ++ e2.coords,
    e1.indices ++ e2.indices.map (fun ix => ix + (e1.coords.length : Int))⟩, ?_, rfl, rfl,
    List.length_append _ _⟩
  simp only [accumulate, h1, Option.some_bind]
  rw [addIsoline_offset graph e1 v2, h2]
  rfl

/-- C15: a triangle is crossed (mask not in `{0, 7}`) exactly when its three
classification bits are not all equal; a loop iteration on a crossed triangle
appends exactly two indices, one on an uncrossed triangle leaves the state as
it is (no point, no index); the index buffer after `addIsoline` is the old
buffer followed by one block per triangle, in triangle-list order, of length 2
or 0, so the number of appended indices is twice the number of crossed
triangles. -/
theorem one_segment_per_crossed_triangle (graph : GraphData) (isolines out : IsolinesData)
    (value : ℚ) (h : addIsoline graph isolines value = some out) :
    (∀ i0 i1 i2 v0 v1 v2, readAt graph.values i0 = some v0 → readAt graph.values i1 = some v1 →
      readAt graph.values i2 = some v2 →
      (crossedTriangle graph value (i0, i1, i2) = true ↔
        ¬ (classBit v0 value = classBit v1 value ∧ classBit v1 value = classBit v2 value))) ∧
    (∀ st st' i0 i1 i2, triangle graph value st i0 i1 i2 = some st' →
      (crossedTriangle graph value (i0, i1, i2) = false → st' = st) ∧
      (crossedTriangle graph value (i0, i1, i2) = true →
        ∃ a b, st'.isolines.indices = st.isolines.indices ++ [a, b])) ∧
    (∃ blocks : List (List Int),
      out.indices = isolines.indices ++ blocks.flatten ∧
      List.Forall₂ (fun t blk => blk.length =
        if crossedTriangle graph value t = true then 2 else 0)
        (trianglesOf graph.indices) blocks) ∧
    out.indices.length = isolines.indices.length +
      2 * ((trianglesOf graph.indices).filter (crossedTriangle graph value)).length := by
  have hloop : ∃ st', triangleLoop graph value graph.indices ⟨[], isolines⟩ = some st' ∧
      st'.isolines = out := by
    rw [addIsoline] at h
    cases hl : triangleLoop graph value graph.indices ⟨[], isolines⟩ with
    | none =>
      rw [hl] at h
      exact Option.noConfusion h
    | some st' =>
      rw [hl] at h
      exact ⟨st', rfl, Option.some.inj h⟩
  obtain ⟨st', hl, hout⟩ := hloop
  obtain ⟨blocks, hb, hf⟩ := triangleLoop_blocks graph value graph.indices _ st' hl
  rw [hout] at hb
  refine ⟨?_, ?_, ⟨blocks, hb, hf⟩, ?_⟩
  · intro i0 i1 i2 v0 v1 v2 h0 h1 h2
    rw [crossedTriangle_of_reads graph value i0 i1 i2 v0 v1 v2 h0 h1 h2,
      ← mask_uncrossed_iff]
    simp
  · intro st st1 i0 i1 i2 ht
    obtain ⟨hu, blk, hblk, hlen⟩ := triangle_block graph value st st1 i0 i1 i2 ht
    refine ⟨hu, fun hc => ?_⟩
    rw [hc, if_pos rfl] at hlen
    match blk, hlen with
    | [a, b], _ => exact ⟨a, b, hblk⟩
  · rw [hb, List.length_append, blocks_length graph value _ blocks hf]

/-- Witness for C15: the quad with values `(1, 0, 1, 1)` at level `1/2`. -/
theorem one_segment_per_crossed_triangle_witness :
    (∀ i0 i1 i2 v0 v1 v2, readAt (quadGraph 1 0 1 1).values i0 = some v0 →
      readAt (quadGraph 1 0 1 1).values i1 = some v1 →
      readAt (quadGraph 1 0 1 1).values i2 = some v2 →
      (crossedTriangle (quadGraph 1 0 1 1) (1 / 2) (i0, i1, i2) = true ↔
        ¬ (classBit v0 (1 / 2) = classBit v1 (1 / 2) ∧
          classBit v1 (1 / 2) = classBit v2 (1 / 2)))) ∧
    (∀ st st' i0 i1 i2, triangle (quadGraph 1 0 1 1) (1 / 2) st i0 i1 i2 = some st' →
      (crossedTriangle (quadGraph 1 0 1 1) (1 / 2) (i0, i1, i2) = false → st' = st) ∧
      (crossedTriangle (quadGraph 1 0 1 1) (1 / 2) (i0, i1, i2) = true →
        ∃ a b, st'.isolines.indices = st.isolines.indices ++ [a, b])) ∧
    (∃ blocks : List (List Int),
      ([0, 1, 2, 0] : List Int) = emptyMesh.indices ++ blocks.flatten ∧
      List.Forall₂ (fun t blk => blk.length =
        if crossedTriangle (quadGraph 1 0 1 1) (1 / 2) t = true then 2 else 0)
        (trianglesOf (quadGraph 1 0 1 1).indices) blocks) ∧
    ([0, 1, 2, 0] : List Int).length = emptyMesh.indices.length +
      2 * ((trianglesOf (quadGraph 1 0 1 1).indices).filter
        (crossedTriangle (quadGraph 1 0 1 1) (1 / 2))).length :=
  one_segment_per_crossed_triangle (quadGraph 1 0 1 1) emptyMesh _ (1 / 2)
    addIsoline_quad_shared

/-- C16: for a grid whose triangle indices are 32-bit values, the number of
points appended by one call of `addIsoline` equals the number of distinct
undirected grid edges named by its calls of `add`, which is at most twice the
number of crossed triangles. -/
theorem points_per_distinct_edge (graph : GraphData) (isolines out : IsolinesData) (value : ℚ)
    (hint : ∀ ix ∈ graph.indices, ix < 2 ^ 32)
    (h : addIsoline graph isolines value = some out) :
    ∃ cs, crossings graph value graph.indices = some cs ∧
      out.coords.length = isolines.coords.length + (cs.map edgeOf).dedup.length ∧
      (cs.map edgeOf).dedup.length ≤
        2 * ((trianglesOf graph.indices).filter (crossedTriangle graph value)).length := by
  rw [addIsoline_eq_crossings] at h
  cases hcs : crossings graph value graph.indices with
  | none =>
    rw [hcs] at h
    exact Option.noConfusion h
  | some cs =>
    rw [hcs] at h
    simp only [Option.map_some', Option.some.injEq] at h
    have hrange : ∀ c ∈ cs, (0 ≤ c.idx0 ∧ c.idx0 < 2 ^ 32) ∧ (0 ≤ c.idx1 ∧ c.idx1 < 2 ^ 32) := by
      intro c hc
      obtain ⟨i0, i1, i2, s, hs, hcs'⟩ := mem_crossings graph value graph.indices cs hcs c hc
      obtain ⟨pa, pb, -, -, ha, hb, -⟩ := segment_point_lerp graph value i0 i1 i2 s hs c hcs'
      have hm := crossings_indices graph value graph.indices cs hcs c hc
      exact ⟨⟨nonneg_of_readAt _ _ _ ha, hint _ hm.1⟩, ⟨nonneg_of_readAt _ _ _ hb, hint _ hm.2⟩⟩
    have hcard : (cs.map (fun c => edgeKey c.idx0 c.idx1)).toFinset.card =
        (cs.map edgeOf).toFinset.card :=
      card_map_eq_of_iff _ _ cs (fun x hx y hy =>
        edgeKey_eq_iff_edgeOf_eq x y (hrange x hx).1 (hrange x hx).2 (hrange y hy).1
          (hrange y hy).2)
    refine ⟨cs, rfl, ?_, ?_⟩
    · rw [← h, foldl_coords_card, ← List.card_toFinset, ← hcard]
      simp
    · rw [← List.card_toFinset, ← crossings_length graph value graph.indices cs hcs]
      exact le_trans (List.toFinset_card_le _) (le_of_eq (List.length_map _ _))

/-- Witness for C16: the quad with values `(1, 0, 1, 1)` at level `1/2` (four
calls of `add` on three distinct edges, three points). -/
theorem points_per_distinct_edge_witness :
    ∃ cs, crossings (quadGraph 1 0 1 1) (1 / 2) (quadGraph 1 0 1 1).indices = some cs ∧
      ([⟨49 / 100, 51 / 100, 1 / 2⟩, ⟨0, 51 / 100, 1 / 2⟩, ⟨49 / 100, 1, 1 / 2⟩] :
          List Vec3).length =
        emptyMesh.coords.length + (cs.map edgeOf).dedup.length ∧
      (cs.map edgeOf).dedup.length ≤
        2 * ((trianglesOf (quadGraph 1 0 1 1).indices).filter
          (crossedTriangle (quadGraph 1 0 1 1) (1 / 2))).length :=
  points_per_distinct_edge (quadGraph 1 0 1 1) emptyMesh _ (1 / 2) (by decide)
    addIsoline_quad_shared

/-! ## Field evaluator: the values written -/

/-- The value that `updateGraph` assigns to a vertex at position `p`. -/
theorem updateVertex_eq (sinF cosF : ℚ → ℚ) (t : ℚ) (graph : GraphData) (i : Nat) (p : Vec2)
    (hp : graph.coords[i]? = some p) (hiv : i < graph.values.length) :
    updateVertex sinF cosF t graph i =
      some ⟨graph.coords, graph.values.set i (sinF (p.x + 3 * t) + cosF (p.y + t)),
        graph.indices⟩ := by
  simp [updateVertex, hp, hiv]

/-- After the loop over the index list `is`, entry `j` of `values` is the
recomputed field value if `j` was visited and the old entry otherwise. -/
theorem updateLoop_values (sinF cosF : ℚ → ℚ) (t : ℚ) (is : List Nat) (graph g : GraphData)
    (h : updateLoop sinF cosF t is graph = some g) (j : Nat) :
    g.values[j]? =
      if j ∈ is then
        (graph.coords[j]?).map (fun p => sinF (p.x + 3 * t) + cosF (p.y + t))
      else graph.values[j]? := by
  induction is generalizing graph with
  | nil =>
    simp only [updateLoop, Option.some.injEq] at h
    simp [h]
  | cons i is ih =>
    rw [updateLoop] at h
    cases h1 : updateVertex sinF cosF t graph i with
    | none =>
      rw [h1] at h
      exact Option.noConfusion h
    | some g1 =>
      rw [h1] at h
      have hp : ∃ p, graph.coords[i]? = some p ∧ i < graph.values.length := by
        unfold updateVertex at h1
        cases hc : graph.coords[i]? with
        | none => simp [hc] at h1
        | some p =>
          refine ⟨p, rfl, ?_⟩
          by_contra hn
          simp [hc, hn] at h1
      obtain ⟨p, hp, hiv⟩ := hp
      rw [updateVertex_eq sinF cosF t graph i p hp hiv, Option.some.injEq] at h1
      have := ih g1 h
      rw [this, ← h1]
      simp only [List.mem_cons]
      by_cases hj : j ∈ is
      · simp [hj]
      · by_cases e : j = i
        · subst e
          simp [hj, hp, hiv]
        · have e' : i ≠ j := fun x => e x.symm
          simp [hj, e, List.getElem?_set_ne e']

/-- C21: on a grid with one value per vertex `updateGraph` at time `t` returns
the grid whose value at every vertex `i` is `sin(x_i + 3t) + cos(y_i + t)`; the
result is a function of the positions and `t` only, so two grids with equal
`coords` and different prior values have equal values afterwards. -/
theorem updateGraph_recomputes (sinF cosF : ℚ → ℚ) (t : ℚ) (graph : GraphData)
    (hlen : graph.values.length = graph.coords.length) :
    (∃ g, updateGraph sinF cosF t graph = some g ∧
      g.values = graph.coords.map (fun p => sinF (p.x + 3 * t) + cosF (p.y + t))) ∧
    ∀ other : GraphData, other.coords = graph.coords →
      other.values.length = other.coords.length →
      ∃ g g', updateGraph sinF cosF t graph = some g ∧
        updateGraph sinF cosF t other = some g' ∧ g.values = g'.values := by
  have key : ∀ gr : GraphData, gr.values.length = gr.coords.length →
      ∃ g, updateGraph sinF cosF t gr = some g ∧
        g.values = gr.coords.map (fun p => sinF (p.x + 3 * t) + cosF (p.y + t)) := by
    intro gr hl
    obtain ⟨g, hg, -, -, hv⟩ := updateLoop_frame sinF cosF t (List.range gr.coords.length) gr
      (fun _ hi => List.mem_range.mp hi) (le_of_eq hl.symm)
    refine ⟨g, hg, List.ext_getElem? (fun j => ?_)⟩
    rw [updateLoop_values sinF cosF t _ gr g hg j, List.getElem?_map]
    by_cases hj : j < gr.coords.length
    · rw [if_pos (List.mem_range.mpr hj)]
    · rw [if_neg (fun hm => hj (List.mem_range.mp hm)),
        List.getElem?_eq_none (by omega), List.getElem?_eq_none (by omega)]
      rfl
  refine ⟨key graph hlen, ?_⟩
  intro other hco hol
  obtain ⟨g, hg, hv⟩ := key graph hlen
  obtain ⟨g', hg', hv'⟩ := key other hol
  exact ⟨g, g', hg, hg', by rw [hv, hv', hco]⟩

/-- Witness for C21: the single triangle, identity functions for `sin` and
`cos`, time 0. -/
theorem updateGraph_recomputes_witness :
    (∃ g, updateGraph (fun x => x) (fun x => x) 0 singleTriangle = some g ∧
      g.values = singleTriangle.coords.map (fun p => (p.x + 3 * 0) + (p.y + 0))) ∧
    ∀ other : GraphData, other.coords = singleTriangle.coords →
      other.values.length = other.coords.length →
      ∃ g g', updateGraph (fun x => x) (fun x => x) 0 singleTriangle = some g ∧
        updateGraph (fun x => x) (fun x => x) 0 other = some g' ∧ g.values = g'.values :=
  updateGraph_recomputes (fun x => x) (fun x => x) 0 singleTriangle rfl

/-! ## The level sequence of the accumulation loop -/

theorem levelList_succ (zmin zstep : ℚ) (k : Nat) :
    levelList zmin zstep (k + 1) = zmin :: levelList (zmin + zstep) zstep k := by
  simp only [levelList, List.range_succ_eq_map, List.map_cons, List.map_map]
  refine congrArg₂ _ (by simp) (List.map_congr_left (fun i _ => ?_))
  simp only [Function.comp, Nat.succ_eq_add_one, Nat.cast_add, Nat.cast_one]
  ring

/-- With enough fuel the loop makes exactly the calls of `accumulate` on the
first `k` levels, when these are the levels `≤ zmax`. -/
theorem isolinesLoop_eq_accumulate (graph : GraphData) (zmax zstep : ℚ) :
    ∀ (k : Nat) (value : ℚ) (isolines : IsolinesData) (fuel : Nat), k ≤ fuel →
      (∀ i : Nat, i < k → value + (i : ℚ) * zstep ≤ zmax) →
      zmax < value + (k : ℚ) * zstep →
      isolinesLoop graph zmax zstep fuel value isolines =
        loopResultOf (accumulate graph (levelList value zstep k) isolines) := by
  intro k
  induction k with
  | zero =>
    intro value isolines fuel _ _ hstop
    have hgt : ¬ value ≤ zmax := by
      simp only [Nat.cast_zero, zero_mul, add_zero] at hstop
      exact not_le.mpr hstop
    cases fuel <;> simp [isolinesLoop, hgt, levelList, accumulate, loopResultOf]
  | succ k ih =>
    intro value isolines fuel hfuel hle hstop
    have h0 : value ≤ zmax := by
      have := hle 0 (Nat.succ_pos k)
      simpa using this
    obtain ⟨f, rfl⟩ : ∃ f, fuel = f + 1 := ⟨fuel - 1, by omega⟩
    rw [isolinesLoop, if_pos h0, levelList_succ, accumulate]
    cases h1 : addIsoline graph isolines value with
    | none => rfl
    | some mid =>
      simp only [Option.some_bind]
      apply ih (value + zstep) mid f (by omega)
      · intro i hi
        have := hle (i + 1) (by omega)
        push_cast at this
        linarith
      · push_cast at hstop
        linarith

theorem levelCount_spec (zmin zmax zstep : ℚ) (hz : 0 < zstep) :
    (∀ i : Nat, i < levelCount zmin zmax zstep → zmin + (i : ℚ) * zstep ≤ zmax) ∧
    zmax < zmin + (levelCount zmin zmax zstep : ℚ) * zstep := by
  unfold levelCount
  by_cases h : zmin ≤ zmax
  · rw [if_pos h]
    have hq : 0 ≤ (zmax - zmin) / zstep := div_nonneg (by linarith) hz.le
    have hf : 0 ≤ ⌊(zmax - zmin) / zstep⌋ := Int.floor_nonneg.mpr hq
    have hcast : ((⌊(zmax - zmin) / zstep⌋.toNat : ℕ) : ℚ) = (⌊(zmax - zmin) / zstep⌋ : ℚ) := by
      rw [← Int.cast_natCast, Int.toNat_of_nonneg hf]
    constructor
    · intro i hi
      have hi' : (i : ℤ) ≤ ⌊(zmax - zmin) / zstep⌋ := by omega
      have : (i : ℚ) ≤ (zmax - zmin) / zstep := by
        have := Int.le_floor.mp hi'
        simpa using this
      have := (le_div_iff₀ hz).mp this
      linarith
    · push_cast
      rw [hcast]
      have := Int.lt_floor_add_one ((zmax - zmin) / zstep)
      have := (div_lt_iff₀ hz).mp this
      linarith
  · rw [if_neg h]
    constructor
    · intro i hi
      exact absurd hi (Nat.not_lt_zero i)
    · simp only [Nat.cast_zero, zero_mul, add_zero]
      exact not_le.mp h

/-- Accumulation is the offset concatenation of the standalone extractions. -/
theorem accumulate_eq_extractAll (graph : GraphData) (levels : List ℚ) (base : IsolinesData) :
    accumulate graph levels base =
      (extractAll graph levels).map (fun es => es.foldl appendMesh base) := by
  induction levels generalizing base with
  | nil => rfl
  | cons v vs ih =>
    rw [accumulate, extractAll, addIsoline_offset graph base v]
    cases addIsoline graph emptyMesh v with
    | none => rfl
    | some e =>
      simp only [Option.map_some', Option.some_bind]
      rw [ih]
      cases extractAll graph vs with
      | none => rfl
      | some es => rfl

theorem levelList_pairwise (zmin zstep : ℚ) (hz : 0 < zstep) (k : Nat) :
    (levelList zmin zstep k).Pairwise (fun a b => a < b) := by
  unfold levelList
  rw [List.pairwise_map]
  have : (List.range k).Pairwise (fun a b => a < b) := List.pairwise_lt_range k
  refine this.imp (fun {a b} hab => ?_)
  have : (a : ℚ) < (b : ℚ) := Nat.cast_lt.mpr hab
  nlinarith

/-- C22: for `zstep > 0` the accumulation loop terminates: with fuel for
`levelCount` iterations it makes exactly the calls of `addIsoline` for the
levels `zmin, zmin + zstep, zmin + 2 * zstep, ...` that are `≤ zmax`
(`⌊(zmax - zmin) / zstep⌋ + 1` levels when `zmax ≥ zmin`, none when
`zmax < zmin`), in ascending order, and the combined mesh is the offset
concatenation of the per-level outputs in that order. -/
theorem level_sequence (graph : GraphData) (zmin zmax zstep : ℚ) (hz : 0 < zstep) :
    (∀ fuel, levelCount zmin zmax zstep ≤ fuel →
      isolinesLoop graph zmax zstep fuel zmin emptyMesh =
        loopResultOf (accumulate graph
          (levelList zmin zstep (levelCount zmin zmax zstep)) emptyMesh)) ∧
    accumulate graph (levelList zmin zstep (levelCount zmin zmax zstep)) emptyMesh =
      (extractAll graph (levelList zmin zstep (levelCount zmin zmax zstep))).map
        (fun es => es.foldl appendMesh emptyMesh) ∧
    levelList zmin zstep (levelCount zmin zmax zstep) =
      (List.range (levelCount zmin zmax zstep)).map (fun (i : Nat) => zmin + (i : ℚ) * zstep) ∧
    (∀ v ∈ levelList zmin zstep (levelCount zmin zmax zstep), v ≤ zmax) ∧
    zmax < zmin + (levelCount zmin zmax zstep : ℚ) * zstep ∧
    (levelList zmin zstep (levelCount zmin zmax zstep)).Pairwise (fun a b => a < b) ∧
    (zmin ≤ zmax → ((levelList zmin zstep (levelCount zmin zmax zstep)).length : ℤ) =
      ⌊(zmax - zmin) / zstep⌋ + 1) ∧
    (zmax < zmin → levelList zmin zstep (levelCount zmin zmax zstep) = []) := by
  have hspec := levelCount_spec zmin zmax zstep hz
  refine ⟨?_, accumulate_eq_extractAll graph _ emptyMesh, rfl, ?_, hspec.2,
    levelList_pairwise zmin zstep hz _, ?_, ?_⟩
  · intro fuel hfuel
    exact isolinesLoop_eq_accumulate graph zmax zstep _ zmin emptyMesh fuel hfuel hspec.1 hspec.2
  · intro v hv
    simp only [levelList, List.mem_map, List.mem_range] at hv
    obtain ⟨i, hi, rfl⟩ := hv
    exact hspec.1 i hi
  · intro h
    have hf : 0 ≤ ⌊(zmax - zmin) / zstep⌋ :=
      Int.floor_nonneg.mpr (div_nonneg (by linarith) hz.le)
    simp only [levelList, List.length_map, List.length_range, levelCount, if_pos h]
    push_cast
    rw [Int.toNat_of_nonneg hf]
  · intro h
    simp [levelList, levelCount, not_le.mpr h]

/-- Witness for C22: the levels of the application, `zmin = -3`, `zmax = 3`,
`zstep = 1/4`, on the single triangle. -/
theorem level_sequence_witness :
    (∀ fuel, levelCount (-3) 3 (1 / 4) ≤ fuel →
      isolinesLoop singleTriangle 3 (1 / 4) fuel (-3) emptyMesh =
        loopResultOf (accumulate singleTriangle
          (levelList (-3) (1 / 4) (levelCount (-3) 3 (1 / 4))) emptyMesh)) ∧
    accumulate singleTriangle (levelList (-3) (1 / 4) (levelCount (-3) 3 (1 / 4))) emptyMesh =
      (extractAll singleTriangle (levelList (-3) (1 / 4) (levelCount (-3) 3 (1 / 4)))).map
        (fun es => es.foldl appendMesh emptyMesh) ∧
    levelList (-3) (1 / 4) (levelCount (-3) 3 (1 / 4)) =
      (List.range (levelCount (-3) 3 (1 / 4))).map
        (fun (i : Nat) => (-3 : ℚ) + (i : ℚ) * (1 / 4)) ∧
    (∀ v ∈ levelList (-3) (1 / 4) (levelCount (-3) 3 (1 / 4)), v ≤ 3) ∧
    (3 : ℚ) < -3 + (levelCount (-3) 3 (1 / 4) : ℚ) * (1 / 4) ∧
    (levelList (-3) (1 / 4) (levelCount (-3) 3 (1 / 4))).Pairwise (fun a b => a < b) ∧
    ((-3 : ℚ) ≤ 3 → ((levelList (-3) (1 / 4) (levelCount (-3) 3 (1 / 4))).length : ℤ) =
      ⌊((3 : ℚ) - -3) / (1 / 4)⌋ + 1) ∧
    ((3 : ℚ) < -3 → levelList (-3) (1 / 4) (levelCount (-3) 3 (1 / 4)) = []) :=
  level_sequence singleTriangle (-3) 3 (1 / 4) (by norm_num)

/-! ## Isoline extractor: interpolation safety, keys and geometry -/

/-- C23: on every branch that computes a crossing (remapped mask 1, 2 or 4,
reached from the masks 1, 2, 4 and, by the xor-7 remap, 6, 5, 3) the two
shifted endpoint values of each interpolated edge lie on opposite sides of
`isoValue`, so each of the six denominators is non-zero. -/
theorem division_safe (t0 t1 t2 value : ℚ)
    (hc : ¬ (classify t0 t1 t2 value = 0 ∨ classify t0 t1 t2 value = 7)) :
    (remap (classify t0 t1 t2 value) = 1 →
      ¬ (t0 > value ↔ t1 > value) ∧ ¬ (t0 > value ↔ t2 > value) ∧
      t0 - t1 ≠ 0 ∧ t0 - t2 ≠ 0) ∧
    (remap (classify t0 t1 t2 value) ≠ 1 → remap (classify t0 t1 t2 value) = 2 →
      ¬ (t1 > value ↔ t0 > value) ∧ ¬ (t1 > value ↔ t2 > value) ∧
      t1 - t0 ≠ 0 ∧ t1 - t2 ≠ 0) ∧
    (remap (classify t0 t1 t2 value) ≠ 1 → remap (classify t0 t1 t2 value) ≠ 2 →
      remap (classify t0 t1 t2 value) = 4 ∧
      ¬ (t2 > value ↔ t1 > value) ∧ ¬ (t2 > value ↔ t0 > value) ∧
      t2 - t1 ≠ 0 ∧ t2 - t0 ≠ 0) := by
  have hne : ∀ a b : ℚ, ¬ (a > value ↔ b > value) → a - b ≠ 0 :=
    fun a b h => sub_ne_zero.mpr (ne_of_not_iff_gt h)
  rw [classify_eq] at hc ⊢
  by_cases h0 : t0 > value <;> by_cases h1 : t1 > value <;> by_cases h2 : t2 > value <;>
    simp only [h0, h1, h2, if_true, if_false] at hc ⊢ <;>
    norm_num [remap_one, remap_two, remap_three, remap_four, remap_five, remap_six] at hc ⊢ <;>
    refine ⟨?_, ?_⟩ <;> apply hne <;> simp [h0, h1, h2]

/-- Instance of `division_safe` at the shifted values `(-99/100, 101/100,
-99/100)` and level `0`: mask `2`, branch of vertex 1. -/
theorem division_safe_witness :
    ¬ (classify (-99 / 100) (101 / 100) (-99 / 100) 0 = 0 ∨
        classify (-99 / 100) (101 / 100) (-99 / 100) 0 = 7) ∧
    (remap (classify (-99 / 100) (101 / 100) (-99 / 100) 0) ≠ 1 →
      remap (classify (-99 / 100) (101 / 100) (-99 / 100) 0) = 2 →
      ¬ ((101 / 100 : ℚ) > 0 ↔ (-99 / 100 : ℚ) > 0) ∧
      ¬ ((101 / 100 : ℚ) > 0 ↔ (-99 / 100 : ℚ) > 0) ∧
      (101 / 100 : ℚ) - (-99 / 100) ≠ 0 ∧ (101 / 100 : ℚ) - (-99 / 100) ≠ 0) :=
  have hc : ¬ (classify (-99 / 100) (101 / 100) (-99 / 100) 0 = 0 ∨
      classify (-99 / 100) (101 / 100) (-99 / 100) 0 = 7) := by
    rw [classify_eq]
    norm_num
  ⟨hc, (division_safe (-99 / 100) (101 / 100) (-99 / 100) 0 hc).2.1⟩

/-- The packed key for indices in `[0, 2^32)` written with shift and or. -/
theorem pack_eq_shift_or (lo hi : Nat) (hhi : hi < 2 ^ 32) :
    (lo <<< 32) ||| hi = lo * 2 ^ 32 + hi := by
  rw [Nat.shiftLeft_eq, Nat.mul_comm, ← Nat.mul_add_lt_is_or hhi]

/-- C24: for vertex indices below `2^32` the key built by `add` is
`(min(a,b) << 32) | max(a,b)`, it does not depend on the order of the two
indices, and two keys are equal exactly when the unordered pairs are. -/
theorem edgeKey_canonical (a b c d : Int)
    (ha : 0 ≤ a ∧ a < 2 ^ 32) (hb : 0 ≤ b ∧ b < 2 ^ 32)
    (hc : 0 ≤ c ∧ c < 2 ^ 32) (hd : 0 ≤ d ∧ d < 2 ^ 32) :
    edgeKey a b = ((min a b).toNat <<< 32) ||| (max a b).toNat ∧
    edgeKey a b < 2 ^ 64 ∧
    edgeKey a b = edgeKey b a ∧
    (edgeKey a b = edgeKey c d ↔ (a = c ∧ b = d) ∨ (a = d ∧ b = c)) := by
  have hmax : (max a b).toNat < 2 ^ 32 := by
    have := max_lt ha.2 hb.2
    omega
  have hmin : (min a b).toNat < 2 ^ 32 := by
    have := min_le_left a b
    omega
  refine ⟨?_, ?_, edgeKey_comm a b, ?_⟩
  · rw [pack_eq_shift_or _ _ hmax]
    exact edgeKey_eq_pack a b ha.1 ha.2 hb.1 hb.2
  · rw [edgeKey_eq_pack a b ha.1 ha.2 hb.1 hb.2]
    omega
  · have h := edgeKey_eq_iff_edgeOf_eq ⟨⟨0, 0, 0⟩, a, b⟩ ⟨⟨0, 0, 0⟩, c, d⟩ ha hb hc hd
    simp only [edgeOf, Prod.mk.injEq] at h
    rw [h]
    constructor
    · rintro ⟨h1, h2⟩
      rcases le_total a b with hab | hab <;> rcases le_total c d with hcd | hcd
      · rw [min_eq_left hab, min_eq_left hcd] at h1
        rw [max_eq_right hab, max_eq_right hcd] at h2
        exact Or.inl ⟨h1, h2⟩
      · rw [min_eq_left hab, min_eq_right hcd] at h1
        rw [max_eq_right hab, max_eq_left hcd] at h2
        exact Or.inr ⟨h1, h2⟩
      · rw [min_eq_right hab, min_eq_left hcd] at h1
        rw [max_eq_left hab, max_eq_right hcd] at h2
        exact Or.inr ⟨h2, h1⟩
      · rw [min_eq_right hab, min_eq_right hcd] at h1
        rw [max_eq_left hab, max_eq_left hcd] at h2
        exact Or.inl ⟨h2, h1⟩
    · rintro (⟨h1, h2⟩ | ⟨h1, h2⟩)
      · rw [h1, h2]
        exact ⟨rfl, rfl⟩
      · rw [h1, h2]
        exact ⟨min_comm d c, max_comm d c⟩

/-- Instance of `edgeKey_canonical` at the edges `{1, 2}` and `{2, 1}`. -/
theorem edgeKey_canonical_witness :
    edgeKey 1 2 = ((min (1 : Int) 2).toNat <<< 32) ||| (max (1 : Int) 2).toNat ∧
    edgeKey 1 2 < 2 ^ 64 ∧
    edgeKey 1 2 = edgeKey 2 1 ∧
    (edgeKey 1 2 = edgeKey 2 1 ↔ ((1 : Int) = 2 ∧ (2 : Int) = 1) ∨ ((1 : Int) = 1 ∧ (2 : Int) = 2)) :=
  edgeKey_canonical 1 2 2 1 (by decide) (by decide) (by decide) (by decide)

/-! ### The geometry of the crossing points -/

/-- The point of every call of one loop iteration is the lerp of the two
endpoints named in the call, whose shifted values lie on opposite sides of
the level. -/
theorem segment_point_sides (graph : GraphData) (value : ℚ) (i0 i1 i2 : Int)
    (s : List Crossing) (h : segment graph value i0 i1 i2 = some s) :
    ∀ c ∈ s, ∃ pa pb va vb,
      readAt graph.coords c.idx0 = some pa ∧ readAt graph.coords c.idx1 = some pb ∧
      readAt graph.values c.idx0 = some va ∧ readAt graph.values c.idx1 = some vb ∧
      ¬ (va + eps > value ↔ vb + eps > value) ∧
      c.point = mix (vec3 pa (va + eps)) (vec3 pb (vb + eps))
        ((value - (va + eps)) / ((vb + eps) - (va + eps))) := by
  obtain ⟨p0, p1, p2, v0, v1, v2, hp0, hp1, hp2, hv0, hv1, hv2, hs⟩ :=
    (segment_eq_some graph value i0 i1 i2 s).mp h
  intro c hc
  rcases segmentCalls_cases p0 p1 p2 (v0 + eps) (v1 + eps) (v2 + eps) value i0 i1 i2 with
    ⟨-, -, e⟩ | ⟨n1, n2, e⟩ | ⟨n1, n2, e⟩ | ⟨n1, n2, e⟩
  · rw [hs, e] at hc
    exact absurd hc (List.not_mem_nil c)
  · rw [hs, e] at hc
    simp only [List.mem_cons, List.mem_singleton, List.not_mem_nil, or_false] at hc
    rcases hc with rfl | rfl
    · exact ⟨p0, p1, v0, v1, hp0, hp1, hv0, hv1, n1,
        mix_fraction _ _ _ _ _ (ne_of_not_iff_gt n1)⟩
    · exact ⟨p0, p2, v0, v2, hp0, hp2, hv0, hv2, n2,
        mix_fraction _ _ _ _ _ (ne_of_not_iff_gt n2)⟩
  · rw [hs, e] at hc
    simp only [List.mem_cons, List.mem_singleton, List.not_mem_nil, or_false] at hc
    rcases hc with rfl | rfl
    · exact ⟨p0, p1, v0, v1, hp0, hp1, hv0, hv1, fun e => n1 e.symm,
        mix_swap _ _ _⟩
    · exact ⟨p1, p2, v1, v2, hp1, hp2, hv1, hv2, n2,
        mix_fraction _ _ _ _ _ (ne_of_not_iff_gt n2)⟩
  · rw [hs, e] at hc
    simp only [List.mem_cons, List.mem_singleton, List.not_mem_nil, or_false] at hc
    rcases hc with rfl | rfl
    · exact ⟨p1, p2, v1, v2, hp1, hp2, hv1, hv2, fun e => n1 e.symm,
        mix_swap _ _ _⟩
    · exact ⟨p0, p2, v0, v2, hp0, hp2, hv0, hv2, fun e => n2 e.symm,
        mix_swap _ _ _⟩

/-- The point of every call of `add` is the lerp of the two endpoints named in
the call, whose shifted values lie on opposite sides of the level. -/
theorem crossings_point_sides (graph : GraphData) (value : ℚ) (tris : List Int)
    (cs : List Crossing) (h : crossings graph value tris = some cs) :
    ∀ c ∈ cs, ∃ pa pb va vb,
      readAt graph.coords c.idx0 = some pa ∧ readAt graph.coords c.idx1 = some pb ∧
      readAt graph.values c.idx0 = some va ∧ readAt graph.values c.idx1 = some vb ∧
      ¬ (va + eps > value ↔ vb + eps > value) ∧
      c.point = mix (vec3 pa (va + eps)) (vec3 pb (vb + eps))
        ((value - (va + eps)) / ((vb + eps) - (va + eps))) := by
  intro c hc
  obtain ⟨i0, i1, i2, s, hs, hcs⟩ := mem_crossings graph value tris cs h c hc
  exact segment_point_sides graph value i0 i1 i2 s hs c hcs

/-- Every point appended by the calls of `add` is the point of one of them. -/
theorem foldl_coords_points (cs : List Crossing) (st : AddState) :
    ∃ l, (cs.foldl addCrossing st).isolines.coords = st.isolines.coords ++ l ∧
      ∀ p ∈ l, ∃ c ∈ cs, c.point = p := by
  induction cs generalizing st with
  | nil => exact ⟨[], by simp, by simp⟩
  | cons c cs ih =>
    obtain ⟨l, hl, hp⟩ := ih (addCrossing st c)
    rw [List.foldl_cons, hl]
    cases h : st.idxs.lookup (edgeKey c.idx0 c.idx1) with
    | none =>
      rw [addCrossing, add_of_lookup_none c.point h]
      refine ⟨c.point :: l, by simp, ?_⟩
      intro p hpl
      rcases List.mem_cons.mp hpl with e | hpl
      · exact ⟨c, List.mem_cons_self _ _, e.symm⟩
      · obtain ⟨d, hd, e⟩ := hp p hpl
        exact ⟨d, List.mem_cons_of_mem _ hd, e⟩
    | some k =>
      rw [addCrossing, add_of_lookup_some c.point h]
      refine ⟨l, rfl, ?_⟩
      intro p hpl
      obtain ⟨d, hd, e⟩ := hp p hpl
      exact ⟨d, List.mem_cons_of_mem _ hd, e⟩

/-- The lerp with the fraction `(value - ta) / (tb - ta)` has third coordinate
`value`. -/
theorem mix_level (pa pb : Vec2) (ta tb value : ℚ) (h : ta ≠ tb) :
    (mix (vec3 pa ta) (vec3 pb tb) ((value - ta) / (tb - ta))).z = value := by
  have h2 : tb - ta ≠ 0 := sub_ne_zero.mpr (Ne.symm h)
  simp only [mix, vec3]
  field_simp
  ring

/-- C25: every point appended by `addIsoline` for the level `value` has third
coordinate exactly `value`; its xy-position is the lerp of the positions of
two triangle vertices with a fraction `f` at which the lerp of their raw
stored values equals `value - eps` (and therefore not `value`), and `f` is the
only such fraction. -/
theorem emitted_point_level (graph : GraphData) (isolines out : IsolinesData) (value : ℚ)
    (h : addIsoline graph isolines value = some out) :
    ∃ new, out.coords = isolines.coords ++ new ∧
      ∀ p ∈ new, p.z = value ∧
        ∃ a b pa pb va vb f, a ∈ graph.indices ∧ b ∈ graph.indices ∧
          readAt graph.coords a = some pa ∧ readAt graph.coords b = some pb ∧
          readAt graph.values a = some va ∧ readAt graph.values b = some vb ∧
          p.x = pa.x * (1 - f) + pb.x * f ∧ p.y = pa.y * (1 - f) + pb.y * f ∧
          va * (1 - f) + vb * f = value - eps ∧ va * (1 - f) + vb * f ≠ value ∧
          ∀ g : ℚ, va * (1 - g) + vb * g = value - eps → g = f := by
  rw [addIsoline_eq_crossings] at h
  cases hcs : crossings graph value graph.indices with
  | none =>
    rw [hcs] at h
    exact Option.noConfusion h
  | some cs =>
    rw [hcs] at h
    simp only [Option.map_some', Option.some.injEq] at h
    obtain ⟨new, hnew, hp⟩ := foldl_coords_points cs ⟨[], isolines⟩
    refine ⟨new, by rw [← h]; exact hnew, ?_⟩
    intro p hpn
    obtain ⟨c, hc, e⟩ := hp p hpn
    obtain ⟨pa, pb, va, vb, hpa, hpb, hva, hvb, hside, hpt⟩ :=
      crossings_point_sides graph value graph.indices cs hcs c hc
    have hne : va + eps ≠ vb + eps := ne_of_not_iff_gt hside
    have hd : vb + eps - (va + eps) ≠ 0 := sub_ne_zero.mpr (Ne.symm hne)
    have hd' : vb - va ≠ 0 := by
      intro e0
      apply hd
      linarith
    have hin := crossings_indices graph value graph.indices cs hcs c hc
    have hraw : va * (1 - (value - (va + eps)) / (vb + eps - (va + eps))) +
        vb * ((value - (va + eps)) / (vb + eps - (va + eps))) = value - eps := by
      field_simp
      ring
    refine ⟨?_, c.idx0, c.idx1, pa, pb, va, vb,
      (value - (va + eps)) / ((vb + eps) - (va + eps)), hin.1, hin.2, hpa, hpb, hva, hvb,
      ?_, ?_, hraw, ?_, ?_⟩
    · rw [← e, hpt]
      exact mix_level pa pb _ _ value hne
    · rw [← e, hpt]
      rfl
    · rw [← e, hpt]
      rfl
    · rw [hraw]
      simp [eps]
    · intro g hg
      have h1 : (g - (value - (va + eps)) / (vb + eps - (va + eps))) * (vb - va) = 0 := by
        have := hg.trans hraw.symm
        linarith
      rcases mul_eq_zero.mp h1 with h2 | h2
      · linarith
      · exact absurd h2 hd'

/-- Instance of `emitted_point_level` on the single triangle at level `0`. -/
theorem emitted_point_level_witness :
    addIsoline singleTriangle emptyMesh 0 =
      some ⟨[⟨99 / 200, 0, 0⟩, ⟨99 / 200, 101 / 200, 0⟩], [0, 1]⟩ ∧
    ∃ new, [(⟨99 / 200, 0, 0⟩ : Vec3), ⟨99 / 200, 101 / 200, 0⟩] = emptyMesh.coords ++ new ∧
      ∀ p ∈ new, p.z = 0 ∧
        ∃ a b pa pb va vb f, a ∈ singleTriangle.indices ∧ b ∈ singleTriangle.indices ∧
          readAt singleTriangle.coords a = some pa ∧ readAt singleTriangle.coords b = some pb ∧
          readAt singleTriangle.values a = some va ∧ readAt singleTriangle.values b = some vb ∧
          p.x = pa.x * (1 - f) + pb.x * f ∧ p.y = pa.y * (1 - f) + pb.y * f ∧
          va * (1 - f) + vb * f = 0 - eps ∧ va * (1 - f) + vb * f ≠ 0 ∧
          ∀ g : ℚ, va * (1 - g) + vb * g = 0 - eps → g = f :=
  ⟨addIsoline_singleTriangle,
    emitted_point_level singleTriangle emptyMesh _ 0 addIsoline_singleTriangle⟩

/-- The lerp between two values on opposite sides of the level, written as a
convex combination whose weight `w` belongs to the endpoint above the level:
`0 ≤ w < 1`. -/
theorem lerp_weight (ta tb value : ℚ) (hside : ¬ (ta > value ↔ tb > value)) :
    (ta > value ∧ ¬ tb > value ∧
      0 ≤ 1 - (value - ta) / (tb - ta) ∧ 1 - (value - ta) / (tb - ta) < 1) ∨
    (tb > value ∧ ¬ ta > value ∧
      0 ≤ (value - ta) / (tb - ta) ∧ (value - ta) / (tb - ta) < 1) := by
  by_cases ha : ta > value
  · have hb : ¬ tb > value := fun hb => hside ⟨fun _ => hb, fun _ => ha⟩
    have hd : tb - ta < 0 := by linarith [not_lt.mp hb]
    refine Or.inl ⟨ha, hb, ?_, ?_⟩
    · rw [sub_nonneg, div_le_one_of_neg hd]
      linarith [not_lt.mp hb]
    · have : 0 < (value - ta) / (tb - ta) := div_pos_of_neg_of_neg (by linarith) hd
      linarith
  · have hb : tb > value := by
      by_contra hb
      exact hside ⟨fun h => absurd h ha, fun h => absurd h hb⟩
    have hd : 0 < tb - ta := by linarith [not_lt.mp ha]
    refine Or.inr ⟨hb, ha, ?_, ?_⟩
    · exact div_nonneg (by linarith [not_lt.mp ha]) (le_of_lt hd)
    · rw [div_lt_one hd]
      linarith

/-- C27: every point passed to `add` (on each of the six interpolation
branches), and hence every point appended by `addIsoline`, is a convex
combination `w * P_above + (1 - w) * P_below` of the positions of the two
endpoints of its edge, where the endpoint `above` has `value_k + eps >
isoValue`, the endpoint `below` does not, and `0 ≤ w < 1`. -/
theorem crossing_on_edge (graph : GraphData) (isolines out : IsolinesData) (value : ℚ)
    (h : addIsoline graph isolines value = some out) :
    ∃ cs new, crossings graph value graph.indices = some cs ∧
      out.coords = isolines.coords ++ new ∧ (∀ p ∈ new, ∃ c ∈ cs, c.point = p) ∧
      ∀ c ∈ cs, ∃ above below pAbove pBelow vAbove vBelow w,
        ((above = c.idx0 ∧ below = c.idx1) ∨ (above = c.idx1 ∧ below = c.idx0)) ∧
        readAt graph.coords above = some pAbove ∧ readAt graph.coords below = some pBelow ∧
        readAt graph.values above = some vAbove ∧ readAt graph.values below = some vBelow ∧
        vAbove + eps > value ∧ ¬ (vBelow + eps > value) ∧
        0 ≤ w ∧ w < 1 ∧ 0 ≤ 1 - w ∧ 1 - w ≤ 1 ∧ w + (1 - w) = 1 ∧
        c.point.x = w * pAbove.x + (1 - w) * pBelow.x ∧
        c.point.y = w * pAbove.y + (1 - w) * pBelow.y := by
  rw [addIsoline_eq_crossings] at h
  cases hcs : crossings graph value graph.indices with
  | none =>
    rw [hcs] at h
    exact Option.noConfusion h
  | some cs =>
    rw [hcs] at h
    simp only [Option.map_some', Option.some.injEq] at h
    obtain ⟨new, hnew, hp⟩ := foldl_coords_points cs ⟨[], isolines⟩
    refine ⟨cs, new, rfl, by rw [← h]; exact hnew, hp, ?_⟩
    intro c hc
    obtain ⟨pa, pb, va, vb, hpa, hpb, hva, hvb, hside, hpt⟩ :=
      crossings_point_sides graph value graph.indices cs hcs c hc
    rcases lerp_weight (va + eps) (vb + eps) value hside with ⟨ha, hb, w0, w1⟩ | ⟨hb, ha, w0, w1⟩
    · refine ⟨c.idx0, c.idx1, pa, pb, va, vb, 1 - (value - (va + eps)) / (vb + eps - (va + eps)),
        Or.inl ⟨rfl, rfl⟩, hpa, hpb, hva, hvb, ha, hb, w0, w1, by linarith, by linarith,
        by ring, ?_, ?_⟩
      · rw [hpt]
        simp only [mix, vec3]
        ring
      · rw [hpt]
        simp only [mix, vec3]
        ring
    · refine ⟨c.idx1, c.idx0, pb, pa, vb, va, (value - (va + eps)) / (vb + eps - (va + eps)),
        Or.inr ⟨rfl, rfl⟩, hpb, hpa, hvb, hva, hb, ha, w0, w1, by linarith, by linarith,
        by ring, ?_, ?_⟩
      · rw [hpt]
        simp only [mix, vec3]
        ring
      · rw [hpt]
        simp only [mix, vec3]
        ring

/-- Instance of `crossing_on_edge` on the single triangle at level `0`. -/
theorem crossing_on_edge_witness :
    addIsoline singleTriangle emptyMesh 0 =
      some ⟨[⟨99 / 200, 0, 0⟩, ⟨99 / 200, 101 / 200, 0⟩], [0, 1]⟩ ∧
    ∃ cs new, crossings singleTriangle 0 singleTriangle.indices = some cs ∧
      [(⟨99 / 200, 0, 0⟩ : Vec3), ⟨99 / 200, 101 / 200, 0⟩] = emptyMesh.coords ++ new ∧
      (∀ p ∈ new, ∃ c ∈ cs, c.point = p) ∧
      ∀ c ∈ cs, ∃ above below pAbove pBelow vAbove vBelow w,
        ((above = c.idx0 ∧ below = c.idx1) ∨ (above = c.idx1 ∧ below = c.idx0)) ∧
        readAt singleTriangle.coords above = some pAbove ∧
        readAt singleTriangle.coords below = some pBelow ∧
        readAt singleTriangle.values above = some vAbove ∧
        readAt singleTriangle.values below = some vBelow ∧
        vAbove + eps > 0 ∧ ¬ (vBelow + eps > 0) ∧
        0 ≤ w ∧ w < 1 ∧ 0 ≤ 1 - w ∧ 1 - w ≤ 1 ∧ w + (1 - w) = 1 ∧
        c.point.x = w * pAbove.x + (1 - w) * pBelow.x ∧
        c.point.y = w * pAbove.y + (1 - w) * pBelow.y :=
  ⟨addIsoline_singleTriangle,
    crossing_on_edge singleTriangle emptyMesh _ 0 addIsoline_singleTriangle⟩

/-! ### Symmetry of the interpolation and the stored points -/

/-- The two source forms of the interpolation on one edge, taken from either
endpoint, give the same point. -/
theorem mix_symmetric (x y : Vec3) (ta tb value : ℚ) (h : ta ≠ tb) :
    mix x y (1 - (value - tb) / (ta - tb)) = mix y x (1 - (value - ta) / (tb - ta)) := by
  rw [mix_swap, fraction_eq tb ta value (Ne.symm h)]

/-- Two calls of `add` that name the same undirected edge pass the same
point. -/
theorem crossings_sameEdge_point (graph : GraphData) (value : ℚ) (tris : List Int)
    (cs : List Crossing) (h : crossings graph value tris = some cs) :
    ∀ c ∈ cs, ∀ d ∈ cs, sameEdge c d → c.point = d.point := by
  intro c hc d hd hsame
  obtain ⟨pa, pb, va, vb, hpa, hpb, hva, hvb, hside, hpt⟩ :=
    crossings_point_sides graph value tris cs h c hc
  obtain ⟨qa, qb, wa, wb, hqa, hqb, hwa, hwb, -, hqt⟩ :=
    crossings_point_sides graph value tris cs h d hd
  have hne : va + eps ≠ vb + eps := ne_of_not_iff_gt hside
  rcases hsame with ⟨e0, e1⟩ | ⟨e0, e1⟩
  · rw [e0, hqa] at hpa
    rw [e1, hqb] at hpb
    rw [e0, hwa] at hva
    rw [e1, hwb] at hvb
    cases hpa
    cases hpb
    cases hva
    cases hvb
    rw [hpt, hqt]
  · rw [e0, hqb] at hpa
    rw [e1, hqa] at hpb
    rw [e0, hwb] at hva
    rw [e1, hwa] at hvb
    cases hpa
    cases hpb
    cases hva
    cases hvb
    rw [hpt, hqt, ← mix_swap, fraction_eq _ _ value (Ne.symm hne)]

/-- Equal ordered pairs `(min, max)` name the same undirected edge. -/
theorem sameEdge_of_edgeOf_eq (c d : Crossing) (h : edgeOf c = edgeOf d) : sameEdge c d := by
  simp only [edgeOf, Prod.mk.injEq] at h
  obtain ⟨h1, h2⟩ := h
  unfold sameEdge
  rcases le_total c.idx0 c.idx1 with hab | hab <;> rcases le_total d.idx0 d.idx1 with hcd | hcd
  · rw [min_eq_left hab, min_eq_left hcd] at h1
    rw [max_eq_right hab, max_eq_right hcd] at h2
    exact Or.inl ⟨h1, h2⟩
  · rw [min_eq_left hab, min_eq_right hcd] at h1
    rw [max_eq_right hab, max_eq_left hcd] at h2
    exact Or.inr ⟨h1, h2⟩
  · rw [min_eq_right hab, min_eq_left hcd] at h1
    rw [max_eq_left hab, max_eq_right hcd] at h2
    exact Or.inr ⟨h2, h1⟩
  · rw [min_eq_right hab, min_eq_right hcd] at h1
    rw [max_eq_left hab, max_eq_left hcd] at h2
    exact Or.inl ⟨h2, h1⟩

theorem readAt_append_left {α : Type} (l l' : List α) (i : Int) (a : α)
    (h : readAt l i = some a) : readAt (l ++ l') i = some a := by
  unfold readAt at h ⊢
  split_ifs at h ⊢ with h0
  have hlt : i.toNat < l.length := by
    by_contra hc
    rw [List.getElem?_eq_none (by omega)] at h
    exact Option.noConfusion h
  rw [List.getElem?_append_left hlt]
  exact h

theorem readAt_append_length {α : Type} (l : List α) (a : α) :
    readAt (l ++ [a]) (l.length : Int) = some a := by
  unfold readAt
  rw [if_pos (Int.ofNat_nonneg _)]
  simp

/-- Every call of `add` leaves its key in the map, bound to the index that the
call pushed. -/
theorem foldl_getElem?_lookup (cs : List Crossing) (st : AddState) (k : Nat) (c : Crossing)
    (hc : cs[k]? = some c) :
    ∃ v, (cs.foldl addCrossing st).idxs.lookup (edgeKey c.idx0 c.idx1) = some v ∧
      (cs.foldl addCrossing st).isolines.indices[st.isolines.indices.length + k]? = some v := by
  induction cs generalizing st k with
  | nil => simp at hc
  | cons d cs ih =>
    rw [List.foldl_cons]
    obtain ⟨v, hv, hi⟩ := add_pushes_lookup st d.point d.idx0 d.idx1
    cases k with
    | zero =>
      simp only [List.getElem?_cons_zero, Option.some.injEq] at hc
      subst hc
      refine ⟨v, foldl_keeps_lookup cs _ _ v hv, ?_⟩
      obtain ⟨l, -, hl⟩ := foldl_indices cs (addCrossing st d)
      rw [hl, addCrossing, hi, List.append_assoc, Nat.add_zero,
        List.getElem?_append_right (le_refl _), Nat.sub_self]
      simp
    | succ k =>
      simp only [List.getElem?_cons_succ] at hc
      obtain ⟨w, hw, hwi⟩ := ih (addCrossing st d) k hc
      refine ⟨w, hw, ?_⟩
      have e : (addCrossing st d).isolines.indices.length = st.isolines.indices.length + 1 := by
        rw [addCrossing, hi]
        simp
      rw [e] at hwi
      rw [← hwi]
      congr 1
      omega

/-- If calls with equal keys pass equal points, the point stored under the
index of a key is the point of every call with that key. -/
theorem foldl_stored_points (all : List Crossing)
    (hall : ∀ c ∈ all, ∀ d ∈ all,
      edgeKey c.idx0 c.idx1 = edgeKey d.idx0 d.idx1 → c.point = d.point)
    (cs : List Crossing) (hsub : ∀ c ∈ cs, c ∈ all) (st : AddState)
    (hinv : ∀ key v, st.idxs.lookup key = some v → ∀ c ∈ all,
      edgeKey c.idx0 c.idx1 = key → readAt st.isolines.coords v = some c.point) :
    ∀ key v, (cs.foldl addCrossing st).idxs.lookup key = some v → ∀ c ∈ all,
      edgeKey c.idx0 c.idx1 = key →
        readAt (cs.foldl addCrossing st).isolines.coords v = some c.point := by
  induction cs generalizing st with
  | nil => exact hinv
  | cons d cs ih =>
    rw [List.foldl_cons]
    apply ih (fun c hc => hsub c (List.mem_cons_of_mem _ hc))
    have hd : d ∈ all := hsub d (List.mem_cons_self _ _)
    cases hl : st.idxs.lookup (edgeKey d.idx0 d.idx1) with
    | some k =>
      rw [addCrossing, add_of_lookup_some d.point hl]
      exact hinv
    | none =>
      rw [addCrossing, add_of_lookup_none d.point hl]
      intro key v hv c hc hkey
      simp only [List.lookup_cons] at hv
      simp only
      by_cases e : key = edgeKey d.idx0 d.idx1
      · rw [e, beq_self_eq_true] at hv
        simp only [Option.some.injEq] at hv
        rw [← hv, hall c hc d hd (hkey.trans e)]
        exact readAt_append_length _ _
      · rw [beq_false_of_ne e] at hv
        exact readAt_append_left _ _ _ _ (hinv key v hv c hc hkey)

theorem readAt_bounds {α : Type} (l : List α) (i : Int) (a : α) (h : readAt l i = some a) :
    0 ≤ i ∧ i < (l.length : Int) := by
  unfold readAt at h
  split_ifs at h with h0
  refine ⟨h0, ?_⟩
  by_contra hc
  rw [List.getElem?_eq_none (by omega)] at h
  exact Option.noConfusion h

/-- The endpoints named by the calls of `add` are vertex indices. -/
theorem crossings_idx_bounds (graph : GraphData) (value : ℚ) (tris : List Int)
    (cs : List Crossing) (h : crossings graph value tris = some cs) :
    ∀ c ∈ cs, (0 ≤ c.idx0 ∧ c.idx0 < (graph.coords.length : Int)) ∧
      (0 ≤ c.idx1 ∧ c.idx1 < (graph.coords.length : Int)) := by
  intro c hc
  obtain ⟨pa, pb, va, vb, hpa, hpb, -, -, -, -⟩ :=
    crossings_point_sides graph value tris cs h c hc
  exact ⟨readAt_bounds _ _ _ hpa, readAt_bounds _ _ _ hpb⟩

/-- On a grid with at most `2^32` vertices, calls with equal keys name the
same undirected edge. -/
theorem crossings_key_sameEdge (graph : GraphData) (value : ℚ) (tris : List Int)
    (cs : List Crossing) (h : crossings graph value tris = some cs)
    (hsize : graph.coords.length ≤ 2 ^ 32) :
    ∀ c ∈ cs, ∀ d ∈ cs, edgeKey c.idx0 c.idx1 = edgeKey d.idx0 d.idx1 → sameEdge c d := by
  intro c hc d hd hkey
  have hs : (graph.coords.length : Int) ≤ 2 ^ 32 := by exact_mod_cast hsize
  obtain ⟨c0, c1⟩ := crossings_idx_bounds graph value tris cs h c hc
  obtain ⟨d0, d1⟩ := crossings_idx_bounds graph value tris cs h d hd
  exact sameEdge_of_edgeOf_eq c d
    ((edgeKey_eq_iff_edgeOf_eq c d ⟨c0.1, by omega⟩ ⟨c1.1, by omega⟩ ⟨d0.1, by omega⟩
      ⟨d1.1, by omega⟩).mp hkey)

/-- C26: the two source forms of the interpolation on an edge whose shifted
values straddle the level, taken with either endpoint as the distinguished
vertex, give the same point; so all calls of `add` on the same undirected edge
pass the same point, and (the grid having at most `2^32` vertices) the point
stored under the index written by a call is the point computed by that very
call, whichever call on the edge came first. -/
theorem interpolation_symmetric (graph : GraphData) (isolines out : IsolinesData) (value : ℚ)
    (h : addIsoline graph isolines value = some out)
    (hsize : graph.coords.length ≤ 2 ^ 32) :
    (∀ (pa pb : Vec2) (ta tb : ℚ), ¬ (ta > value ↔ tb > value) →
      mix (vec3 pa ta) (vec3 pb tb) (1 - (value - tb) / (ta - tb)) =
        mix (vec3 pb tb) (vec3 pa ta) (1 - (value - ta) / (tb - ta))) ∧
    ∃ cs, crossings graph value graph.indices = some cs ∧
      (∀ c ∈ cs, ∀ d ∈ cs, sameEdge c d → c.point = d.point) ∧
      ∀ (k : Nat) (c : Crossing), cs[k]? = some c →
        ∃ v, out.indices[isolines.indices.length + k]? = some v ∧
          readAt out.coords v = some c.point := by
  refine ⟨fun pa pb ta tb hs => mix_symmetric _ _ ta tb value (ne_of_not_iff_gt hs), ?_⟩
  rw [addIsoline_eq_crossings] at h
  cases hcs : crossings graph value graph.indices with
  | none =>
    rw [hcs] at h
    exact Option.noConfusion h
  | some cs =>
    rw [hcs] at h
    simp only [Option.map_some', Option.some.injEq] at h
    have hpt := crossings_sameEdge_point graph value graph.indices cs hcs
    refine ⟨cs, rfl, hpt, ?_⟩
    intro k c hc
    have hmem : c ∈ cs := by
      obtain ⟨hk, e⟩ := List.getElem?_eq_some.mp hc
      rw [← e]
      exact List.getElem_mem hk
    obtain ⟨v, hv, hi⟩ := foldl_getElem?_lookup cs ⟨[], isolines⟩ k c hc
    refine ⟨v, by rw [← h]; exact hi, ?_⟩
    rw [← h]
    exact foldl_stored_points cs
      (fun c hc d hd hkey => hpt c hc d hd
        (crossings_key_sameEdge graph value graph.indices cs hcs hsize c hc d hd hkey))
      cs (fun c hc => hc) ⟨[], isolines⟩ (fun key v hl => by simp at hl) _ v hv c hmem rfl

/-- The calls of `add` on the quad with values `(0, 1, 0, 1)` at level `1/2`:
the diagonal `{1, 2}` is named by the first call (triangle `(0,2,1)`, where
vertex 1 is the distinguished vertex) and by the fourth call (triangle
`(2,3,1)`, where vertex 2 is the distinguished vertex). -/
theorem crossings_quad_both_ends :
    crossings (quadGraph 0 1 0 1) (1 / 2) (quadGraph 0 1 0 1).indices =
      some [⟨⟨51 / 100, 49 / 100, 1 / 2⟩, 2, 1⟩, ⟨⟨0, 49 / 100, 1 / 2⟩, 0, 1⟩,
            ⟨⟨1, 49 / 100, 1 / 2⟩, 2, 3⟩, ⟨⟨51 / 100, 49 / 100, 1 / 2⟩, 2, 1⟩] := by
  simp [crossings, segment, readAt, quadGraph, segmentCalls, classify_eq, eps, mix, vec3]
  norm_num [remap_one, remap_two, remap_three, remap_four, remap_five, remap_six]

theorem addIsoline_quad_both_ends :
    addIsoline (quadGraph 0 1 0 1) emptyMesh (1 / 2) =
      some ⟨[⟨51 / 100, 49 / 100, 1 / 2⟩, ⟨0, 49 / 100, 1 / 2⟩, ⟨1, 49 / 100, 1 / 2⟩],
            [0, 1, 2, 0]⟩ := by
  rw [addIsoline_eq_crossings, crossings_quad_both_ends, Option.map_some',
    fold_four_shared_first _ _ _ _ 2 1 0 1 2 3 2 1 (by decide) (by decide) (by decide) rfl]

/-- Instance of `interpolation_symmetric`: the quad with values `(0, 1, 0, 1)`
at level `1/2`. The diagonal `{1, 2}` is processed twice, from the triangle
`(0,2,1)` with vertex 1 as the distinguished vertex (shifted values `101/100`
at `(0,1)` and `1/100` at `(1,0)`) and from the triangle `(2,3,1)` with vertex 2
as the distinguished vertex; both give the point `(51/100, 49/100, 1/2)`. -/
theorem interpolation_symmetric_witness :
    (addIsoline (quadGraph 0 1 0 1) emptyMesh (1 / 2) =
        some ⟨[⟨51 / 100, 49 / 100, 1 / 2⟩, ⟨0, 49 / 100, 1 / 2⟩, ⟨1, 49 / 100, 1 / 2⟩],
              [0, 1, 2, 0]⟩ ∧
      (quadGraph 0 1 0 1).coords.length ≤ 2 ^ 32 ∧
      crossings (quadGraph 0 1 0 1) (1 / 2) (quadGraph 0 1 0 1).indices =
        some [⟨⟨51 / 100, 49 / 100, 1 / 2⟩, 2, 1⟩, ⟨⟨0, 49 / 100, 1 / 2⟩, 0, 1⟩,
              ⟨⟨1, 49 / 100, 1 / 2⟩, 2, 3⟩, ⟨⟨51 / 100, 49 / 100, 1 / 2⟩, 2, 1⟩] ∧
      mix (vec3 ⟨0, 1⟩ (101 / 100)) (vec3 ⟨1, 0⟩ (1 / 100))
          (1 - (1 / 2 - 1 / 100) / (101 / 100 - 1 / 100)) = ⟨51 / 100, 49 / 100, 1 / 2⟩ ∧
      mix (vec3 ⟨1, 0⟩ (1 / 100)) (vec3 ⟨0, 1⟩ (101 / 100))
          (1 - (1 / 2 - 101 / 100) / (1 / 100 - 101 / 100)) = ⟨51 / 100, 49 / 100, 1 / 2⟩) ∧
    (∀ (pa pb : Vec2) (ta tb : ℚ), ¬ (ta > 1 / 2 ↔ tb > 1 / 2) →
      mix (vec3 pa ta) (vec3 pb tb) (1 - (1 / 2 - tb) / (ta - tb)) =
        mix (vec3 pb tb) (vec3 pa ta) (1 - (1 / 2 - ta) / (tb - ta))) ∧
    ∃ cs, crossings (quadGraph 0 1 0 1) (1 / 2) (quadGraph 0 1 0 1).indices = some cs ∧
      (∀ c ∈ cs, ∀ d ∈ cs, sameEdge c d → c.point = d.point) ∧
      ∀ (k : Nat) (c : Crossing), cs[k]? = some c →
        ∃ v, [(0 : Int), 1, 2, 0][emptyMesh.indices.length + k]? = some v ∧
          readAt [(⟨51 / 100, 49 / 100, 1 / 2⟩ : Vec3), ⟨0, 49 / 100, 1 / 2⟩,
            ⟨1, 49 / 100, 1 / 2⟩] v = some c.point :=
  ⟨⟨addIsoline_quad_both_ends, by decide, crossings_quad_both_ends,
      by simp only [mix, vec3]; norm_num, by simp only [mix, vec3]; norm_num⟩,
    interpolation_symmetric (quadGraph 0 1 0 1) emptyMesh _ (1 / 2) addIsoline_quad_both_ends
      (by decide)⟩

/-! ### Reads stay in range on generated grids -/

/-- Every grid built by the loops of `generateGraph` is well formed. -/
theorem buildGraph_wellFormed (xmin ymin step : ℚ) (n m : Int) :
    WellFormed (buildGraph xmin ymin step n m) := by
  refine ⟨?_, ?_, ?_⟩
  · rw [buildGraph_indices_length,
      show ∀ a b : ℕ, a * (b * 6) = (2 * (a * b)) * 3 from fun a b => by ring]
    exact Nat.mul_mod_left _ _
  · rw [buildGraph_values_length, buildGraph_coords_length]
  · intro ix hix
    rw [buildGraph_eq] at hix
    simp only [List.mem_flatMap, List.mem_range] at hix
    obtain ⟨i, hi, j, hj, hmem⟩ := hix
    have hb := cell_index_bounds n m i j hi hj ix hmem
    refine ⟨hb.1, ?_⟩
    rw [buildGraph_coords_length]
    push_cast
    rw [Int.toNat_of_nonneg (by omega), Int.toNat_of_nonneg (by omega)]
    exact hb.2

/-- A call of `updateGraph` on a well-formed grid succeeds and leaves it well
formed. -/
theorem updateGraph_wellFormed (sinF cosF : ℚ → ℚ) (t : ℚ) (graph : GraphData)
    (h : WellFormed graph) :
    ∃ g, updateGraph sinF cosF t graph = some g ∧ WellFormed g ∧
      g.coords = graph.coords ∧ g.indices = graph.indices := by
  obtain ⟨g, hg, hc, hi, hv⟩ := updateLoop_frame sinF cosF t (List.range graph.coords.length)
    graph (fun _ hi => List.mem_range.mp hi) (le_of_eq h.2.1.symm)
  refine ⟨g, hg, ⟨?_, ?_, ?_⟩, hc, hi⟩
  · rw [hi]
    exact h.1
  · rw [hv, hc]
    exact h.2.1
  · rw [hi, hc]
    exact h.2.2

theorem updateFrames_wellFormed (sinF cosF : ℚ → ℚ) (ts : List ℚ) (graph : GraphData)
    (h : WellFormed graph) :
    ∃ g, updateFrames sinF cosF ts graph = some g ∧ WellFormed g ∧
      g.coords = graph.coords ∧ g.indices = graph.indices := by
  induction ts generalizing graph with
  | nil => exact ⟨graph, rfl, h, rfl, rfl⟩
  | cons t ts ih =>
    obtain ⟨g1, h1, w1, c1, i1⟩ := updateGraph_wellFormed sinF cosF t graph h
    obtain ⟨g2, h2, w2, c2, i2⟩ := ih g1 w1
    refine ⟨g2, ?_, w2, c2.trans c1, i2.trans i1⟩
    rw [updateFrames, h1]
    exact h2

/-- On a grid with one value per vertex the six reads of a loop iteration
with valid vertex indices succeed. -/
theorem segment_some (graph : GraphData) (value : ℚ) (i0 i1 i2 : Int)
    (hlen : graph.values.length = graph.coords.length)
    (h0 : 0 ≤ i0 ∧ i0 < (graph.coords.length : Int))
    (h1 : 0 ≤ i1 ∧ i1 < (graph.coords.length : Int))
    (h2 : 0 ≤ i2 ∧ i2 < (graph.coords.length : Int)) :
    ∃ s, segment graph value i0 i1 i2 = some s := by
  obtain ⟨p0, hp0, -⟩ := readAt_of_lt graph.coords i0 h0.1 h0.2
  obtain ⟨p1, hp1, -⟩ := readAt_of_lt graph.coords i1 h1.1 h1.2
  obtain ⟨p2, hp2, -⟩ := readAt_of_lt graph.coords i2 h2.1 h2.2
  obtain ⟨v0, hv0, -⟩ := readAt_of_lt graph.values i0 h0.1 (by rw [hlen]; exact h0.2)
  obtain ⟨v1, hv1, -⟩ := readAt_of_lt graph.values i1 h1.1 (by rw [hlen]; exact h1.2)
  obtain ⟨v2, hv2, -⟩ := readAt_of_lt graph.values i2 h2.1 (by rw [hlen]; exact h2.2)
  exact ⟨_, (segment_eq_some graph value i0 i1 i2 _).mpr
    ⟨p0, p1, p2, v0, v1, v2, hp0, hp1, hp2, hv0, hv1, hv2, rfl⟩⟩

theorem crossings_some (graph : GraphData) (value : ℚ)
    (hlen : graph.values.length = graph.coords.length) :
    ∀ tris : List Int, tris.length % 3 = 0 →
      (∀ ix ∈ tris, 0 ≤ ix ∧ ix < (graph.coords.length : Int)) →
      ∃ cs, crossings graph value tris = some cs
  | [], _, _ => ⟨[], rfl⟩
  | [_], h, _ => by simp at h
  | [_, _], h, _ => by simp at h
  | i0 :: i1 :: i2 :: rest, h, hr => by
    obtain ⟨s, hs⟩ := segment_some graph value i0 i1 i2 hlen
      (hr i0 (by simp)) (hr i1 (by simp)) (hr i2 (by simp))
    obtain ⟨r, hrest⟩ := crossings_some graph value hlen rest
      (by simp only [List.length_cons] at h; omega)
      (fun ix hix => hr ix (by simp [hix]))
    exact ⟨s ++ r, by rw [crossings, hs, hrest]; rfl⟩

/-- On a well-formed grid `addIsoline` never reads out of range. -/
theorem addIsoline_some (graph : GraphData) (h : WellFormed graph) (isolines : IsolinesData)
    (value : ℚ) : ∃ out, addIsoline graph isolines value = some out := by
  obtain ⟨cs, hcs⟩ := crossings_some graph value h.2.1 graph.indices h.1 h.2.2
  exact ⟨_, by rw [addIsoline_eq_crossings, hcs]; rfl⟩

/-- C28: every grid returned by `generateGraph`, also after any number of
`updateGraph` calls (which all succeed), has an index list of whole triangles,
one value per vertex and only valid vertex indices; every entry of the index
list can be read from `coords` and from `values`, and `addIsoline` returns a
result for every mesh and every iso-value. -/
theorem generated_grid_in_range (xmin xmax ymin ymax step : ℚ) (g : GraphData)
    (hgen : generateGraph xmin xmax ymin ymax step = some g)
    (sinF cosF : ℚ → ℚ) (ts : List ℚ) :
    ∃ g', updateFrames sinF cosF ts g = some g' ∧
      g'.indices.length % 3 = 0 ∧ g'.values.length = g'.coords.length ∧
      (∀ ix ∈ g'.indices, 0 ≤ ix ∧ ix < (g'.coords.length : Int) ∧
        ∃ p v, readAt g'.coords ix = some p ∧ readAt g'.values ix = some v) ∧
      ∀ (isolines : IsolinesData) (value : ℚ),
        ∃ out, addIsoline g' isolines value = some out := by
  have hwf : WellFormed g := by
    obtain ⟨n, m, -, -, e⟩ := (generateGraph_eq_some_iff _ _ _ _ _ _).mp hgen
    rw [e]
    exact buildGraph_wellFormed _ _ _ _ _
  obtain ⟨g', hg', w, -, -⟩ := updateFrames_wellFormed sinF cosF ts g hwf
  refine ⟨g', hg', w.1, w.2.1, ?_, fun isolines value => addIsoline_some g' w isolines value⟩
  intro ix hix
  obtain ⟨h0, h1⟩ := w.2.2 ix hix
  obtain ⟨p, hp, -⟩ := readAt_of_lt g'.coords ix h0 h1
  obtain ⟨v, hv, -⟩ := readAt_of_lt g'.values ix h0 (by rw [w.2.1]; exact h1)
  exact ⟨h0, h1, p, v, hp, hv⟩

/-- Instance of `generated_grid_in_range`: the grid over `[0,2] x [0,2]` with
step 1, updated at the clock values `0` and `1`. -/
theorem generated_grid_in_range_witness :
    generateGraph 0 2 0 2 1 =
      some ⟨[⟨0, 0⟩, ⟨0, 1⟩, ⟨1, 0⟩, ⟨1, 1⟩], [0, 0, 0, 0], [0, 2, 1, 2, 3, 1]⟩ ∧
    ∃ g', updateFrames (fun x => x) (fun x => x) [0, 1]
        ⟨[⟨0, 0⟩, ⟨0, 1⟩, ⟨1, 0⟩, ⟨1, 1⟩], [0, 0, 0, 0], [0, 2, 1, 2, 3, 1]⟩ = some g' ∧
      g'.indices.length % 3 = 0 ∧ g'.values.length = g'.coords.length ∧
      (∀ ix ∈ g'.indices, 0 ≤ ix ∧ ix < (g'.coords.length : Int) ∧
        ∃ p v, readAt g'.coords ix = some p ∧ readAt g'.values ix = some v) ∧
      ∀ (isolines : IsolinesData) (value : ℚ),
        ∃ out, addIsoline g' isolines value = some out :=
  ⟨generateGraph_unit_quad,
    generated_grid_in_range 0 2 0 2 1 _ generateGraph_unit_quad (fun x => x) (fun x => x) [0, 1]⟩

/-! ### The map is one-to-one -/

theorem add_mapOneToOne (base : Nat) (st : AddState) (p : Vec3) (a b : Int)
    (h : MapOneToOne base st) : MapOneToOne base (add st p a b) := by
  obtain ⟨j0, j1, j2, j3⟩ := h
  cases hl : st.idxs.lookup (edgeKey a b) with
  | some k =>
    rw [add_of_lookup_some p hl]
    exact ⟨j0, j1, j2, j3⟩
  | none =>
    rw [add_of_lookup_none p hl]
    have hlen : ((st.isolines.coords ++ [p]).length : Int) = st.isolines.coords.length + 1 := by
      simp
    have hlk : ∀ key v, List.lookup key ((edgeKey a b, (st.isolines.coords.length : Int)) ::
        st.idxs) = some v →
        (key = edgeKey a b ∧ v = st.isolines.coords.length) ∨
        (key ≠ edgeKey a b ∧ st.idxs.lookup key = some v) := by
      intro key v hv
      by_cases e : key = edgeKey a b
      · rw [e, lookup_cons_self] at hv
        exact Or.inl ⟨e, (Option.some.inj hv).symm⟩
      · rw [lookup_cons_of_ne e] at hv
        exact Or.inr ⟨e, hv⟩
    refine ⟨by simp; omega, ?_, ?_, ?_⟩
    · intro key v hv
      simp only
      rw [hlen]
      rcases hlk key v hv with ⟨-, e⟩ | ⟨-, hv'⟩
      · rw [e]
        omega
      · have := j1 key v hv'
        omega
    · intro key key' v hv hv'
      rcases hlk key v hv with ⟨e1, f1⟩ | ⟨e1, f1⟩ <;>
        rcases hlk key' v hv' with ⟨e2, f2⟩ | ⟨e2, f2⟩
      · rw [e1, e2]
      · have := j1 key' v f2
        omega
      · have := j1 key v f1
        omega
      · exact j2 key key' v f1 f2
    · intro v hv0 hv1
      simp only at hv1
      rw [hlen] at hv1
      by_cases e : v = st.isolines.coords.length
      · exact ⟨edgeKey a b, by rw [e, lookup_cons_self]⟩
      · obtain ⟨key, hkey⟩ := j3 v hv0 (by omega)
        have hne : key ≠ edgeKey a b := by
          intro e'
          rw [e', hl] at hkey
          exact Option.noConfusion hkey
        exact ⟨key, by rw [lookup_cons_of_ne hne]; exact hkey⟩

theorem foldl_mapOneToOne (base : Nat) (cs : List Crossing) (st : AddState)
    (h : MapOneToOne base st) : MapOneToOne base (cs.foldl addCrossing st) := by
  induction cs generalizing st with
  | nil => exact h
  | cons c cs ih =>
    rw [List.foldl_cons]
    exact ih _ (add_mapOneToOne base st c.point c.idx0 c.idx1 h)

theorem mapOneToOne_init (isolines : IsolinesData) :
    MapOneToOne isolines.coords.length ⟨[], isolines⟩ := by
  refine ⟨le_refl _, ?_, ?_, ?_⟩
  · intro key v hv
    simp at hv
  · intro key key' v hv
    simp at hv
  · intro v h0 h1
    simp only at h1
    omega

/-- Every key in the map was there at the start or is the key of a call. -/
theorem foldl_lookup_mem (cs : List Crossing) (st : AddState) (key : Nat) (v : Int)
    (h : (cs.foldl addCrossing st).idxs.lookup key = some v) :
    st.idxs.lookup key = some v ∨ ∃ c ∈ cs, edgeKey c.idx0 c.idx1 = key := by
  induction cs generalizing st with
  | nil => exact Or.inl h
  | cons c cs ih =>
    rw [List.foldl_cons] at h
    rcases ih _ h with h1 | ⟨d, hd, e⟩
    · by_cases e : key = edgeKey c.idx0 c.idx1
      · exact Or.inr ⟨c, List.mem_cons_self _ _, e.symm⟩
      · left
        cases hl : st.idxs.lookup (edgeKey c.idx0 c.idx1) with
        | some k =>
          rw [addCrossing, add_of_lookup_some c.point hl] at h1
          exact h1
        | none =>
          rw [addCrossing, add_of_lookup_none c.point hl] at h1
          simp only at h1
          rw [lookup_cons_of_ne e] at h1
          exact h1
    · exact Or.inr ⟨d, List.mem_cons_of_mem _ hd, e⟩

/-! ### No degenerate segments -/

/-- The two calls of `add` made for a crossed triangle and the edges they
name. -/
theorem segment_two_calls (graph : GraphData) (value : ℚ) (i0 i1 i2 : Int) (s : List Crossing)
    (h : segment graph value i0 i1 i2 = some s)
    (hcross : crossedTriangle graph value (i0, i1, i2) = true) :
    ∃ c1 c2, s = [c1, c2] ∧
      ((c1.idx0 = i0 ∧ c1.idx1 = i1 ∧ c2.idx0 = i0 ∧ c2.idx1 = i2) ∨
       (c1.idx0 = i0 ∧ c1.idx1 = i1 ∧ c2.idx0 = i1 ∧ c2.idx1 = i2) ∨
       (c1.idx0 = i1 ∧ c1.idx1 = i2 ∧ c2.idx0 = i0 ∧ c2.idx1 = i2)) := by
  have hlen := segment_length graph value i0 i1 i2 s h
  rw [if_pos hcross] at hlen
  obtain ⟨p0, p1, p2, v0, v1, v2, -, -, -, -, -, -, hs⟩ :=
    (segment_eq_some graph value i0 i1 i2 s).mp h
  rcases segmentCalls_cases p0 p1 p2 (v0 + eps) (v1 + eps) (v2 + eps) value i0 i1 i2 with
    ⟨-, -, e⟩ | ⟨-, -, e⟩ | ⟨-, -, e⟩ | ⟨-, -, e⟩
  · rw [hs, e] at hlen
    simp at hlen
  · exact ⟨_, _, hs.trans e, Or.inl ⟨rfl, rfl, rfl, rfl⟩⟩
  · exact ⟨_, _, hs.trans e, Or.inr (Or.inl ⟨rfl, rfl, rfl, rfl⟩)⟩
  · exact ⟨_, _, hs.trans e, Or.inr (Or.inr ⟨rfl, rfl, rfl, rfl⟩)⟩

/-- The vertex indices of a triangle whose reads succeed are in range. -/
theorem segment_vertex_bounds (graph : GraphData) (value : ℚ) (i0 i1 i2 : Int)
    (s : List Crossing) (h : segment graph value i0 i1 i2 = some s) :
    (0 ≤ i0 ∧ i0 < (graph.coords.length : Int)) ∧ (0 ≤ i1 ∧ i1 < (graph.coords.length : Int)) ∧
      (0 ≤ i2 ∧ i2 < (graph.coords.length : Int)) := by
  obtain ⟨p0, p1, p2, v0, v1, v2, h0, h1, h2, -, -, -, -⟩ :=
    (segment_eq_some graph value i0 i1 i2 s).mp h
  exact ⟨readAt_bounds _ _ _ h0, readAt_bounds _ _ _ h1, readAt_bounds _ _ _ h2⟩

/-- Keys of 32-bit indices are equal only for the same undirected edge. -/
theorem sameEdge_of_edgeKey_eq (c d : Crossing)
    (hc0 : 0 ≤ c.idx0 ∧ c.idx0 < 2 ^ 32) (hc1 : 0 ≤ c.idx1 ∧ c.idx1 < 2 ^ 32)
    (hd0 : 0 ≤ d.idx0 ∧ d.idx0 < 2 ^ 32) (hd1 : 0 ≤ d.idx1 ∧ d.idx1 < 2 ^ 32)
    (h : edgeKey c.idx0 c.idx1 = edgeKey d.idx0 d.idx1) : sameEdge c d :=
  sameEdge_of_edgeOf_eq c d ((edgeKey_eq_iff_edgeOf_eq c d hc0 hc1 hd0 hd1).mp h)

/-- C29: in every state reached by the triangle loop of `addIsoline` (started
on any mesh, empty or not) the map sends distinct keys to distinct output
indices; and for a triangle with pairwise distinct vertex indices that is
classified as crossed, on a grid with at most `2^32` vertices, the loop
iteration appends exactly two indices and they are different. -/
theorem no_degenerate_segment (graph : GraphData) (isolines : IsolinesData) (value : ℚ)
    (pre : List Int) (st st' : AddState) (i0 i1 i2 : Int)
    (hsize : graph.coords.length ≤ 2 ^ 32)
    (hpre : triangleLoop graph value pre ⟨[], isolines⟩ = some st)
    (hdist : i0 ≠ i1 ∧ i1 ≠ i2 ∧ i0 ≠ i2)
    (htri : triangle graph value st i0 i1 i2 = some st')
    (hcross : crossedTriangle graph value (i0, i1, i2) = true) :
    (∀ key key' v, st'.idxs.lookup key = some v → st'.idxs.lookup key' = some v → key = key') ∧
    ∃ a b, st'.isolines.indices = st.isolines.indices ++ [a, b] ∧ a ≠ b := by
  have hs : (graph.coords.length : Int) ≤ 2 ^ 32 := by exact_mod_cast hsize
  have hinv : MapOneToOne isolines.coords.length st := by
    rw [triangleLoop_eq_crossings] at hpre
    cases hcs : crossings graph value pre with
    | none =>
      rw [hcs] at hpre
      exact Option.noConfusion hpre
    | some cs =>
      rw [hcs] at hpre
      simp only [Option.map_some', Option.some.injEq] at hpre
      rw [← hpre]
      exact foldl_mapOneToOne _ cs _ (mapOneToOne_init isolines)
  rw [triangle_eq_segment] at htri
  cases hseg : segment graph value i0 i1 i2 with
  | none =>
    rw [hseg] at htri
    exact Option.noConfusion htri
  | some s =>
    rw [hseg] at htri
    simp only [Option.map_some', Option.some.injEq] at htri
    have hinv' : MapOneToOne isolines.coords.length st' := by
      rw [← htri]
      exact foldl_mapOneToOne _ s _ hinv
    refine ⟨hinv'.2.2.1, ?_⟩
    obtain ⟨b0, b1, b2⟩ := segment_vertex_bounds graph value i0 i1 i2 s hseg
    obtain ⟨c1, c2, e, hedges⟩ := segment_two_calls graph value i0 i1 i2 s hseg hcross
    have hkey : edgeKey c1.idx0 c1.idx1 ≠ edgeKey c2.idx0 c2.idx1 := by
      intro hk
      rcases hedges with ⟨e1, e2, e3, e4⟩ | ⟨e1, e2, e3, e4⟩ | ⟨e1, e2, e3, e4⟩ <;>
        have hse := sameEdge_of_edgeKey_eq c1 c2 (by rw [e1]; constructor <;> omega)
          (by rw [e2]; constructor <;> omega) (by rw [e3]; constructor <;> omega)
          (by rw [e4]; constructor <;> omega) hk <;>
        rw [sameEdge, e1, e2, e3, e4] at hse <;>
        rcases hdist with ⟨d1, d2, d3⟩ <;>
        rcases hse with ⟨f1, f2⟩ | ⟨f1, f2⟩ <;>
        omega
    rw [e] at htri
    simp only [List.foldl_cons, List.foldl_nil, addCrossing] at htri
    obtain ⟨a, ha, hai⟩ := add_pushes_lookup st c1.point c1.idx0 c1.idx1
    obtain ⟨b, hb, hbi⟩ :=
      add_pushes_lookup (add st c1.point c1.idx0 c1.idx1) c2.point c2.idx0 c2.idx1
    have ha' := add_keeps_lookup (add st c1.point c1.idx0 c1.idx1) c2.point c2.idx0 c2.idx1
      _ a ha
    rw [htri] at hb hbi ha'
    refine ⟨a, b, by rw [hbi, hai]; simp, ?_⟩
    intro hab
    rw [← hab] at hb
    exact hkey (hinv'.2.2.1 _ _ a ha' hb)

/-- The loop iteration for the single triangle at level `0`, from the empty
state. -/
theorem triangle_singleTriangle :
    triangle singleTriangle 0 ⟨[], emptyMesh⟩ 0 1 2 =
      some ⟨[(4294967298, 1), (1, 0)],
        ⟨[⟨99 / 200, 0, 0⟩, ⟨99 / 200, 101 / 200, 0⟩], [0, 1]⟩⟩ := by
  rw [triangle_eq_segment, segment_singleTriangle]
  simp [addCrossing, add, edgeKey, toUnsigned, emptyMesh, List.lookup]

theorem crossedTriangle_singleTriangle :
    crossedTriangle singleTriangle 0 (0, 1, 2) = true := by
  simp [crossedTriangle, readAt, singleTriangle, classify_eq, eps]
  norm_num

/-- Instance of `no_degenerate_segment`: the single triangle at level `0`. -/
theorem no_degenerate_segment_witness :
    (singleTriangle.coords.length ≤ 2 ^ 32 ∧
      triangleLoop singleTriangle 0 [] ⟨[], emptyMesh⟩ = some ⟨[], emptyMesh⟩ ∧
      ((0 : Int) ≠ 1 ∧ (1 : Int) ≠ 2 ∧ (0 : Int) ≠ 2) ∧
      triangle singleTriangle 0 ⟨[], emptyMesh⟩ 0 1 2 =
        some ⟨[(4294967298, 1), (1, 0)],
          ⟨[⟨99 / 200, 0, 0⟩, ⟨99 / 200, 101 / 200, 0⟩], [0, 1]⟩⟩ ∧
      crossedTriangle singleTriangle 0 (0, 1, 2) = true) ∧
    (∀ key key' v, List.lookup key [((4294967298 : Nat), (1 : Int)), (1, 0)] = some v →
      List.lookup key' [((4294967298 : Nat), (1 : Int)), (1, 0)] = some v → key = key') ∧
    ∃ a b, [(0 : Int), 1] = emptyMesh.indices ++ [a, b] ∧ a ≠ b :=
  ⟨⟨by decide, rfl, by decide, triangle_singleTriangle, crossedTriangle_singleTriangle⟩,
    no_degenerate_segment singleTriangle emptyMesh 0 [] ⟨[], emptyMesh⟩ _ 0 1 2 (by decide) rfl
      (by decide) triangle_singleTriangle crossedTriangle_singleTriangle⟩

/-! ### How often an appended point is referenced -/

/-- The indices appended by the calls of `add` are the map entries of their
keys, in call order. -/
theorem foldl_indices_eq_map (cs : List Crossing) (st : AddState) :
    (cs.foldl addCrossing st).isolines.indices = st.isolines.indices ++
      cs.map (fun c =>
        ((cs.foldl addCrossing st).idxs.lookup (edgeKey c.idx0 c.idx1)).getD 0) := by
  obtain ⟨l, hl, hl'⟩ := foldl_indices cs st
  rw [hl']
  congr 1
  apply List.ext_getElem?
  intro k
  by_cases hk : k < cs.length
  · have hc : cs[k]? = some cs[k] := List.getElem?_eq_getElem hk
    obtain ⟨v, hv, hi⟩ := foldl_getElem?_lookup cs st k cs[k] hc
    rw [hl', List.getElem?_append_right (Nat.le_add_right _ _), Nat.add_sub_cancel_left] at hi
    rw [hi, List.getElem?_map, hc, Option.map_some', hv]
    rfl
  · rw [List.getElem?_eq_none (by omega), List.getElem?_eq_none (by simp; omega)]

/-- An appended point is referenced as often as there are calls of `add` with
the key of the call that appended it. -/
theorem foldl_count (cs : List Crossing) (isolines : IsolinesData) (v : Int)
    (hv0 : (isolines.coords.length : Int) ≤ v)
    (hv1 : v < ((cs.foldl addCrossing ⟨[], isolines⟩).isolines.coords.length : Int)) :
    ∃ c0 ∈ cs, ∀ l, (cs.foldl addCrossing ⟨[], isolines⟩).isolines.indices =
        isolines.indices ++ l →
      l.count v =
        cs.countP (fun c => decide (edgeKey c.idx0 c.idx1 = edgeKey c0.idx0 c0.idx1)) := by
  have hinv := foldl_mapOneToOne _ cs _ (mapOneToOne_init isolines)
  obtain ⟨key0, hkey0⟩ := hinv.2.2.2 v hv0 hv1
  have hmem : ∃ c ∈ cs, edgeKey c.idx0 c.idx1 = key0 := by
    rcases foldl_lookup_mem cs _ key0 v hkey0 with h | h
    · simp at h
    · exact h
  obtain ⟨c0, hc0, e0⟩ := hmem
  refine ⟨c0, hc0, ?_⟩
  intro l hl
  rw [foldl_indices_eq_map] at hl
  have hl2 := List.append_cancel_left hl
  rw [← hl2, List.count_eq_countP, List.countP_map]
  apply List.countP_congr
  intro c hc
  simp only [Function.comp_apply, beq_iff_eq, decide_eq_true_eq]
  obtain ⟨k, hk, ek⟩ := List.getElem_of_mem hc
  obtain ⟨w, hw, -⟩ := foldl_getElem?_lookup cs ⟨[], isolines⟩ k c
    (by rw [List.getElem?_eq_getElem hk, ek])
  rw [hw, Option.getD_some]
  constructor
  · intro e
    rw [e] at hw
    rw [e0]
    exact hinv.2.2.1 _ _ v hw hkey0
  · intro e
    rw [e, e0, hkey0] at hw
    exact (Option.some.inj hw).symm

/-- A loop iteration for a triangle with pairwise distinct vertices calls
`add` at most once per undirected edge, and only for edges of the triangle. -/
theorem segment_countP_edge (graph : GraphData) (value : ℚ) (i0 i1 i2 : Int)
    (s : List Crossing) (h : segment graph value i0 i1 i2 = some s)
    (hdist : i0 ≠ i1 ∧ i1 ≠ i2 ∧ i0 ≠ i2) (e : Int × Int) :
    s.countP (fun c => decide (edgeOf c = e)) ≤
      if e ∈ triangleEdges (i0, i1, i2) then 1 else 0 := by
  obtain ⟨p0, p1, p2, v0, v1, v2, -, -, -, -, -, -, hs⟩ :=
    (segment_eq_some graph value i0 i1 i2 s).mp h
  obtain ⟨a, b⟩ := e
  obtain ⟨d1, d2, d3⟩ := hdist
  rcases segmentCalls_cases p0 p1 p2 (v0 + eps) (v1 + eps) (v2 + eps) value i0 i1 i2 with
    ⟨-, -, e⟩ | ⟨-, -, e⟩ | ⟨-, -, e⟩ | ⟨-, -, e⟩ <;>
    rw [hs, e] <;>
    simp only [List.countP_cons, List.countP_nil, edgeOf, triangleEdges, List.mem_cons,
      List.mem_singleton, List.not_mem_nil, decide_eq_true_eq, or_false, Prod.mk.injEq] <;>
    split_ifs <;> omega

/-- The triangle loop over triangles with pairwise distinct vertices calls
`add` for an undirected edge at most once per triangle that has this edge. -/
theorem crossings_countP_edge (graph : GraphData) (value : ℚ) (e : Int × Int) :
    ∀ (tris : List Int) (cs : List Crossing), crossings graph value tris = some cs →
      (∀ t ∈ trianglesOf tris, t.1 ≠ t.2.1 ∧ t.2.1 ≠ t.2.2 ∧ t.1 ≠ t.2.2) →
      cs.countP (fun c => decide (edgeOf c = e)) ≤
        (trianglesOf tris).countP (fun t => decide (e ∈ triangleEdges t))
  | [], cs, h, _ => by
    simp only [crossings, Option.some.injEq] at h
    rw [← h]
    simp
  | [_], cs, h, _ => by simp [crossings] at h
  | [_, _], cs, h, _ => by simp [crossings] at h
  | i0 :: i1 :: i2 :: rest, cs, h, hd => by
    simp only [crossings, Option.bind_eq_some, Option.map_eq_some'] at h
    obtain ⟨s, hs, r, hr, e'⟩ := h
    have h1 := segment_countP_edge graph value i0 i1 i2 s hs
      (hd (i0, i1, i2) (by simp [trianglesOf])) e
    have h2 := crossings_countP_edge graph value e rest r hr
      (fun t ht => hd t (by simp [trianglesOf, ht]))
    rw [← e', List.countP_append, trianglesOf, List.countP_cons]
    by_cases hm : e ∈ triangleEdges (i0, i1, i2)
    · rw [if_pos hm] at h1
      simp only [hm, decide_True, if_true]
      omega
    · rw [if_neg hm] at h1
      simp only [hm, decide_False]
      omega

/-- In a list without duplicates a predicate that holds for at most one
element is counted at most once. -/
theorem countP_le_one_of_unique {α : Type} (p : α → Bool) (l : List α) (hn : l.Nodup)
    (h : ∀ x ∈ l, ∀ y ∈ l, p x = true → p y = true → x = y) : l.countP p ≤ 1 := by
  induction l with
  | nil => simp
  | cons x l ih =>
    rw [List.nodup_cons] at hn
    rw [List.countP_cons]
    by_cases hx : p x = true
    · have h0 : l.countP p = 0 := by
        rw [List.countP_eq_zero]
        intro y hy hpy
        have := h x (List.mem_cons_self _ _) y (List.mem_cons_of_mem _ hy) hx hpy
        rw [this] at hn
        exact hn.1 hy
      rw [h0, if_pos hx]
    · rw [if_neg hx]
      exact ih hn.2 (fun a ha b hb => h a (List.mem_cons_of_mem _ ha) b (List.mem_cons_of_mem _ hb))

theorem countP_flatMap_pair {α β : Type} (p : β → Bool) (f g : α → β) (l : List α) :
    (l.flatMap (fun a => [f a, g a])).countP p =
      l.countP (fun a => p (f a)) + l.countP (fun a => p (g a)) := by
  induction l with
  | nil => rfl
  | cons a l ih =>
    rw [List.flatMap_cons, List.countP_append, ih]
    simp only [List.countP_cons, List.countP_nil]
    omega

/-- A vertex index `i * m + j` with `0 ≤ j < m` determines `i` and `j`. -/
theorem grid_index_inj (m : Int) (i j i' j' : Nat) (hj : (j : Int) < m) (hj' : (j' : Int) < m)
    (h : (i : Int) * m + j = i' * m + j') : i = i' ∧ j = j' := by
  have hm : (0 : Int) ≤ m := by omega
  rcases lt_trichotomy i i' with hlt | heq | hgt
  · have h1 : ((i : Int) + 1) * m ≤ i' * m :=
      mul_le_mul_of_nonneg_right (by omega) hm
    have h2 : ((i : Int) + 1) * m = i * m + m := by ring
    omega
  · subst heq
    omega
  · have h1 : ((i' : Int) + 1) * m ≤ i * m :=
      mul_le_mul_of_nonneg_right (by omega) hm
    have h2 : ((i' : Int) + 1) * m = i' * m + m := by ring
    omega

/-- An undirected edge lies in the lower-left triangle of at most one cell. -/
theorem cell_edge_unique_lower (m : Int) (i j i' j' : Nat) (hj : (j : Int) + 2 ≤ m)
    (hj' : (j' : Int) + 2 ≤ m) (e : Int × Int)
    (h : e ∈ triangleEdges ((i : Int) * m + j, ((i : Int) + 1) * m + j, (i : Int) * m + j + 1))
    (h' : e ∈ triangleEdges
      ((i' : Int) * m + j', ((i' : Int) + 1) * m + j', (i' : Int) * m + j' + 1)) :
    i = i' ∧ j = j' := by
  obtain ⟨a, b⟩ := e
  have h2 : ((i : Int) + 1) * m = i * m + m := by ring
  have h2' : ((i' : Int) + 1) * m = i' * m + m := by ring
  simp only [triangleEdges, List.mem_cons, List.mem_singleton, List.not_mem_nil, or_false,
    Prod.mk.injEq, h2, h2'] at h h'
  by_cases hm : m = 2
  · subst hm
    omega
  · exact grid_index_inj m i j i' j' (by omega) (by omega) (by omega)

/-- An undirected edge lies in the upper-right triangle of at most one cell. -/
theorem cell_edge_unique_upper (m : Int) (i j i' j' : Nat) (hj : (j : Int) + 2 ≤ m)
    (hj' : (j' : Int) + 2 ≤ m) (e : Int × Int)
    (h : e ∈ triangleEdges
      (((i : Int) + 1) * m + j, ((i : Int) + 1) * m + j + 1, (i : Int) * m + j + 1))
    (h' : e ∈ triangleEdges
      (((i' : Int) + 1) * m + j', ((i' : Int) + 1) * m + j' + 1, (i' : Int) * m + j' + 1)) :
    i = i' ∧ j = j' := by
  obtain ⟨a, b⟩ := e
  have h2 : ((i : Int) + 1) * m = i * m + m := by ring
  have h2' : ((i' : Int) + 1) * m = i' * m + m := by ring
  simp only [triangleEdges, List.mem_cons, List.mem_singleton, List.not_mem_nil, or_false,
    Prod.mk.injEq, h2, h2'] at h h'
  by_cases hm : m = 2
  · subst hm
    omega
  · exact grid_index_inj m i j i' j' (by omega) (by omega) (by omega)

theorem cells_nodup (N M : Nat) :
    ((List.range N).flatMap (fun i => (List.range M).map (fun j => (i, j)))).Nodup :=
  List.Nodup.product (List.nodup_range N) (List.nodup_range M)

/-- The triangle list of the generated grid, cell by cell, over one list of
cells. -/
theorem grid_triangles_cells (m : Int) (N M : Nat) :
    (List.range N).flatMap (fun i => (List.range M).flatMap (cellTriangles m i)) =
      ((List.range N).flatMap (fun i => (List.range M).map (fun j => (i, j)))).flatMap
        (fun (c : Nat × Nat) =>
          [((c.1 : Int) * m + c.2, ((c.1 : Int) + 1) * m + c.2, (c.1 : Int) * m + c.2 + 1),
           (((c.1 : Int) + 1) * m + c.2, ((c.1 : Int) + 1) * m + c.2 + 1,
             (c.1 : Int) * m + c.2 + 1)]) := by
  rw [List.flatMap_assoc]
  simp only [List.flatMap_map]
  rfl

/-- On a generated grid every undirected edge belongs to at most two
triangles. -/
theorem grid_edge_triangles (xmin ymin step : ℚ) (n m : Int) (e : Int × Int) :
    (trianglesOf (buildGraph xmin ymin step n m).indices).countP
      (fun t => decide (e ∈ triangleEdges t)) ≤ 2 := by
  rw [buildGraph_triangles, grid_triangles_cells, countP_flatMap_pair]
  have hcell : ∀ c ∈ (List.range (n - 1).toNat).flatMap
      (fun i => (List.range (m - 1).toNat).map (fun j => (i, j))), (c.2 : Int) + 2 ≤ m := by
    intro c hc
    simp only [List.mem_flatMap, List.mem_map, List.mem_range] at hc
    obtain ⟨i, -, j, hj, rfl⟩ := hc
    simp only
    omega
  have h1 := countP_le_one_of_unique
    (fun (c : Nat × Nat) => decide (e ∈ triangleEdges
      ((c.1 : Int) * m + c.2, ((c.1 : Int) + 1) * m + c.2, (c.1 : Int) * m + c.2 + 1)))
    _ (cells_nodup (n - 1).toNat (m - 1).toNat)
    (fun x hx y hy px py => by
      simp only [decide_eq_true_eq] at px py
      have := cell_edge_unique_lower m x.1 x.2 y.1 y.2 (hcell x hx) (hcell y hy) e px py
      exact Prod.ext this.1 this.2)
  have h2 := countP_le_one_of_unique
    (fun (c : Nat × Nat) => decide (e ∈ triangleEdges
      (((c.1 : Int) + 1) * m + c.2, ((c.1 : Int) + 1) * m + c.2 + 1,
        (c.1 : Int) * m + c.2 + 1)))
    _ (cells_nodup (n - 1).toNat (m - 1).toNat)
    (fun x hx y hy px py => by
      simp only [decide_eq_true_eq] at px py
      have := cell_edge_unique_upper m x.1 x.2 y.1 y.2 (hcell x hx) (hcell y hy) e px py
      exact Prod.ext this.1 this.2)
  omega

/-- The three vertices of every triangle of the generated grid are pairwise
distinct. -/
theorem buildGraph_triangles_distinct (xmin ymin step : ℚ) (n m : Int) :
    ∀ t ∈ trianglesOf (buildGraph xmin ymin step n m).indices,
      t.1 ≠ t.2.1 ∧ t.2.1 ≠ t.2.2 ∧ t.1 ≠ t.2.2 := by
  intro t ht
  rw [buildGraph_triangles] at ht
  simp only [List.mem_flatMap, List.mem_range] at ht
  obtain ⟨i, hi, j, hj, hmem⟩ := ht
  have hm2 : (2 : Int) ≤ m := by omega
  have h4 : ((i : Int) + 1) * m = i * m + m := by ring
  simp only [cellTriangles, List.mem_cons, List.mem_singleton, List.not_mem_nil,
    or_false] at hmem
  rcases hmem with h | h <;> subst h <;> refine ⟨?_, ?_, ?_⟩ <;> simp only [ne_eq] <;> omega

/-- C30: on a grid whose triangle list is the one returned by `generateGraph`
(whatever field values the vertices carry, so also after `updateGraph`; at
most `2^32` vertices), every point appended by one call of `addIsoline` is
referenced by at least one and at most two of the index entries written by
that call. -/
theorem contours_never_branch (xmin xmax ymin ymax step : ℚ) (g0 g : GraphData)
    (isolines out : IsolinesData) (value : ℚ)
    (hgen : generateGraph xmin xmax ymin ymax step = some g0)
    (hindices : g.indices = g0.indices)
    (hsize : g.coords.length ≤ 2 ^ 32)
    (h : addIsoline g isolines value = some out) :
    ∃ new l, out.coords = isolines.coords ++ new ∧ out.indices = isolines.indices ++ l ∧
      ∀ k : Nat, k < new.length →
        1 ≤ l.count (((isolines.coords.length + k : Nat) : Int)) ∧
        l.count (((isolines.coords.length + k : Nat) : Int)) ≤ 2 := by
  have hs : (g.coords.length : Int) ≤ 2 ^ 32 := by exact_mod_cast hsize
  rw [addIsoline_eq_crossings] at h
  cases hcs : crossings g value g.indices with
  | none =>
    rw [hcs] at h
    exact Option.noConfusion h
  | some cs =>
    rw [hcs] at h
    simp only [Option.map_some', Option.some.injEq] at h
    obtain ⟨new, hnew⟩ := foldl_coords cs ⟨[], isolines⟩
    obtain ⟨l, -, hl⟩ := foldl_indices cs ⟨[], isolines⟩
    refine ⟨new, l, by rw [← h]; exact hnew, by rw [← h]; exact hl, ?_⟩
    intro k hk
    obtain ⟨c0, hc0, hcount⟩ := foldl_count cs isolines ((isolines.coords.length + k : Nat) : Int)
      (by push_cast; omega)
      (by rw [hnew]; simp only [List.length_append]; push_cast; omega)
    rw [hcount l hl]
    obtain ⟨b0, b1⟩ := crossings_idx_bounds g value g.indices cs hcs c0 hc0
    have hcongr : cs.countP (fun c => decide (edgeKey c.idx0 c.idx1 = edgeKey c0.idx0 c0.idx1)) =
        cs.countP (fun c => decide (edgeOf c = edgeOf c0)) := by
      apply List.countP_congr
      intro c hc
      obtain ⟨a0, a1⟩ := crossings_idx_bounds g value g.indices cs hcs c hc
      simp only [decide_eq_true_eq]
      exact edgeKey_eq_iff_edgeOf_eq c c0 ⟨a0.1, by omega⟩ ⟨a1.1, by omega⟩ ⟨b0.1, by omega⟩
        ⟨b1.1, by omega⟩
    rw [hcongr]
    constructor
    · exact List.countP_pos_iff.mpr ⟨c0, hc0, by simp⟩
    · obtain ⟨n, m, -, -, hg0⟩ := (generateGraph_eq_some_iff _ _ _ _ _ _).mp hgen
      have hle := crossings_countP_edge g value (edgeOf c0) g.indices cs hcs
        (by rw [hindices, hg0]; exact buildGraph_triangles_distinct xmin ymin step n m)
      rw [hindices, hg0] at hle
      exact le_trans hle (grid_edge_triangles xmin ymin step n m (edgeOf c0))

/-- Instance of `contours_never_branch`: the 2 x 2 grid over `[0,2] x [0,2]`
carrying the values `(1, 0, 1, 1)`, at level `1/2`; the point on the shared
diagonal is referenced twice, the other two once. -/
theorem contours_never_branch_witness :
    (generateGraph 0 2 0 2 1 =
        some ⟨[⟨0, 0⟩, ⟨0, 1⟩, ⟨1, 0⟩, ⟨1, 1⟩], [0, 0, 0, 0], [0, 2, 1, 2, 3, 1]⟩ ∧
      (quadGraph 1 0 1 1).coords.length ≤ 2 ^ 32 ∧
      addIsoline (quadGraph 1 0 1 1) emptyMesh (1 / 2) =
        some ⟨[⟨49 / 100, 51 / 100, 1 / 2⟩, ⟨0, 51 / 100, 1 / 2⟩, ⟨49 / 100, 1, 1 / 2⟩],
          [0, 1, 2, 0]⟩) ∧
    ∃ new l,
      [(⟨49 / 100, 51 / 100, 1 / 2⟩ : Vec3), ⟨0, 51 / 100, 1 / 2⟩, ⟨49 / 100, 1, 1 / 2⟩] =
        emptyMesh.coords ++ new ∧
      [(0 : Int), 1, 2, 0] = emptyMesh.indices ++ l ∧
      ∀ k : Nat, k < new.length →
        1 ≤ l.count (((emptyMesh.coords.length + k : Nat) : Int)) ∧
        l.count (((emptyMesh.coords.length + k : Nat) : Int)) ≤ 2 :=
  ⟨⟨generateGraph_unit_quad, by decide, addIsoline_quad_shared⟩,
    contours_never_branch 0 2 0 2 1 _ (quadGraph 1 0 1 1) emptyMesh _ (1 / 2)
      generateGraph_unit_quad rfl (by decide) addIsoline_quad_shared⟩

end Homework1
